import Mathlib

/-!
# go-toolbox: the resilience policies

A shallow embedding of `resilience/circuitbreaker.go`, `resilience/retry.go`,
`resilience/fallback.go` and `resilience/resilience.go`.

Go closures of type `func() error` read and write state of their caller and take time.
They are embedded as functions on an explicit world: the caller's state, the reading of
the clock, and a ghost trace that records every invocation and every sleep, in order.
Go `int` and `time.Duration` values are embedded as unbounded integers: a failure count
grows by one per failed call and instants are nanoseconds on one clock, so the 64-bit
limits are out of reach of the runs considered here. Where a statement ranges over every
value of the failure count, `Execute64` counts as a Go `int` of 64 bits does.
-/

set_option linter.dupNamespace false

namespace Resilience

/-! ## Errors, the clock and the world -/

/-- Go error values: the package-level sentinel, or a value made by `errors.New`. -/
inductive GoError where
  | circuitOpen : GoError
  | New (msg : String) : GoError
  deriving DecidableEq, Repr

/-- The Go type `error`: `none` is `nil`. -/
abbrev error := Option GoError

/-- The sentinel `ErrCircuitOpen = errors.New("circuit breaker is open")`. -/
def ErrCircuitOpen : GoError := GoError.circuitOpen

/-- Ghost record of what a policy did, in order. -/
inductive Event where
  | action (r : error) : Event
  | fallbackAction (r : error) : Event
  | sleep (d : Int) : Event
  deriving DecidableEq, Repr

/-- The world a policy runs in: caller state, clock reading (ns), ghost trace. -/
structure World (σ : Type) where
  env : σ
  clock : Int
  trace : List Event

/-- What one run of a closure leaves behind: its return value, the caller state and the
clock reading when it returns. -/
structure Outcome (σ : Type) where
  err : error
  env : σ
  clock : Int

/-- A Go `func() error`: from the caller state and the clock reading at entry. -/
abbrev Action (σ : Type) := σ → Int → Outcome σ

/-- The call `action()` of the closure passed to an `Execute` method. -/
def invoke {σ : Type} (action : Action σ) (w : World σ) : error × World σ :=
  let o := action w.env w.clock
  (o.err, { env := o.env, clock := o.clock, trace := w.trace ++ [Event.action o.err] })

/-- The call `fp.fallbackAction()`. -/
def invokeFallback {σ : Type} (fallbackAction : Action σ) (w : World σ) : error × World σ :=
  let o := fallbackAction w.env w.clock
  (o.err, { env := o.env, clock := o.clock, trace := w.trace ++ [Event.fallbackAction o.err] })

/-- The call `time.Sleep(d)`: returns at once when `d <= 0`. -/
def Sleep {σ : Type} (d : Int) (w : World σ) : World σ :=
  { w with clock := w.clock + max d 0, trace := w.trace ++ [Event.sleep d] }

/-- The value of `time.Since(t)` when the clock reads `now`. -/
def Since (now t : Int) : Int := now - t

/-! ## circuitbreaker.go -/

/-- The type `State` with its three constants. -/
inductive State where
  | Closed : State
  | Open : State
  | HalfOpen : State
  deriving DecidableEq, Repr

/-- The struct `CircuitBreakerPolicy` (the mutex is not data). -/
structure CircuitBreakerPolicy where
  failureThreshold : Int
  recoveryTimeout : Int
  state : State
  failureCount : Int
  lastAttempt : Int
  deriving DecidableEq, Repr

/-- The constructor: `state: Closed`, the other fields at their zero value. -/
def NewCircuitBreakerPolicy (failureThreshold : Int) (recoveryTimeout : Int) :
    CircuitBreakerPolicy :=
  { failureThreshold := failureThreshold
    recoveryTimeout := recoveryTimeout
    state := State.Closed
    failureCount := 0
    lastAttempt := 0 }

/-- The `switch cbp.state` of `Execute`, when the clock reads `now`: `none` is the
early `return ErrCircuitOpen`, `some c` is the breaker with which the action is run. -/
def CircuitBreakerPolicy.switchState (cbp : CircuitBreakerPolicy) (now : Int) :
    Option CircuitBreakerPolicy :=
  match cbp.state with
  | State.Open =>
    if Since now cbp.lastAttempt > cbp.recoveryTimeout then
      some { cbp with state := State.HalfOpen }
    else
      none
  | State.HalfOpen =>
    if Since now cbp.lastAttempt > cbp.recoveryTimeout then
      some { cbp with state := State.Closed }
    else
      some cbp
  | State.Closed => some cbp

/-- The bookkeeping of `Execute` after `err := action()`, when `time.Now()` reads `now`. -/
def CircuitBreakerPolicy.settle (cbp : CircuitBreakerPolicy) (err : error) (now : Int) :
    CircuitBreakerPolicy :=
  if err ≠ none then
    let c1 := { cbp with failureCount := cbp.failureCount + 1 }
    let c2 := if c1.failureCount ≥ c1.failureThreshold then { c1 with state := State.Open } else c1
    { c2 with lastAttempt := now }
  else
    { cbp with failureCount := 0 }

/-- The method `(*CircuitBreakerPolicy).Execute`: the value returned, the breaker and the
world after the call. -/
def CircuitBreakerPolicy.Execute {σ : Type} (cbp : CircuitBreakerPolicy) (action : Action σ)
    (w : World σ) : error × CircuitBreakerPolicy × World σ :=
  match cbp.switchState w.clock with
  | none => (some ErrCircuitOpen, cbp, w)
  | some c =>
    let r := invoke action w
    (r.1, c.settle r.1 r.2.clock, r.2)

/-- The value a Go `int` of 64 bits holds when the exact result of an operation is `x`:
the two's complement wrap-around. -/
def wrapInt64 (x : Int) : Int :=
  (x + 9223372036854775808) % 18446744073709551616 - 9223372036854775808

/-- The bookkeeping of `Execute` after `err := action()`, with `cbp.failureCount++` on an
`int` of 64 bits. `settle` is the same statement with an unbounded count. -/
def CircuitBreakerPolicy.settle64 (cbp : CircuitBreakerPolicy) (err : error) (now : Int) :
    CircuitBreakerPolicy :=
  if err ≠ none then
    let c1 := { cbp with failureCount := wrapInt64 (cbp.failureCount + 1) }
    let c2 := if c1.failureCount ≥ c1.failureThreshold then { c1 with state := State.Open } else c1
    { c2 with lastAttempt := now }
  else
    { cbp with failureCount := 0 }

/-- The method `(*CircuitBreakerPolicy).Execute` with the failure count an `int` of 64
bits. -/
def CircuitBreakerPolicy.Execute64 {σ : Type} (cbp : CircuitBreakerPolicy) (action : Action σ)
    (w : World σ) : error × CircuitBreakerPolicy × World σ :=
  match cbp.switchState w.clock with
  | none => (some ErrCircuitOpen, cbp, w)
  | some c =>
    let r := invoke action w
    (r.1, c.settle64 r.1 r.2.clock, r.2)

/-! ## retry.go -/

/-- The struct `RetryPolicy`. -/
structure RetryPolicy where
  MaxRetries : Int
  Delay : Int
  deriving DecidableEq, Repr

/-- The constructor of a `RetryPolicy`. -/
def NewRetryPolicy (maxRetries : Int) (delay : Int) : RetryPolicy :=
  { MaxRetries := maxRetries, Delay := delay }

/-- The loop `for i := 0; i < r.MaxRetries; i++` of `Execute` with `n` iterations left and
`err` holding the last error: a nil result returns at once, a failure is followed by
`time.Sleep(r.Delay)`; when no iteration is left the loop falls through to `return err`. -/
def RetryPolicy.loop {σ : Type} (r : RetryPolicy) (action : Action σ) :
    Nat → error → World σ → error × World σ
  | 0, err, w => (err, w)
  | n + 1, _, w =>
    let a := invoke action w
    if a.1 = none then (none, a.2) else RetryPolicy.loop r action n a.1 (Sleep r.Delay a.2)

/-- The method `(*RetryPolicy).Execute`: `var err error`, then the loop. -/
def RetryPolicy.Execute {σ : Type} (r : RetryPolicy) (action : Action σ) (w : World σ) :
    error × World σ :=
  r.loop action r.MaxRetries.toNat none w

/-- The world in which the action is invoked for the `i`-th time (from 0) when every
earlier invocation was followed by a sleep of `r.Delay`. -/
def RetryPolicy.attemptWorld {σ : Type} (r : RetryPolicy) (action : Action σ) :
    World σ → Nat → World σ
  | w, 0 => w
  | w, i + 1 => RetryPolicy.attemptWorld r action (Sleep r.Delay (invoke action w).2) i

/-- The number of invocations of the action recorded in a trace. -/
def invocations (tr : List Event) : Nat :=
  tr.countP (fun e => match e with
    | Event.action _ => true
    | _ => false)

/-- The number of sleeps recorded in a trace. -/
def sleeps (tr : List Event) : Nat :=
  tr.countP (fun e => match e with
    | Event.sleep _ => true
    | _ => false)

/-- The number of sleeps of duration `d` recorded in a trace. -/
def sleepsFor (d : Int) (tr : List Event) : Nat :=
  tr.count (Event.sleep d)

/-! ## fallback.go -/

/-- The struct `FallbackPolicy`. -/
structure FallbackPolicy (σ : Type) where
  fallbackAction : Action σ

/-- The constructor of a `FallbackPolicy`. -/
def NewFallbackPolicy {σ : Type} (fallbackAction : Action σ) : FallbackPolicy σ :=
  { fallbackAction := fallbackAction }

/-- The method `(*FallbackPolicy).Execute`. -/
def FallbackPolicy.Execute {σ : Type} (fp : FallbackPolicy σ) (action : Action σ)
    (w : World σ) : error × World σ :=
  let r := invoke action w
  if r.1 ≠ none then invokeFallback fp.fallbackAction r.2 else (none, r.2)

/-- The number of invocations of the fallback action recorded in a trace. -/
def fallbacks (tr : List Event) : Nat :=
  tr.countP (fun e => match e with
    | Event.fallbackAction _ => true
    | _ => false)

/-! ## resilience.go -/

/-- The struct `Resilience`: each policy is a pointer that may be nil. The fields
`RetryPolicy`, `CircuitBreakerPolicy` and `FallbackPolicy` are written with a small first
letter, to keep them apart from the types of the same names. -/
structure Resilience (σ : Type) where
  retryPolicy : Option RetryPolicy
  circuitBreakerPolicy : Option CircuitBreakerPolicy
  fallbackPolicy : Option (FallbackPolicy σ)

/-- The constructor: all three policies nil. -/
def NewResilience {σ : Type} : Resilience σ :=
  { retryPolicy := none, circuitBreakerPolicy := none, fallbackPolicy := none }

/-- The method `WithRetry`. -/
def Resilience.WithRetry {σ : Type} (r : Resilience σ) (retryPolicy : RetryPolicy) :
    Resilience σ :=
  { r with retryPolicy := some retryPolicy }

/-- The method `WithCircuitBreaker`. -/
def Resilience.WithCircuitBreaker {σ : Type} (r : Resilience σ)
    (circuitBreakerPolicy : CircuitBreakerPolicy) : Resilience σ :=
  { r with circuitBreakerPolicy := some circuitBreakerPolicy }

/-- The method `WithFallback`. -/
def Resilience.WithFallback {σ : Type} (r : Resilience σ) (fallbackPolicy : FallbackPolicy σ) :
    Resilience σ :=
  { r with fallbackPolicy := some fallbackPolicy }

/-- The first statement of `Execute`: the retry policy when there is one, else one direct
call of the action. -/
def Resilience.firstStage {σ : Type} (r : Resilience σ) (action : Action σ) (w : World σ) :
    error × World σ :=
  match r.retryPolicy with
  | some rp => rp.Execute action w
  | none => invoke action w

/-- The second statement of `Execute`, from the error and world left by the first: the
breaker is called when `err != nil` and there is one. The breaker after the statement is
returned with the error and the world. -/
def Resilience.breakerStage {σ : Type} (r : Resilience σ) (action : Action σ)
    (s : error × World σ) : error × Option CircuitBreakerPolicy × World σ :=
  match r.circuitBreakerPolicy with
  | some cb =>
    if s.1 ≠ none then
      let b := cb.Execute action s.2
      (b.1, some b.2.1, b.2.2)
    else (s.1, some cb, s.2)
  | none => (s.1, none, s.2)

/-- The method `(*Resilience).Execute`: the value returned, the Resilience (its breaker
may have changed) and the world after the call. -/
def Resilience.Execute {σ : Type} (r : Resilience σ) (action : Action σ) (w : World σ) :
    error × Resilience σ × World σ :=
  let s1 := r.firstStage action w
  let s2 := r.breakerStage action s1
  let r2 : Resilience σ := { r with circuitBreakerPolicy := s2.2.1 }
  match r.fallbackPolicy with
  | some fp =>
    if s2.1 ≠ none then
      let f := fp.Execute action s2.2.2
      (f.1, r2, f.2)
    else (s2.1, r2, s2.2.2)
  | none => (s2.1, r2, s2.2.2)

/-- The events a call added to the trace: those after the trace it started from. -/
def newEvents (before after : List Event) : List Event :=
  after.drop before.length

/-- The value `res` is the result of an invocation of the action, or of the fallback
action, made between the traces `before` and `after`. -/
def ResultComesFromCall (res : error) (before after : List Event) : Prop :=
  Event.action res ∈ newEvents before after ∨ Event.fallbackAction res ∈ newEvents before after

/-! ## Sequences of calls on one breaker -/

/-- One call of a sequence: the time that passes before it, and its action. -/
structure Request (σ : Type) where
  pause : Int
  action : Action σ

/-- Time passing between two calls. -/
def advance {σ : Type} (d : Int) (w : World σ) : World σ :=
  { w with clock := w.clock + d }

/-- The actions of a sequence called one after the other with no breaker in between. -/
def direct {σ : Type} : List (Request σ) → World σ → List error × World σ
  | [], w => ([], w)
  | q :: qs, w =>
    let r := invoke q.action (advance q.pause w)
    let rest := direct qs r.2
    (r.1 :: rest.1, rest.2)

/-- The same sequence, each action passed to `Execute` of one breaker. -/
def runCalls {σ : Type} : CircuitBreakerPolicy → List (Request σ) → World σ →
    List error × CircuitBreakerPolicy × World σ
  | cbp, [], w => ([], cbp, w)
  | cbp, q :: qs, w =>
    let r := cbp.Execute q.action (advance q.pause w)
    let rest := runCalls r.2.1 qs r.2.2
    (r.1 :: rest.1, rest.2.1, rest.2.2)

/-- No `n` consecutive entries of a list of results are all failures. -/
def NoFailureRun (n : Int) (rs : List error) : Prop :=
  ∀ pre run post : List error, rs = pre ++ run ++ post → (run.length : Int) = n →
    ∃ e ∈ run, e = none

/-- Two breakers that no sequence of calls tells apart: they are equal, or they have the
same configuration and failure count and neither is Open. -/
def Alike (c1 c2 : CircuitBreakerPolicy) : Prop :=
  c1 = c2 ∨
    (c1.failureThreshold = c2.failureThreshold ∧ c1.recoveryTimeout = c2.recoveryTimeout ∧
      c1.failureCount = c2.failureCount ∧ c1.state ≠ State.Open ∧ c2.state ≠ State.Open)

/-- What one call of a sequence did to the state: the state before the call, the state in
which the action ran (`none` when the call was rejected), the state after the call. -/
structure CallRecord where
  before : State
  during : Option State
  after : State
  deriving DecidableEq, Repr

/-- The records of a sequence of calls on one breaker, in order. -/
def callLog {σ : Type} : CircuitBreakerPolicy → List (Request σ) → World σ → List CallRecord
  | _, [], _ => []
  | cbp, q :: qs, w =>
    let r := cbp.Execute q.action (advance q.pause w)
    { before := cbp.state
      during := (cbp.switchState (advance q.pause w).clock).map (fun c => c.state)
      after := r.2.1.state } :: callLog r.2.1 qs r.2.2

/-- The number of calls that run their action in state HalfOpen, counted over the records
from a call on, up to the moment the state becomes Closed or Open. -/
def probesInEpisode : List CallRecord → Nat
  | [] => 0
  | r :: rest =>
    if r.during = some State.Closed then 0
    else
      (if r.during = some State.HalfOpen then 1 else 0) +
        (if r.after = State.HalfOpen then probesInEpisode rest else 0)

/-- The clock never goes backwards during a sequence of calls: no pause is negative and no
action returns at an earlier instant than it was entered. -/
def ClockNeverGoesBack {σ : Type} (qs : List (Request σ)) : Prop :=
  ∀ q ∈ qs, 0 ≤ q.pause ∧ ∀ (env : σ) (t : Int), t ≤ (q.action env t).clock

/-- What holds of a reachable breaker between calls when the clock reads `t`: a Closed
breaker is below its threshold, an Open breaker has reached it, and a HalfOpen breaker
counts no failure and is past its recovery timeout. -/
def ReachableInv (cbp : CircuitBreakerPolicy) (t : Int) : Prop :=
  (cbp.state = State.Closed → cbp.failureCount < cbp.failureThreshold) ∧
  (cbp.state = State.Open → cbp.failureThreshold ≤ cbp.failureCount) ∧
  (cbp.state = State.HalfOpen →
    cbp.failureCount = 0 ∧ Since t cbp.lastAttempt > cbp.recoveryTimeout)

/-- What holds of a breaker between calls when the clock reads `t`: an Open breaker has
reached its threshold, and a HalfOpen breaker is past its recovery timeout. -/
def ProbeInv (cbp : CircuitBreakerPolicy) (t : Int) : Prop :=
  (cbp.state = State.Open → cbp.failureThreshold ≤ cbp.failureCount) ∧
  (cbp.state = State.HalfOpen → Since t cbp.lastAttempt > cbp.recoveryTimeout)

/-! ## Concrete inputs -/

/-- An action that takes one nanosecond and fails. -/
def failing : Action Unit := fun _ t => { err := some (GoError.New "failed"), env := (), clock := t + 1 }

/-- An action that takes one nanosecond and succeeds. -/
def succeeding : Action Unit := fun _ t => { err := none, env := (), clock := t + 1 }

/-- The world at the start of a test. -/
def w0 : World Unit := { env := (), clock := 0, trace := [] }

/-- Three failing calls, one right after the other. -/
def threeFailures : List (Request Unit) :=
  [{ pause := 0, action := failing }, { pause := 0, action := failing },
   { pause := 0, action := failing }]

/-- Two failures, a success, two failures: no three failures in a row. -/
def interruptedFailures : List (Request Unit) :=
  [{ pause := 0, action := failing }, { pause := 0, action := failing },
   { pause := 0, action := succeeding },
   { pause := 0, action := failing }, { pause := 0, action := failing }]

/-- A breaker that opened at instant 3 after three failures, threshold 3, timeout 60. -/
def openedBreaker : CircuitBreakerPolicy :=
  { failureThreshold := 3, recoveryTimeout := 60, state := State.Open, failureCount := 3,
    lastAttempt := 3 }

/-- A breaker left HalfOpen by a successful probe. -/
def probedBreaker : CircuitBreakerPolicy :=
  { failureThreshold := 3, recoveryTimeout := 60, state := State.HalfOpen, failureCount := 0,
    lastAttempt := 3 }

/-- A Closed breaker whose failure count is the largest `int` of 64 bits. -/
def saturatedBreaker : CircuitBreakerPolicy :=
  { failureThreshold := 3, recoveryTimeout := 60, state := State.Closed,
    failureCount := 9223372036854775807, lastAttempt := 0 }

/-- A world whose clock reads `t`, with an empty trace. -/
def worldAt (t : Int) : World Unit := { env := (), clock := t, trace := [] }

/-- Three failures that open a breaker of threshold 3, a successful probe 100 ns later,
then two more successes. -/
def probingRun : List (Request Unit) :=
  threeFailures ++
    [{ pause := 100, action := succeeding }, { pause := 0, action := succeeding },
     { pause := 0, action := succeeding }]

/-- The action of the retry test: it counts its invocations in the caller state and fails
until the third one; each invocation takes one nanosecond. -/
def succeedsOnThird : Action Nat := fun attempt t =>
  { err := if attempt + 1 < 3 then some (GoError.New "failed") else none
    env := attempt + 1
    clock := t + 1 }

/-- The world at the start of the retry test: no attempt made yet. -/
def retryWorld : World Nat := { env := 0, clock := 0, trace := [] }

/-- An action that counts its invocations in the caller state and always fails, with an
error that names the invocation; each invocation takes one nanosecond. -/
def failsNumbered : Action Nat := fun attempt t =>
  { err := some (GoError.New (if attempt = 0 then "first failure" else "later failure"))
    env := attempt + 1
    clock := t + 1 }

/-- The Resilience of the example program: three retries 2 s apart, a breaker of threshold
2 with a recovery timeout of 5 s, and a fallback that returns nil. -/
def exampleResilience : Resilience Unit :=
  ((NewResilience.WithRetry (NewRetryPolicy 3 2000000000)).WithCircuitBreaker
    (NewCircuitBreakerPolicy 2 5000000000)).WithFallback (NewFallbackPolicy succeeding)

/-- A Resilience whose breaker is Closed with one failure counted, and whose fallback
fails. -/
def guardedResilience : Resilience Unit :=
  (NewResilience.WithCircuitBreaker
    { failureThreshold := 3, recoveryTimeout := 60, state := State.Closed, failureCount := 1,
      lastAttempt := 3 }).WithFallback (NewFallbackPolicy failing)

/-- A Resilience with nothing but a breaker, which opened at instant 3. -/
def openedResilience : Resilience Unit :=
  NewResilience.WithCircuitBreaker openedBreaker

end Resilience

/-!
# go-toolbox: the validation rules

A shallow embedding of `validation/rules.go` and `validation/validator.go`. A value passed
as `any` is embedded with the kind `reflect` sees, and with what `Len`, `IsNil`, `Elem` and
`reflect.DeepEqual` against the zero value of its type depend on.
-/

namespace Validation

open Resilience (GoError error)

/-! ## Go values behind `any` -/

/-- A Go value as held by an `any`: `nilInterface` is the nil interface itself; a slice, a
map, a channel, a pointer or a func may be the nil of its type; a channel is given by the
number of elements queued in it, which is what `Len` reports. -/
inductive GoValue where
  | nilInterface : GoValue
  | bool (b : Bool) : GoValue
  | int (n : Int) : GoValue
  | string (s : String) : GoValue
  | array (elems : List GoValue) : GoValue
  | nilChan : GoValue
  | chan (queued : Nat) : GoValue
  | nilMap : GoValue
  | map (entries : List (GoValue × GoValue)) : GoValue
  | nilSlice : GoValue
  | slice (elems : List GoValue) : GoValue
  | nilPtr : GoValue
  | ptr (target : GoValue) : GoValue
  | struct (fields : List GoValue) : GoValue
  | nilFunc : GoValue
  | func : GoValue

mutual
/-- The value is deeply equal to the zero value of its type, as `reflect.DeepEqual`
decides: false, 0 and "" are; an array or struct is when all its elements or fields are; a
slice, map, channel, pointer, func or interface is only when it is nil. -/
def isZero : GoValue → Bool
  | GoValue.nilInterface => true
  | GoValue.bool b => !b
  | GoValue.int n => n == 0
  | GoValue.string s => s == ""
  | GoValue.array elems => allZero elems
  | GoValue.nilChan => true
  | GoValue.chan _ => false
  | GoValue.nilMap => true
  | GoValue.map _ => false
  | GoValue.nilSlice => true
  | GoValue.slice _ => false
  | GoValue.nilPtr => true
  | GoValue.ptr _ => false
  | GoValue.struct fields => allZero fields
  | GoValue.nilFunc => true
  | GoValue.func => false
/-- Every value of the list is deeply equal to the zero value of its type. -/
def allZero : List GoValue → Bool
  | [] => true
  | v :: vs => isZero v && allZero vs
end

/-! ## Floating-point values -/

/-- A value of the Go type `float64` as the comparison operators see it: not-a-number, the
two infinities, or a finite value (a rational; the two zeros compare equal). -/
inductive Float64 where
  | NaN : Float64
  | negInf : Float64
  | finite (q : ℚ) : Float64
  | posInf : Float64

/-- The operator `<` of Go on `float64`: false as soon as an operand is NaN. -/
def Float64.lt : Float64 → Float64 → Bool
  | Float64.NaN, _ => false
  | _, Float64.NaN => false
  | _, Float64.negInf => false
  | Float64.negInf, _ => true
  | Float64.posInf, _ => false
  | Float64.finite _, Float64.posInf => true
  | Float64.finite a, Float64.finite b => decide (a < b)

/-- The operator `<=` of Go on `float64`: false as soon as an operand is NaN. -/
def Float64.le : Float64 → Float64 → Bool
  | Float64.NaN, _ => false
  | _, Float64.NaN => false
  | Float64.negInf, _ => true
  | _, Float64.posInf => true
  | Float64.posInf, _ => false
  | Float64.finite _, Float64.negInf => false
  | Float64.finite a, Float64.finite b => decide (a ≤ b)

instance : LT Float64 := ⟨fun a b => Float64.lt a b = true⟩

instance : LE Float64 := ⟨fun a b => Float64.le a b = true⟩

instance (a b : Float64) : Decidable (a < b) :=
  inferInstanceAs (Decidable (Float64.lt a b = true))

instance (a b : Float64) : Decidable (a ≤ b) :=
  inferInstanceAs (Decidable (Float64.le a b = true))

/-! ## rules.go -/

/-- The function `isEmpty`: nil is empty; an array, channel, map or slice is empty when its
`Len` is 0; a nil pointer is empty and another pointer is when what it points to is; any
other value is empty when it is deeply equal to the zero value of its type. -/
def isEmpty : GoValue → Bool
  | GoValue.nilInterface => true
  | GoValue.array elems => elems.length == 0
  | GoValue.nilChan => true
  | GoValue.chan queued => queued == 0
  | GoValue.nilMap => true
  | GoValue.map entries => entries.length == 0
  | GoValue.nilSlice => true
  | GoValue.slice elems => elems.length == 0
  | GoValue.nilPtr => true
  | GoValue.ptr target => isEmpty target
  | GoValue.bool b => isZero (GoValue.bool b)
  | GoValue.int n => isZero (GoValue.int n)
  | GoValue.string s => isZero (GoValue.string s)
  | GoValue.struct fields => isZero (GoValue.struct fields)
  | GoValue.nilFunc => isZero GoValue.nilFunc
  | GoValue.func => isZero GoValue.func

/-- The function `NotEmpty`: `getField` gives the field as the `any` passed to `isEmpty`. -/
def NotEmpty {T : Type} (getField : T → GoValue) : T → error :=
  fun entity =>
    if isEmpty (getField entity) then some (GoError.New "field cannot be empty") else none

/-- The builtin `len` of a string: its number of bytes. -/
def len (s : String) : Int := (s.utf8ByteSize : Int)

/-- The function `MaxLength`. -/
def MaxLength {T : Type} (getField : T → String) (maxLength : Int) : T → error :=
  fun entity =>
    if len (getField entity) > maxLength then some (GoError.New "field exceeds maximum length")
    else none

/-- The function `MinLength`. -/
def MinLength {T : Type} (getField : T → String) (minLength : Int) : T → error :=
  fun entity =>
    if len (getField entity) < minLength then some (GoError.New "field is below minimum length")
    else none

/-- The function `IsInRange`. The constraint `constraints.Ordered` admits the integer,
floating-point and string types: what the body uses of `N` is its operator `<` (`val > max`
is `max < val`), which on a floating-point type is not a linear order. -/
def IsInRange {T N : Type} [LT N] [(a b : N) → Decidable (a < b)] (getField : T → N)
    (min max : N) : T → error :=
  fun entity =>
    let val := getField entity
    if val < min ∨ val > max then some (GoError.New "field is out of range") else none

/-! ## validator.go -/

/-- The struct `Validator`. -/
structure Validator (T : Type) where
  rules : List (T → error)

/-- The constructor: no rules. -/
def NewValidator {T : Type} : Validator T := { rules := [] }

/-- The method `AddRule`: `append(v.rules, rule)`. -/
def Validator.AddRule {T : Type} (v : Validator T) (rule : T → error) : Validator T :=
  { rules := v.rules ++ [rule] }

/-- The loop of `Validate` over the rules left: the value returned, and as a ghost the
results of the rules that were called, in the order of the calls. -/
def Validator.loop {T : Type} : List (T → error) → T → error × List error
  | [], _ => (none, [])
  | rule :: rest, entity =>
    match rule entity with
    | some err => (some err, [some err])
    | none => (Prod.fst (Validator.loop rest entity), none :: Prod.snd (Validator.loop rest entity))

/-- The method `Validate`. -/
def Validator.Validate {T : Type} (v : Validator T) (entity : T) : error :=
  (Validator.loop v.rules entity).1

/-- The results of the rules that `Validate` called, in order. -/
def Validator.evaluated {T : Type} (v : Validator T) (entity : T) : List error :=
  (Validator.loop v.rules entity).2

/-! ## Concrete inputs -/

/-- The struct `TestUser` of the tests: `Roles` is `none` for a nil slice. -/
structure TestUser where
  Name : String
  Age : Int
  Roles : Option (List String)
  IsActive : Bool

/-- The getter `func(u TestUser) string { return u.Name }`, as passed to `NotEmpty`. -/
def nameField (u : TestUser) : GoValue := GoValue.string u.Name

/-- The getter `func(u TestUser) []string { return u.Roles }`, as passed to `NotEmpty`. -/
def rolesField (u : TestUser) : GoValue :=
  match u.Roles with
  | none => GoValue.nilSlice
  | some roles => GoValue.slice (roles.map GoValue.string)

/-- The validator of `TestNotEmpty_Array`. -/
def rolesValidator : Validator TestUser :=
  NewValidator.AddRule (NotEmpty rolesField)

/-- The validator of `TestCombinedRules`. -/
def combinedValidator : Validator TestUser :=
  ((NewValidator.AddRule (NotEmpty nameField)).AddRule
    (MaxLength (fun u => u.Name) 5)).AddRule (IsInRange (fun u => u.Age) 18 60)

/-- The first user of `TestNotEmpty_Array`. -/
def userWithRoles : TestUser :=
  { Name := "Alice", Age := 0, Roles := some ["Admin", "User"], IsActive := false }

/-- The second user of `TestNotEmpty_Array`. -/
def userWithoutRoles : TestUser :=
  { Name := "", Age := 0, Roles := some [], IsActive := false }

end Validation

/-!
# go-toolbox: the rate limiter

A shallow embedding of `ratelimit/ratelimiter.go`. The Redis server is outside the
repository: a sorted set is embedded as the list of its entries, each a member (a timestamp
in nanoseconds) with its score (the float64 nearest to that timestamp, held by its exact
value), with at most one deadline per key; the server is taken to read the same clock as
the caller.
-/

namespace Ratelimit

open Resilience (GoError error)

/-! ## The conversion to float64 -/

/-- The multiple of `P` nearest to `n`; half-way between two multiples, the even one. -/
def roundHalfEven (P n : Nat) : Nat :=
  if 2 * (n % P) < P then n / P * P
  else if P < 2 * (n % P) then (n / P + 1) * P
  else if n / P % 2 = 0 then n / P * P
  else (n / P + 1) * P

/-- The distance between neighbouring values of a float64 at the magnitude of `n`: 1 below
`2 ^ 53`, and doubling with every further binary digit of `n`. The first argument bounds
the number of halvings; `n` itself is more than enough. -/
def spacing : Nat → Nat → Nat
  | 0, _ => 1
  | fuel + 1, n => if n < 2 ^ 53 then 1 else 2 * spacing fuel (n / 2)

/-- The conversion of a natural number to a float64, by its exact value: the number rounded
to 53 significant binary digits, to nearest, ties to even. -/
def float64Nat (n : Nat) : Nat := roundHalfEven (spacing n n) n

/-- The Go conversion `float64(x)` of an integer, and the reading of a decimal integer as a
double by Redis, by the exact value of the result; the rounding is symmetric about 0. -/
def float64 : Int → Int
  | Int.ofNat n => (float64Nat n : Int)
  | Int.negSucc n => -(float64Nat (n + 1) : Int)

/-! ## The Redis commands used -/

/-- The struct `redis.Z`, an entry of a sorted set: the member is the integer that `Allow`
passes, and the score is a float64, held by its exact value. -/
structure Z where
  Score : Int
  Member : Int
  deriving DecidableEq, Repr

/-- Modelled from the spec: the Redis server, which is outside `src/`. Its state is the
entries of the sorted set at each key, each a member with its score, and the instant at
which the key expires, if one is set. -/
structure Redis where
  members : String → List Z
  deadline : String → Option Int

/-- A server with no key. -/
def Redis.empty : Redis := { members := fun _ => [], deadline := fun _ => none }

/-- The server with the entries at `key` replaced. -/
def Redis.setMembers (db : Redis) (key : String) (ms : List Z) : Redis :=
  { db with members := fun k => if k = key then ms else db.members k }

/-- Modelled from the spec: the entries a command sees at `key` when the clock reads `now`,
none once the deadline of the key has passed. -/
def Redis.live (db : Redis) (key : String) (now : Int) : List Z :=
  match db.deadline key with
  | some d => if d ≤ now then [] else db.members key
  | none => db.members key

/-- Modelled from the spec: the command ZREMRANGEBYSCORE. The bounds arrive as the decimal
integers `min` and `max`, which the server reads as doubles; it drops the entries with a
score from the one to the other, both included. -/
def ZRemRangeByScore (db : Redis) (key : String) (min max : Int) : Redis :=
  db.setMembers key ((db.members key).filter
    (fun e => !(decide (float64 min ≤ e.Score) && decide (e.Score ≤ float64 max))))

/-- Modelled from the spec: the command ZADD with one entry, which gives the member the
score of the entry when the set holds the member, and adds the entry otherwise. -/
def ZAdd (db : Redis) (key : String) (z : Z) : Redis :=
  db.setMembers key
    (if (db.members key).any (fun e => decide (e.Member = z.Member))
      then (db.members key).map (fun e => if e.Member = z.Member then z else e)
      else db.members key ++ [z])

/-- Modelled from the spec: the command ZCARD, the number of entries of the set. -/
def ZCard (db : Redis) (key : String) : Int :=
  ((db.members key).length : Int)

/-- Modelled from the spec: the command EXPIRE, issued when the clock reads `now`. -/
def Expire (db : Redis) (key : String) (ttl now : Int) : Redis :=
  { db with deadline := fun k => if k = key then some (now + ttl) else db.deadline k }

/-! ## ratelimiter.go -/

/-- The struct `RateLimit`; the client is the `Redis` state passed to `Allow`, and the
field `pfx` is the key prefix. -/
structure RateLimit where
  rate : Int
  per : Int
  pfx : String

/-- The constructor of a `RateLimit`. -/
def NewRateLimiter (rate : Int) (per : Int) (pfx : String) : RateLimit :=
  { rate := rate, per := per, pfx := pfx }

/-- The method `getKey`: `fmt.Sprintf("%s:%s", ...)`. -/
def RateLimit.getKey (rl : RateLimit) (identifier : String) : String :=
  rl.pfx ++ ":" ++ identifier

/-- The method `Allow` when `time.Now()` reads `now`, in nanoseconds. `execErr` is what
`pipeline.Exec` returns; when it is an error no command has taken effect. Otherwise the
four commands run in order on the entries the server sees at `now`: the bounds of the
range are the texts `"0"` and `now.Add(-rl.per).UnixNano()` in decimal, and the entry
written has the member `now.UnixNano()` and the score `float64(now.UnixNano())`. -/
def RateLimit.Allow (rl : RateLimit) (identifier : String) (now : Int) (execErr : error)
    (db : Redis) : (Bool × error) × Redis :=
  let key := rl.getKey identifier
  match execErr with
  | some e => ((false, some e), db)
  | none =>
    let db0 := db.setMembers key (db.live key now)
    let db1 := ZRemRangeByScore db0 key 0 (now - rl.per)
    let db2 := ZAdd db1 key { Score := float64 now, Member := now }
    let count := ZCard db2 key
    let db3 := Expire db2 key rl.per now
    ((decide (count ≤ rl.rate), none), db3)

/-- The calls `Allow(ctx, identifier)` made at the instants of a list, in order, none with
an error from Redis: the booleans returned and the server afterwards. -/
def RateLimit.allowAll (rl : RateLimit) (identifier : String) : List Int → Redis →
    List Bool × Redis
  | [], db => ([], db)
  | now :: rest, db =>
    let r := rl.Allow identifier now none db
    (r.1.1 :: (RateLimit.allowAll rl identifier rest r.2).1,
      (RateLimit.allowAll rl identifier rest r.2).2)

/-- The entry that a call of `Allow` at the instant `t` writes. -/
def entryAt (t : Int) : Z := { Score := float64 t, Member := t }

/-! ## Concrete inputs -/

/-- The limiter of the test: 5 calls per minute. -/
def testLimiter : RateLimit := NewRateLimiter 5 60000000000 "test_prefix"

/-- Six calls one millisecond apart, starting 1 700 000 000 seconds after the epoch. -/
def sixCalls : List Int :=
  [1700000000000000000, 1700000000001000000, 1700000000002000000, 1700000000003000000,
   1700000000004000000, 1700000000005000000]

/-- A limiter of one call per second. -/
def edgeLimiter : RateLimit := NewRateLimiter 1 1000000000 "test_prefix"

/-- Two calls less than a second apart, by one nanosecond. -/
def edgeCalls : List Int := [1700000000000000001, 1700000001000000000]

end Ratelimit

namespace Resilience

/-! ## Basic facts about one call -/

theorem invoke_fst {σ : Type} (a : Action σ) (w : World σ) :
    (invoke a w).1 = (a w.env w.clock).err := rfl

theorem invoke_trace {σ : Type} (a : Action σ) (w : World σ) :
    (invoke a w).2.trace = w.trace ++ [Event.action (invoke a w).1] := rfl

theorem Execute_of_switch_some {σ : Type} (cbp c : CircuitBreakerPolicy) (a : Action σ)
    (w : World σ) (h : cbp.switchState w.clock = some c) :
    cbp.Execute a w = ((invoke a w).1, c.settle (invoke a w).1 (invoke a w).2.clock, (invoke a w).2) := by
  simp [CircuitBreakerPolicy.Execute, h]

theorem Execute_of_switch_none {σ : Type} (cbp : CircuitBreakerPolicy) (a : Action σ)
    (w : World σ) (h : cbp.switchState w.clock = none) :
    cbp.Execute a w = (some ErrCircuitOpen, cbp, w) := by
  simp [CircuitBreakerPolicy.Execute, h]

theorem switchState_closed (cbp : CircuitBreakerPolicy) (now : Int)
    (h : cbp.state = State.Closed) : cbp.switchState now = some cbp := by
  simp [CircuitBreakerPolicy.switchState, h]

theorem switchState_open_late (cbp : CircuitBreakerPolicy) (now : Int)
    (h : cbp.state = State.Open) (ht : Since now cbp.lastAttempt > cbp.recoveryTimeout) :
    cbp.switchState now = some { cbp with state := State.HalfOpen } := by
  simp [CircuitBreakerPolicy.switchState, h, ht]

theorem switchState_open_early (cbp : CircuitBreakerPolicy) (now : Int)
    (h : cbp.state = State.Open) (ht : Since now cbp.lastAttempt ≤ cbp.recoveryTimeout) :
    cbp.switchState now = none := by
  have : ¬ Since now cbp.lastAttempt > cbp.recoveryTimeout := not_lt.mpr ht
  simp [CircuitBreakerPolicy.switchState, h, this]

theorem switchState_halfOpen (cbp : CircuitBreakerPolicy) (now : Int)
    (h : cbp.state = State.HalfOpen) :
    cbp.switchState now =
      some (if Since now cbp.lastAttempt > cbp.recoveryTimeout then
        { cbp with state := State.Closed } else cbp) := by
  by_cases ht : Since now cbp.lastAttempt > cbp.recoveryTimeout <;>
    simp [CircuitBreakerPolicy.switchState, h, ht]

theorem settle_ok (c : CircuitBreakerPolicy) (now : Int) :
    c.settle none now = { c with failureCount := 0 } := by
  simp [CircuitBreakerPolicy.settle]

theorem settle_fail (c : CircuitBreakerPolicy) (err : error) (now : Int) (h : err ≠ none) :
    c.settle err now =
      { c with
        failureCount := c.failureCount + 1
        state := if c.failureCount + 1 ≥ c.failureThreshold then State.Open else c.state
        lastAttempt := now } := by
  by_cases hc : c.failureThreshold ≤ c.failureCount + 1 <;>
    simp [CircuitBreakerPolicy.settle, h, hc]

theorem direct_trace {σ : Type} (qs : List (Request σ)) (w : World σ) :
    (direct qs w).2.trace = w.trace ++ (direct qs w).1.map Event.action := by
  induction qs generalizing w with
  | nil => simp [direct]
  | cons q qs ih =>
    simp only [direct, List.map_cons]
    rw [ih, invoke_trace]
    simp [advance]

theorem direct_length {σ : Type} (qs : List (Request σ)) (w : World σ) :
    (direct qs w).1.length = qs.length := by
  induction qs generalizing w with
  | nil => simp [direct]
  | cons q qs ih => simp [direct, ih]

/-- A closed breaker whose count stays within the threshold lets a run of failing actions
through unchanged; it ends Open exactly when the count reaches the threshold. -/
theorem runCalls_closed_failures {σ : Type} (qs : List (Request σ)) :
    ∀ (cbp : CircuitBreakerPolicy) (w : World σ),
      cbp.state = State.Closed →
      (∀ e ∈ (direct qs w).1, e ≠ none) →
      cbp.failureCount + (qs.length : Int) ≤ cbp.failureThreshold →
      (runCalls cbp qs w).1 = (direct qs w).1 ∧
      (runCalls cbp qs w).2.2 = (direct qs w).2 ∧
      (runCalls cbp qs w).2.1.failureThreshold = cbp.failureThreshold ∧
      (runCalls cbp qs w).2.1.recoveryTimeout = cbp.recoveryTimeout ∧
      (runCalls cbp qs w).2.1.failureCount = cbp.failureCount + (qs.length : Int) ∧
      (qs ≠ [] → (runCalls cbp qs w).2.1.lastAttempt = (direct qs w).2.clock) ∧
      (runCalls cbp qs w).2.1.state =
        (if 0 < qs.length ∧ cbp.failureCount + (qs.length : Int) = cbp.failureThreshold
          then State.Open else State.Closed) := by
  induction qs with
  | nil =>
    intro cbp w hst _ _
    simp [runCalls, direct, hst]
  | cons q qs ih =>
    intro cbp w hst hfail hlen
    have hhead : (invoke q.action (advance q.pause w)).1 ≠ none :=
      hfail _ (by simp [direct])
    have hex := Execute_of_switch_some cbp cbp q.action (advance q.pause w)
      (switchState_closed cbp _ hst)
    rw [settle_fail _ _ _ hhead] at hex
    cases qs with
    | nil =>
      simp only [runCalls, direct, hex]
      simp only [List.length_singleton, Nat.cast_one] at hlen
      by_cases hc : cbp.failureThreshold ≤ cbp.failureCount + 1
      · have : cbp.failureCount + 1 = cbp.failureThreshold := le_antisymm hlen hc
        simp [hc, this]
      · have : cbp.failureCount + 1 ≠ cbp.failureThreshold := fun h => hc (le_of_eq h.symm)
        simp [hc, this, hst]
    | cons q2 qs2 =>
      have hlen2 : cbp.failureCount + 1 + ((q2 :: qs2).length : Int) ≤ cbp.failureThreshold := by
        simp only [List.length_cons, Nat.cast_add, Nat.cast_one] at hlen ⊢
        omega
      have hlt : ¬ cbp.failureThreshold ≤ cbp.failureCount + 1 := by
        simp only [List.length_cons, Nat.cast_add, Nat.cast_one] at hlen2
        omega
      have htail : ∀ e ∈ (direct (q2 :: qs2) (invoke q.action (advance q.pause w)).2).1, e ≠ none := by
        intro e he
        exact hfail e (by simp only [direct] at he ⊢; exact List.mem_cons_of_mem _ he)
      have := ih { cbp with
          failureCount := cbp.failureCount + 1
          state := if cbp.failureCount + 1 ≥ cbp.failureThreshold then State.Open else cbp.state
          lastAttempt := (invoke q.action (advance q.pause w)).2.clock }
        (invoke q.action (advance q.pause w)).2 (by simp [hlt, hst]) htail hlen2
      obtain ⟨h1, h2, h3, h4, h5, h6, h7⟩ := this
      rw [runCalls, hex]
      rw [direct]
      refine ⟨?_, ?_, ?_, ?_, ?_, ?_, ?_⟩
      · simp only [h1]
      · simp only [h2]
      · simp only [h3]
      · simp only [h4]
      · simp only [h5, List.length_cons, Nat.cast_add, Nat.cast_one]; omega
      · intro _; simp only [h6 (by simp)]
      · simp only [h7, List.length_cons, Nat.cast_add, Nat.cast_one, Nat.zero_lt_succ, true_and]
        congr 1
        apply propext
        constructor <;> intro h <;> omega

theorem direct_take {σ : Type} (qs : List (Request σ)) (k : Nat) :
    ∀ w : World σ, (direct (qs.take k) w).1 = (direct qs w).1.take k := by
  induction qs generalizing k with
  | nil => intro w; simp [direct]
  | cons q qs ih =>
    intro w
    cases k with
    | zero => simp [direct]
    | succ k => simp [direct, ih]

theorem NoFailureRun.take {n : Int} {rs : List error} (h : NoFailureRun n rs) (k : Nat) :
    NoFailureRun n (rs.take k) := by
  intro pre run post heq hlen
  apply h pre run (post ++ rs.drop k) _ hlen
  conv_lhs => rw [← List.take_append_drop k rs, heq]
  simp

/-- A closed breaker lets a sequence through unchanged and stays Closed as long as the
results, counted from its current failure count, never complete a run of failures as long
as the threshold. -/
theorem runCalls_closed_noRun {σ : Type} (qs : List (Request σ)) :
    ∀ (cbp : CircuitBreakerPolicy) (w : World σ),
      cbp.state = State.Closed →
      0 < cbp.failureThreshold →
      cbp.failureCount < cbp.failureThreshold →
      NoFailureRun cbp.failureThreshold (direct qs w).1 →
      (∀ run post : List error, (direct qs w).1 = run ++ post →
        (run.length : Int) = cbp.failureThreshold - cbp.failureCount → ∃ e ∈ run, e = none) →
      (runCalls cbp qs w).1 = (direct qs w).1 ∧
      (runCalls cbp qs w).2.2 = (direct qs w).2 ∧
      (runCalls cbp qs w).2.1.state = State.Closed := by
  induction qs with
  | nil =>
    intro cbp w hst _ _ _ _
    simp [runCalls, direct, hst]
  | cons q qs ih =>
    intro cbp w hst h0 hc hrun hpre
    have hex := Execute_of_switch_some cbp cbp q.action (advance q.pause w)
      (switchState_closed cbp _ hst)
    have hd : (direct (q :: qs) w).1 =
        (invoke q.action (advance q.pause w)).1 ::
          (direct qs (invoke q.action (advance q.pause w)).2).1 := rfl
    have hrun2 : NoFailureRun cbp.failureThreshold
        (direct qs (invoke q.action (advance q.pause w)).2).1 := by
      intro pre run post heq hlen
      exact hrun ((invoke q.action (advance q.pause w)).1 :: pre) run post
        (by rw [hd, heq]; simp) hlen
    cases hr : (invoke q.action (advance q.pause w)).1 with
    | none =>
      have hs : cbp.settle (invoke q.action (advance q.pause w)).1
          (invoke q.action (advance q.pause w)).2.clock = { cbp with failureCount := 0 } := by
        rw [hr]; exact settle_ok _ _
      rw [hs] at hex
      obtain ⟨h1, h2, h3⟩ := ih { cbp with failureCount := 0 }
        (invoke q.action (advance q.pause w)).2 hst h0 h0 hrun2
        (by
          intro run post heq hlen
          exact hrun2 [] run post (by simpa using heq) (by simpa using hlen))
      rw [runCalls, hex, direct]
      exact ⟨by simp only [h1], by simp only [h2], by simp only [h3]⟩
    | some e =>
      have hne : (invoke q.action (advance q.pause w)).1 ≠ none := by rw [hr]; simp
      rw [settle_fail _ _ _ hne] at hex
      have hlt : ¬ cbp.failureThreshold ≤ cbp.failureCount + 1 := by
        intro hle
        have heq1 : cbp.failureThreshold - cbp.failureCount = 1 := by omega
        obtain ⟨x, hx, hx0⟩ := hpre [(invoke q.action (advance q.pause w)).1]
          (direct qs (invoke q.action (advance q.pause w)).2).1 (by rw [hd]; simp)
          (by simp [heq1])
        simp only [List.mem_singleton] at hx
        rw [hx] at hx0
        exact hne hx0
      obtain ⟨h1, h2, h3⟩ := ih { cbp with
          failureCount := cbp.failureCount + 1
          state := if cbp.failureCount + 1 ≥ cbp.failureThreshold then State.Open else cbp.state
          lastAttempt := (invoke q.action (advance q.pause w)).2.clock }
        (invoke q.action (advance q.pause w)).2 (by simp [hlt, hst]) h0
        (by simp only []; omega) hrun2
        (by
          intro run post heq hlen
          obtain ⟨x, hx, hx0⟩ := hpre ((invoke q.action (advance q.pause w)).1 :: run) post
            (by rw [hd, heq]; simp)
            (by simp only [List.length_cons, Nat.cast_add, Nat.cast_one]; simp only [] at hlen; omega)
          rcases List.mem_cons.mp hx with hx1 | hx1
          · rw [hx1] at hx0; exact absurd hx0 hne
          · exact ⟨x, hx1, hx0⟩)
      rw [runCalls, hex, direct]
      exact ⟨by simp only [h1], by simp only [h2], by simp only [h3]⟩

theorem switchState_not_open (cbp : CircuitBreakerPolicy) (now : Int)
    (h : cbp.state ≠ State.Open) :
    ∃ c, cbp.switchState now = some c ∧ c.state ≠ State.Open ∧
      c.failureThreshold = cbp.failureThreshold ∧ c.recoveryTimeout = cbp.recoveryTimeout ∧
      c.failureCount = cbp.failureCount ∧ c.lastAttempt = cbp.lastAttempt := by
  cases hs : cbp.state with
  | Open => exact absurd hs h
  | Closed => exact ⟨cbp, switchState_closed cbp now hs, h, rfl, rfl, rfl, rfl⟩
  | HalfOpen =>
    refine ⟨_, switchState_halfOpen cbp now hs, ?_, ?_, ?_, ?_, ?_⟩ <;>
      by_cases ht : Since now cbp.lastAttempt > cbp.recoveryTimeout <;> simp [ht, hs]

theorem settle_alike (c1 c2 : CircuitBreakerPolicy) (err : error) (now : Int)
    (h1 : c1.failureThreshold = c2.failureThreshold)
    (h2 : c1.recoveryTimeout = c2.recoveryTimeout)
    (h3 : c1.failureCount = c2.failureCount)
    (h4 : c1.state ≠ State.Open) (h5 : c2.state ≠ State.Open) :
    Alike (c1.settle err now) (c2.settle err now) := by
  cases err with
  | none =>
    rw [settle_ok, settle_ok]
    exact Or.inr ⟨h1, h2, rfl, h4, h5⟩
  | some e =>
    rw [settle_fail c1 _ _ (by simp), settle_fail c2 _ _ (by simp)]
    by_cases hc : c2.failureThreshold ≤ c2.failureCount + 1
    · left
      simp [h1, h2, h3, hc]
    · right
      simp [h1, h2, h3, hc, h4, h5]

theorem Execute_alike {σ : Type} (c1 c2 : CircuitBreakerPolicy) (a : Action σ) (w : World σ)
    (h : Alike c1 c2) :
    (c1.Execute a w).1 = (c2.Execute a w).1 ∧
    (c1.Execute a w).2.2 = (c2.Execute a w).2.2 ∧
    Alike (c1.Execute a w).2.1 (c2.Execute a w).2.1 := by
  rcases h with h | ⟨h1, h2, h3, h4, h5⟩
  · subst h
    exact ⟨rfl, rfl, Or.inl rfl⟩
  · obtain ⟨d1, hd1, e1, e2, e3, e4, _⟩ := switchState_not_open c1 w.clock h4
    obtain ⟨d2, hd2, f1, f2, f3, f4, _⟩ := switchState_not_open c2 w.clock h5
    rw [Execute_of_switch_some c1 d1 a w hd1, Execute_of_switch_some c2 d2 a w hd2]
    refine ⟨rfl, rfl, ?_⟩
    exact settle_alike d1 d2 _ _ (by rw [e2, f2, h1]) (by rw [e3, f3, h2])
      (by rw [e4, f4, h3]) e1 f1

theorem runCalls_alike {σ : Type} (qs : List (Request σ)) :
    ∀ (c1 c2 : CircuitBreakerPolicy) (w : World σ), Alike c1 c2 →
      (runCalls c1 qs w).1 = (runCalls c2 qs w).1 ∧
      (runCalls c1 qs w).2.2 = (runCalls c2 qs w).2.2 := by
  induction qs with
  | nil => intro c1 c2 w _; exact ⟨rfl, rfl⟩
  | cons q qs ih =>
    intro c1 c2 w h
    obtain ⟨h1, h2, h3⟩ := Execute_alike c1 c2 q.action (advance q.pause w) h
    simp only [runCalls]
    rw [h1, h2]
    obtain ⟨i1, i2⟩ := ih _ _ (c2.Execute q.action (advance q.pause w)).2.2 h3
    rw [i1, i2]
    exact ⟨rfl, rfl⟩

/-- The two outcomes of one call: rejected untouched, or run once and settled. -/
theorem Execute_cases {σ : Type} (cbp : CircuitBreakerPolicy) (a : Action σ) (w : World σ) :
    ((cbp.state = State.Open ∧ Since w.clock cbp.lastAttempt ≤ cbp.recoveryTimeout) ∧
      cbp.switchState w.clock = none ∧
      cbp.Execute a w = (some ErrCircuitOpen, cbp, w)) ∨
    (¬ (cbp.state = State.Open ∧ Since w.clock cbp.lastAttempt ≤ cbp.recoveryTimeout) ∧
      ∃ c, cbp.switchState w.clock = some c ∧
        c.failureCount = cbp.failureCount ∧
        cbp.Execute a w =
          ((invoke a w).1, c.settle (invoke a w).1 (invoke a w).2.clock, (invoke a w).2)) := by
  by_cases hrej : cbp.state = State.Open ∧ Since w.clock cbp.lastAttempt ≤ cbp.recoveryTimeout
  · left
    have hsw := switchState_open_early cbp w.clock hrej.1 hrej.2
    exact ⟨hrej, hsw, Execute_of_switch_none cbp a w hsw⟩
  · right
    refine ⟨hrej, ?_⟩
    by_cases hopen : cbp.state = State.Open
    · have hlate : Since w.clock cbp.lastAttempt > cbp.recoveryTimeout := by
        by_contra hn
        exact hrej ⟨hopen, not_lt.mp hn⟩
      have hsw := switchState_open_late cbp w.clock hopen hlate
      exact ⟨_, hsw, rfl, Execute_of_switch_some cbp _ a w hsw⟩
    · obtain ⟨c, hc, _, _, _, hfc, _⟩ := switchState_not_open cbp w.clock hopen
      exact ⟨c, hc, hfc, Execute_of_switch_some cbp c a w hc⟩

theorem probeInv_new (n rt t : Int) : ProbeInv (NewCircuitBreakerPolicy n rt) t := by
  constructor <;> intro h <;> simp [NewCircuitBreakerPolicy] at h

theorem probeInv_advance (cbp : CircuitBreakerPolicy) (t p : Int) (hp : 0 ≤ p)
    (h : ProbeInv cbp t) : ProbeInv cbp (t + p) := by
  refine ⟨h.1, fun hs => ?_⟩
  have := h.2 hs
  unfold Since at this ⊢
  omega

/-- The breaker with which the action runs, for a breaker that satisfies the invariant. -/
theorem switchState_of_probeInv (cbp : CircuitBreakerPolicy) (t : Int) (h : ProbeInv cbp t) :
    cbp.switchState t = none ∧ cbp.state = State.Open ∨
    cbp.switchState t = some { cbp with state := State.Closed } ∧ cbp.state ≠ State.Open ∨
    cbp.switchState t = some { cbp with state := State.HalfOpen } ∧ cbp.state = State.Open ∧
      Since t cbp.lastAttempt > cbp.recoveryTimeout ∧
      cbp.failureThreshold ≤ cbp.failureCount := by
  cases hs : cbp.state with
  | Closed =>
    right; left
    refine ⟨?_, by simp⟩
    rw [switchState_closed cbp t hs]
    cases cbp
    simp only [] at hs
    simp [hs]
  | HalfOpen =>
    right; left
    refine ⟨?_, by simp⟩
    rw [switchState_halfOpen cbp t hs]
    simp [h.2 hs]
  | Open =>
    by_cases ht : Since t cbp.lastAttempt > cbp.recoveryTimeout
    · right; right
      exact ⟨switchState_open_late cbp t hs ht, rfl, ht, h.1 hs⟩
    · left
      exact ⟨switchState_open_early cbp t hs (not_lt.mp ht), rfl⟩

theorem probeInv_Execute {σ : Type} (cbp : CircuitBreakerPolicy) (a : Action σ) (w : World σ)
    (h : ProbeInv cbp w.clock) (hmono : w.clock ≤ (a w.env w.clock).clock) :
    ProbeInv (cbp.Execute a w).2.1 (cbp.Execute a w).2.2.clock := by
  have hclock : (invoke a w).2.clock = (a w.env w.clock).clock := rfl
  rcases switchState_of_probeInv cbp w.clock h with ⟨hsw, _⟩ | ⟨hsw, _⟩ | ⟨hsw, _, hlate, hthr⟩
  · rw [Execute_of_switch_none cbp a w hsw]
    exact h
  · rw [Execute_of_switch_some cbp _ a w hsw]
    cases he : (invoke a w).1 with
    | none =>
      rw [settle_ok]
      constructor <;> intro hs <;> simp at hs
    | some e =>
      rw [settle_fail _ _ _ (by simp)]
      by_cases hc : cbp.failureThreshold ≤ cbp.failureCount + 1
      · constructor <;> intro hs <;> simp [hc] at hs ⊢
      · constructor <;> intro hs <;> simp [hc] at hs
  · rw [Execute_of_switch_some cbp _ a w hsw]
    cases he : (invoke a w).1 with
    | none =>
      rw [settle_ok]
      refine ⟨fun hs => by simp at hs, fun _ => ?_⟩
      simp only [hclock]
      unfold Since at hlate ⊢
      omega
    | some e =>
      rw [settle_fail _ _ _ (by simp)]
      have hc : cbp.failureThreshold ≤ cbp.failureCount + 1 := by omega
      constructor <;> intro hs <;> simp [hc] at hs ⊢

/-- Under the invariant, the records that follow a call which left the breaker HalfOpen
hold no further probe: the next call, if any, runs its action in state Closed. -/
theorem probesInEpisode_after_probe {σ : Type} (cbp : CircuitBreakerPolicy)
    (qs : List (Request σ)) (w : World σ) (hs : cbp.state = State.HalfOpen)
    (hinv : ProbeInv cbp w.clock) (hmono : ClockNeverGoesBack qs) :
    probesInEpisode (callLog cbp qs w) = 0 := by
  cases qs with
  | nil => rfl
  | cons q qs =>
    have hp : 0 ≤ q.pause := (hmono q (by simp)).1
    have hinv2 : ProbeInv cbp (advance q.pause w).clock := probeInv_advance cbp _ _ hp hinv
    have hsw : cbp.switchState (advance q.pause w).clock =
        some { cbp with state := State.Closed } := by
      rw [switchState_halfOpen cbp _ hs]
      simp [hinv2.2 hs]
    simp [callLog, probesInEpisode, hsw]

/-- The count of probes is 1 from every call that enters HalfOpen, in a run that starts
from a breaker satisfying the invariant. -/
theorem probesInEpisode_of_probeInv {σ : Type} (qs : List (Request σ)) :
    ∀ (cbp : CircuitBreakerPolicy) (w : World σ), ProbeInv cbp w.clock →
      ClockNeverGoesBack qs →
      ∀ (i : Nat) (r : CallRecord), (callLog cbp qs w)[i]? = some r →
        r.before = State.Open → r.during = some State.HalfOpen →
        probesInEpisode ((callLog cbp qs w).drop i) = 1 := by
  induction qs with
  | nil =>
    intro cbp w _ _ i r hr
    simp [callLog] at hr
  | cons q qs ih =>
    intro cbp w hinv hmono i r hr hb hd
    have hq := hmono q (by simp)
    have hmono2 : ClockNeverGoesBack qs := fun x hx => hmono x (List.mem_cons_of_mem _ hx)
    have hinv1 : ProbeInv cbp (advance q.pause w).clock :=
      probeInv_advance cbp _ _ hq.1 hinv
    have hinv2 := probeInv_Execute cbp q.action (advance q.pause w) hinv1 (hq.2 _ _)
    cases i with
    | zero =>
      simp only [callLog, List.getElem?_cons_zero, Option.some.injEq] at hr
      subst hr
      simp only [] at hb hd
      simp only [List.drop_zero, callLog, probesInEpisode, hd]
      by_cases hafter : (cbp.Execute q.action (advance q.pause w)).2.1.state = State.HalfOpen
      · have := probesInEpisode_after_probe _ qs _ hafter hinv2 hmono2
        simp [hafter, this]
      · simp [hafter]
    | succ i =>
      simp only [callLog, List.getElem?_cons_succ] at hr
      simp only [callLog, List.drop_succ_cons]
      exact ih _ _ hinv2 hmono2 i r hr hb hd

/-- Under the invariant, only a call that starts Open runs its action in HalfOpen. -/
theorem during_halfOpen_of_probeInv {σ : Type} (qs : List (Request σ)) :
    ∀ (cbp : CircuitBreakerPolicy) (w : World σ), ProbeInv cbp w.clock →
      ClockNeverGoesBack qs →
      ∀ r ∈ callLog cbp qs w, r.during = some State.HalfOpen → r.before = State.Open := by
  induction qs with
  | nil =>
    intro cbp w _ _ r hr
    simp [callLog] at hr
  | cons q qs ih =>
    intro cbp w hinv hmono r hr hd
    have hq := hmono q (by simp)
    have hmono2 : ClockNeverGoesBack qs := fun x hx => hmono x (List.mem_cons_of_mem _ hx)
    have hinv1 : ProbeInv cbp (advance q.pause w).clock :=
      probeInv_advance cbp _ _ hq.1 hinv
    have hinv2 := probeInv_Execute cbp q.action (advance q.pause w) hinv1 (hq.2 _ _)
    simp only [callLog, List.mem_cons] at hr
    rcases hr with hr | hr
    · subst hr
      simp only [] at hd ⊢
      rcases switchState_of_probeInv cbp _ hinv1 with ⟨hsw, _⟩ | ⟨hsw, _⟩ | ⟨_, ho, _⟩
      · rw [hsw] at hd; simp at hd
      · rw [hsw] at hd; simp at hd
      · exact ho
    · exact ih _ _ hinv2 hmono2 r hr hd

theorem invocations_append (t1 t2 : List Event) :
    invocations (t1 ++ t2) = invocations t1 + invocations t2 := by
  simp [invocations, List.countP_append]

theorem sleeps_append (t1 t2 : List Event) : sleeps (t1 ++ t2) = sleeps t1 + sleeps t2 := by
  simp [sleeps, List.countP_append]

theorem sleepsFor_append (d : Int) (t1 t2 : List Event) :
    sleepsFor d (t1 ++ t2) = sleepsFor d t1 + sleepsFor d t2 := by
  simp [sleepsFor, List.count_append]

/-- The retry loop with at least `k + 1` iterations left, on an action whose next `k`
invocations fail and whose invocation after those succeeds. -/
theorem RetryPolicy.loop_first_success {σ : Type} (r : RetryPolicy) (action : Action σ)
    (k : Nat) :
    ∀ (n : Nat) (err : error) (w : World σ), k + 1 ≤ n →
      (∀ i, i < k → (invoke action (r.attemptWorld action w i)).1 ≠ none) →
      (invoke action (r.attemptWorld action w k)).1 = none →
      (r.loop action n err w).1 = none ∧
      invocations (r.loop action n err w).2.trace = invocations w.trace + (k + 1) ∧
      sleeps (r.loop action n err w).2.trace = sleeps w.trace + k ∧
      sleepsFor r.Delay (r.loop action n err w).2.trace = sleepsFor r.Delay w.trace + k ∧
      (r.loop action n err w).2.trace.getLast? = some (Event.action none) ∧
      (r.loop action n err w).2 = (invoke action (r.attemptWorld action w k)).2 := by
  induction k with
  | zero =>
    intro n err w hn _ hok
    obtain ⟨m, rfl⟩ : ∃ m, n = m + 1 := ⟨n - 1, by omega⟩
    simp only [RetryPolicy.attemptWorld] at hok
    simp only [RetryPolicy.loop, hok, if_true, RetryPolicy.attemptWorld]
    refine ⟨trivial, ?_, ?_, ?_, ?_, trivial⟩
    · rw [invoke_trace, invocations_append, hok]; rfl
    · rw [invoke_trace, sleeps_append, hok]; rfl
    · rw [invoke_trace, sleepsFor_append, hok]; rfl
    · rw [invoke_trace, hok]; simp
  | succ k ih =>
    intro n err w hn hfail hok
    obtain ⟨m, rfl⟩ : ∃ m, n = m + 1 := ⟨n - 1, by omega⟩
    have h0 : (invoke action w).1 ≠ none := hfail 0 (by omega)
    have hstep : r.loop action (m + 1) err w =
        r.loop action m (invoke action w).1 (Sleep r.Delay (invoke action w).2) := by
      simp only [RetryPolicy.loop, h0, if_false]
    obtain ⟨i1, i2, i3, i4, i5, i6⟩ := ih m (invoke action w).1
      (Sleep r.Delay (invoke action w).2) (by omega)
      (fun i hi => hfail (i + 1) (by omega)) hok
    have htr : (Sleep r.Delay (invoke action w).2).trace =
        w.trace ++ [Event.action (invoke action w).1] ++ [Event.sleep r.Delay] := by
      simp [Sleep, invoke_trace]
    rw [hstep]
    refine ⟨i1, ?_, ?_, ?_, i5, i6⟩
    · rw [i2, htr, invocations_append, invocations_append]
      simp [invocations]; omega
    · rw [i3, htr, sleeps_append, sleeps_append]
      simp [sleeps]; omega
    · rw [i4, htr, sleepsFor_append, sleepsFor_append]
      simp [sleepsFor]; omega

/-- The trace of the world before attempt `n`: `n` invocations, each followed by a sleep
of `r.Delay`. -/
theorem RetryPolicy.attemptWorld_counts {σ : Type} (r : RetryPolicy) (action : Action σ)
    (n : Nat) :
    ∀ w : World σ,
      invocations (r.attemptWorld action w n).trace = invocations w.trace + n ∧
      sleeps (r.attemptWorld action w n).trace = sleeps w.trace + n ∧
      sleepsFor r.Delay (r.attemptWorld action w n).trace = sleepsFor r.Delay w.trace + n ∧
      (0 < n → (r.attemptWorld action w n).trace.getLast? = some (Event.sleep r.Delay)) := by
  induction n with
  | zero =>
    intro w
    simp [RetryPolicy.attemptWorld]
  | succ n ih =>
    intro w
    have htr : (Sleep r.Delay (invoke action w).2).trace =
        w.trace ++ [Event.action (invoke action w).1] ++ [Event.sleep r.Delay] := by
      simp [Sleep, invoke_trace]
    obtain ⟨i1, i2, i3, i4⟩ := ih (Sleep r.Delay (invoke action w).2)
    simp only [RetryPolicy.attemptWorld]
    refine ⟨?_, ?_, ?_, fun _ => ?_⟩
    · rw [i1, htr, invocations_append, invocations_append]
      simp [invocations]; omega
    · rw [i2, htr, sleeps_append, sleeps_append]
      simp [sleeps]; omega
    · rw [i3, htr, sleepsFor_append, sleepsFor_append]
      simp [sleepsFor]; omega
    · cases n with
      | zero => simp [RetryPolicy.attemptWorld, htr]
      | succ k => exact i4 (by omega)

/-- The retry loop with `n` iterations left on an action whose next `n` invocations all
fail: every invocation is followed by a sleep and the last error is returned. -/
theorem RetryPolicy.loop_all_fail {σ : Type} (r : RetryPolicy) (action : Action σ) (n : Nat) :
    ∀ (err : error) (w : World σ),
      (∀ i, i < n → (invoke action (r.attemptWorld action w i)).1 ≠ none) →
      (r.loop action n err w).1 =
        (if n = 0 then err else (invoke action (r.attemptWorld action w (n - 1))).1) ∧
      (r.loop action n err w).2 = r.attemptWorld action w n := by
  induction n with
  | zero =>
    intro err w _
    simp [RetryPolicy.loop, RetryPolicy.attemptWorld]
  | succ n ih =>
    intro err w hfail
    have h0 : (invoke action w).1 ≠ none := hfail 0 (by omega)
    have hstep : r.loop action (n + 1) err w =
        r.loop action n (invoke action w).1 (Sleep r.Delay (invoke action w).2) := by
      simp only [RetryPolicy.loop, h0, if_false]
    obtain ⟨i1, i2⟩ := ih (invoke action w).1 (Sleep r.Delay (invoke action w).2)
      (fun i hi => hfail (i + 1) (by omega))
    rw [hstep]
    refine ⟨?_, by rw [i2]; rfl⟩
    rw [i1]
    cases n with
    | zero => simp [RetryPolicy.attemptWorld]
    | succ k => simp [RetryPolicy.attemptWorld]

theorem fallbacks_append (t1 t2 : List Event) :
    fallbacks (t1 ++ t2) = fallbacks t1 + fallbacks t2 := by
  simp [fallbacks, List.countP_append]

theorem newEvents_append (t1 t2 : List Event) : newEvents t1 (t1 ++ t2) = t2 := by
  simp [newEvents]

/-- What the retry loop adds to the trace: at most one invocation per iteration, no
fallback, and the value returned is the result of one of these invocations unless no
iteration was left. -/
theorem RetryPolicy.loop_summary {σ : Type} (r : RetryPolicy) (action : Action σ) (n : Nat) :
    ∀ (err : error) (w : World σ),
      ∃ t, (r.loop action n err w).2.trace = w.trace ++ t ∧ invocations t ≤ n ∧
        fallbacks t = 0 ∧
        ((n = 0 ∧ (r.loop action n err w).1 = err) ∨
          Event.action (r.loop action n err w).1 ∈ t) := by
  induction n with
  | zero =>
    intro err w
    exact ⟨[], by simp [RetryPolicy.loop], by simp [invocations], by simp [fallbacks],
      Or.inl ⟨rfl, rfl⟩⟩
  | succ n ih =>
    intro err w
    by_cases h0 : (invoke action w).1 = none
    · have hstep : r.loop action (n + 1) err w = (none, (invoke action w).2) := by
        simp only [RetryPolicy.loop, h0, if_true]
      rw [hstep]
      refine ⟨[Event.action none], ?_, ?_, ?_, Or.inr ?_⟩
      · rw [invoke_trace, h0]
      · simp [invocations]
      · simp [fallbacks]
      · simp
    · have hstep : r.loop action (n + 1) err w =
          r.loop action n (invoke action w).1 (Sleep r.Delay (invoke action w).2) := by
        simp only [RetryPolicy.loop, h0, if_false]
      obtain ⟨t, ht, hi, hf, hres⟩ := ih (invoke action w).1 (Sleep r.Delay (invoke action w).2)
      rw [hstep]
      refine ⟨[Event.action (invoke action w).1, Event.sleep r.Delay] ++ t, ?_, ?_, ?_, Or.inr ?_⟩
      · rw [ht]
        simp [Sleep, invoke_trace]
      · rw [invocations_append]
        have : invocations [Event.action (invoke action w).1, Event.sleep r.Delay] = 1 := by
          simp [invocations]
        omega
      · rw [fallbacks_append, hf]
        simp [fallbacks]
      · rcases hres with ⟨_, he⟩ | hmem
        · rw [he]; simp
        · exact List.mem_append_right _ hmem

/-- What the first stage adds to the trace. -/
theorem Resilience.firstStage_summary {σ : Type} (r : Resilience σ) (action : Action σ)
    (w : World σ) :
    ∃ t, (r.firstStage action w).2.trace = w.trace ++ t ∧ fallbacks t = 0 ∧
      (∀ rp, r.retryPolicy = some rp → invocations t ≤ rp.MaxRetries.toNat) ∧
      (r.retryPolicy = none → invocations t = 1) ∧
      ((∀ rp, r.retryPolicy = some rp → 1 ≤ rp.MaxRetries) →
        Event.action (r.firstStage action w).1 ∈ t) := by
  cases hr : r.retryPolicy with
  | none =>
    have hfs : r.firstStage action w = invoke action w := by
      simp [Resilience.firstStage, hr]
    rw [hfs]
    exact ⟨[Event.action (invoke action w).1], invoke_trace action w, by simp [fallbacks],
      fun rp h => by simp at h, fun _ => by simp [invocations], fun _ => by simp⟩
  | some rp =>
    have hfs : r.firstStage action w = rp.loop action rp.MaxRetries.toNat none w := by
      simp [Resilience.firstStage, hr, RetryPolicy.Execute]
    obtain ⟨t, ht, hi, hf, hres⟩ := RetryPolicy.loop_summary rp action rp.MaxRetries.toNat none w
    rw [hfs]
    refine ⟨t, ht, hf, ?_, fun h => by simp at h, ?_⟩
    · intro rp2 h2
      simp only [Option.some.injEq] at h2
      subst h2
      exact hi
    · intro hpos
      rcases hres with ⟨h0, _⟩ | hmem
      · have := hpos rp rfl
        omega
      · exact hmem

/-- What the breaker stage adds to the trace: nothing when the first stage succeeded,
when there is no breaker, or when the breaker rejects the call; else one invocation, whose
result is returned. -/
theorem Resilience.breakerStage_summary {σ : Type} (r : Resilience σ) (action : Action σ)
    (s : error × World σ) :
    (r.breakerStage action s = (s.1, r.circuitBreakerPolicy, s.2) ∧
      (s.1 = none ∨ r.circuitBreakerPolicy = none)) ∨
    (∃ cb, r.circuitBreakerPolicy = some cb ∧ s.1 ≠ none ∧
      cb.switchState s.2.clock = none ∧
      r.breakerStage action s = (some ErrCircuitOpen, some cb, s.2)) ∨
    (∃ cb, r.circuitBreakerPolicy = some cb ∧ s.1 ≠ none ∧
      cb.switchState s.2.clock ≠ none ∧
      (r.breakerStage action s).1 = (invoke action s.2).1 ∧
      (r.breakerStage action s).2.2 = (invoke action s.2).2) := by
  cases hc : r.circuitBreakerPolicy with
  | none =>
    left
    simp [Resilience.breakerStage, hc]
  | some cb =>
    by_cases hs : s.1 = none
    · left
      simp [Resilience.breakerStage, hc, hs]
    · right
      rcases Execute_cases cb action s.2 with ⟨_, hsw, hex⟩ | ⟨_, c, hsw, _, hex⟩
      · left
        exact ⟨cb, rfl, hs, hsw, by simp [Resilience.breakerStage, hc, hs, hex]⟩
      · right
        exact ⟨cb, rfl, hs, by rw [hsw]; simp, by simp [Resilience.breakerStage, hc, hs, hex],
          by simp [Resilience.breakerStage, hc, hs, hex]⟩

/-- What `FallbackPolicy.Execute` adds to the trace: one invocation of the action and,
when it failed, one of the fallback action; the value returned is the result of the last
of these. -/
theorem FallbackPolicy.Execute_summary {σ : Type} (fp : FallbackPolicy σ) (action : Action σ)
    (w : World σ) :
    ∃ t, (fp.Execute action w).2.trace = w.trace ++ t ∧ invocations t = 1 ∧
      (Event.action (fp.Execute action w).1 ∈ t ∨
        Event.fallbackAction (fp.Execute action w).1 ∈ t) := by
  by_cases h : (invoke action w).1 = none
  · have hex : fp.Execute action w = (none, (invoke action w).2) := by
      simp [FallbackPolicy.Execute, h]
    rw [hex]
    exact ⟨[Event.action none], by rw [invoke_trace, h], by simp [invocations],
      Or.inl (by simp)⟩
  · have hex : fp.Execute action w = invokeFallback fp.fallbackAction (invoke action w).2 := by
      simp [FallbackPolicy.Execute, h]
    rw [hex]
    exact ⟨[Event.action (invoke action w).1,
        Event.fallbackAction (invokeFallback fp.fallbackAction (invoke action w).2).1],
      by simp [invokeFallback, invoke], by simp [invocations], Or.inr (by simp)⟩

theorem Resilience.with_same_breaker {σ : Type} (r : Resilience σ) :
    ({ r with circuitBreakerPolicy := r.circuitBreakerPolicy } : Resilience σ) = r := by
  cases r
  rfl

/-- The last statement of `Execute` when the fallback is not called. -/
theorem Resilience.Execute_without_fallback {σ : Type} (r : Resilience σ) (action : Action σ)
    (w : World σ)
    (h : (r.breakerStage action (r.firstStage action w)).1 = none ∨ r.fallbackPolicy = none) :
    r.Execute action w =
      ((r.breakerStage action (r.firstStage action w)).1,
        { r with circuitBreakerPolicy := (r.breakerStage action (r.firstStage action w)).2.1 },
        (r.breakerStage action (r.firstStage action w)).2.2) := by
  cases hf : r.fallbackPolicy with
  | none => simp [Resilience.Execute, hf]
  | some fp =>
    rcases h with h | h
    · simp [Resilience.Execute, hf, h]
    · rw [hf] at h
      simp at h

/-- The last statement of `Execute` when the fallback is called. -/
theorem Resilience.Execute_with_fallback {σ : Type} (r : Resilience σ) (action : Action σ)
    (w : World σ) (fp : FallbackPolicy σ) (hf : r.fallbackPolicy = some fp)
    (h : (r.breakerStage action (r.firstStage action w)).1 ≠ none) :
    r.Execute action w =
      ((fp.Execute action (r.breakerStage action (r.firstStage action w)).2.2).1,
        { r with circuitBreakerPolicy := (r.breakerStage action (r.firstStage action w)).2.1 },
        (fp.Execute action (r.breakerStage action (r.firstStage action w)).2.2).2) := by
  simp [Resilience.Execute, hf, h]

theorem Resilience.breakerStage_invocations {σ : Type} (r : Resilience σ)
    (action : Action σ) (s : error × World σ) :
    invocations (r.breakerStage action s).2.2.trace ≤ invocations s.2.trace + 1 ∧
    (∀ cb, r.circuitBreakerPolicy = some cb → s.1 ≠ none →
      cb.switchState s.2.clock ≠ none →
      invocations (r.breakerStage action s).2.2.trace = invocations s.2.trace + 1 ∧
      (r.breakerStage action s).1 = (invoke action s.2).1) := by
  have hinv : invocations (invoke action s.2).2.trace = invocations s.2.trace + 1 := by
    rw [invoke_trace, invocations_append]; simp [invocations]
  rcases Resilience.breakerStage_summary r action s with
    ⟨heq, hc⟩ | ⟨cb, hcb, hs, hsw, heq⟩ | ⟨cb, hcb, hs, hsw, h1, h2⟩
  · rw [heq]
    refine ⟨by simp, ?_⟩
    intro cb hcb hs _
    rcases hc with hc | hc
    · exact absurd hc hs
    · rw [hcb] at hc; simp at hc
  · rw [heq]
    refine ⟨by simp, ?_⟩
    intro cb2 hcb2 _ hsw2
    rw [hcb] at hcb2
    simp only [Option.some.injEq] at hcb2
    subst hcb2
    exact absurd hsw hsw2
  · rw [h2, hinv]
    exact ⟨le_refl _, fun _ _ _ _ => ⟨rfl, h1⟩⟩

theorem Resilience.Execute_invocations {σ : Type} (r : Resilience σ) (action : Action σ)
    (w : World σ) :
    invocations (r.Execute action w).2.2.trace ≤
      invocations (r.breakerStage action (r.firstStage action w)).2.2.trace + 1 ∧
    (∀ fp, r.fallbackPolicy = some fp →
      (r.breakerStage action (r.firstStage action w)).1 ≠ none →
      invocations (r.Execute action w).2.2.trace =
        invocations (r.breakerStage action (r.firstStage action w)).2.2.trace + 1) := by
  by_cases h : (r.breakerStage action (r.firstStage action w)).1 = none ∨ r.fallbackPolicy = none
  · rw [Resilience.Execute_without_fallback r action w h]
    refine ⟨by simp, ?_⟩
    intro fp hf hne
    rcases h with h | h
    · exact absurd h hne
    · rw [hf] at h; simp at h
  · have hne : (r.breakerStage action (r.firstStage action w)).1 ≠ none := fun hn => h (Or.inl hn)
    obtain ⟨fp, hf⟩ : ∃ fp, r.fallbackPolicy = some fp := by
      cases hfp : r.fallbackPolicy with
      | none => exact absurd (Or.inr hfp) h
      | some fp => exact ⟨fp, rfl⟩
    rw [Resilience.Execute_with_fallback r action w fp hf hne]
    obtain ⟨t, ht, hi, _⟩ := FallbackPolicy.Execute_summary fp action
      (r.breakerStage action (r.firstStage action w)).2.2
    have hcount : invocations
        (fp.Execute action (r.breakerStage action (r.firstStage action w)).2.2).2.trace =
        invocations (r.breakerStage action (r.firstStage action w)).2.2.trace + 1 := by
      rw [ht, invocations_append, hi]
    exact ⟨le_of_eq hcount, fun _ _ _ => hcount⟩

theorem Resilience.breakerStage_of_success {σ : Type} (r : Resilience σ) (action : Action σ)
    (s : error × World σ) (h : s.1 = none) :
    r.breakerStage action s = (none, r.circuitBreakerPolicy, s.2) := by
  cases hc : r.circuitBreakerPolicy with
  | none => simp [Resilience.breakerStage, hc, h]
  | some cb => simp [Resilience.breakerStage, hc, h]

/-- Where the value left by the breaker stage comes from, when the value left by the first
stage is the result of an invocation. -/
theorem Resilience.breakerStage_origin {σ : Type} (r : Resilience σ) (action : Action σ)
    (w : World σ) (hm : ∀ rp, r.retryPolicy = some rp → 1 ≤ rp.MaxRetries) :
    ∃ t, (r.breakerStage action (r.firstStage action w)).2.2.trace = w.trace ++ t ∧
      (Event.action (r.breakerStage action (r.firstStage action w)).1 ∈ t ∨
        ((r.breakerStage action (r.firstStage action w)).1 = some ErrCircuitOpen ∧
          ∃ cb, r.circuitBreakerPolicy = some cb ∧ (r.firstStage action w).1 ≠ none ∧
            cb.switchState (r.firstStage action w).2.clock = none)) := by
  obtain ⟨t1, ht1, _, _, _, hres⟩ := Resilience.firstStage_summary r action w
  have hmem := hres hm
  rcases Resilience.breakerStage_summary r action (r.firstStage action w) with
    ⟨heq, _⟩ | ⟨cb, hcb, hs, hsw, heq⟩ | ⟨cb, hcb, hs, hsw, h1, h2⟩
  · rw [heq]
    exact ⟨t1, ht1, Or.inl hmem⟩
  · rw [heq]
    exact ⟨t1, ht1, Or.inr ⟨rfl, cb, hcb, hs, hsw⟩⟩
  · refine ⟨t1 ++ [Event.action (r.breakerStage action (r.firstStage action w)).1], ?_,
      Or.inl (by simp)⟩
    rw [h2, invoke_trace, ht1, h1, List.append_assoc]

/-- The fields of the breaker with which the action runs. -/
theorem switchState_fields (cbp c : CircuitBreakerPolicy) (now : Int)
    (h : cbp.switchState now = some c) :
    c.failureThreshold = cbp.failureThreshold ∧ c.recoveryTimeout = cbp.recoveryTimeout ∧
    c.failureCount = cbp.failureCount ∧ c.lastAttempt = cbp.lastAttempt ∧
    c.state ≠ State.Open := by
  by_cases hopen : cbp.state = State.Open
  · by_cases ht : Since now cbp.lastAttempt > cbp.recoveryTimeout
    · rw [switchState_open_late cbp now hopen ht] at h
      simp only [Option.some.injEq] at h
      subst h
      exact ⟨rfl, rfl, rfl, rfl, by simp⟩
    · rw [switchState_open_early cbp now hopen (not_lt.mp ht)] at h
      simp at h
  · obtain ⟨d, hd, h1, h2, h3, h4, h5⟩ := switchState_not_open cbp now hopen
    rw [hd] at h
    simp only [Option.some.injEq] at h
    subst h
    exact ⟨h2, h3, h4, h5, h1⟩

theorem settle_config (c : CircuitBreakerPolicy) (err : error) (now : Int) :
    (c.settle err now).failureThreshold = c.failureThreshold ∧
    (c.settle err now).recoveryTimeout = c.recoveryTimeout := by
  cases err with
  | none => rw [settle_ok]; exact ⟨rfl, rfl⟩
  | some e => rw [settle_fail c _ _ (by simp)]; exact ⟨rfl, rfl⟩

/-- No call changes the configuration of the breaker. -/
theorem Execute_config {σ : Type} (cbp : CircuitBreakerPolicy) (a : Action σ) (w : World σ) :
    (cbp.Execute a w).2.1.failureThreshold = cbp.failureThreshold ∧
    (cbp.Execute a w).2.1.recoveryTimeout = cbp.recoveryTimeout := by
  rcases Execute_cases cbp a w with ⟨_, _, hex⟩ | ⟨_, c, hsw, _, hex⟩
  · rw [hex]; exact ⟨rfl, rfl⟩
  · obtain ⟨f1, f2, _⟩ := switchState_fields cbp c w.clock hsw
    obtain ⟨s1, s2⟩ := settle_config c (invoke a w).1 (invoke a w).2.clock
    rw [hex]
    exact ⟨s1.trans f1, s2.trans f2⟩

theorem runCalls_config {σ : Type} (qs : List (Request σ)) :
    ∀ (cbp : CircuitBreakerPolicy) (w : World σ),
      (runCalls cbp qs w).2.1.failureThreshold = cbp.failureThreshold ∧
      (runCalls cbp qs w).2.1.recoveryTimeout = cbp.recoveryTimeout := by
  induction qs with
  | nil => intro cbp w; exact ⟨rfl, rfl⟩
  | cons q qs ih =>
    intro cbp w
    obtain ⟨e1, e2⟩ := Execute_config cbp q.action (advance q.pause w)
    obtain ⟨i1, i2⟩ := ih (cbp.Execute q.action (advance q.pause w)).2.1
      (cbp.Execute q.action (advance q.pause w)).2.2
    simp only [runCalls]
    exact ⟨i1.trans e1, i2.trans e2⟩

/-- A breaker is Open only with a failure count that has reached the threshold: this holds
of a new breaker and no call breaks it, whatever the clock does. -/
theorem open_reached_Execute {σ : Type} (cbp : CircuitBreakerPolicy) (a : Action σ)
    (w : World σ) (h : cbp.state = State.Open → cbp.failureThreshold ≤ cbp.failureCount) :
    (cbp.Execute a w).2.1.state = State.Open →
      (cbp.Execute a w).2.1.failureThreshold ≤ (cbp.Execute a w).2.1.failureCount := by
  rcases Execute_cases cbp a w with ⟨_, _, hex⟩ | ⟨_, c, hsw, _, hex⟩
  · rw [hex]; exact h
  · obtain ⟨_, _, _, _, hno⟩ := switchState_fields cbp c w.clock hsw
    rw [hex]
    cases he : (invoke a w).1 with
    | none =>
      rw [settle_ok]
      intro hs
      exact absurd hs hno
    | some e =>
      rw [settle_fail c _ _ (by simp)]
      by_cases hc : c.failureThreshold ≤ c.failureCount + 1
      · intro _; exact hc
      · intro hs
        simp only [ge_iff_le, hc, if_false] at hs
        exact absurd hs hno

theorem open_reached_runCalls {σ : Type} (qs : List (Request σ)) :
    ∀ (cbp : CircuitBreakerPolicy) (w : World σ),
      (cbp.state = State.Open → cbp.failureThreshold ≤ cbp.failureCount) →
      (runCalls cbp qs w).2.1.state = State.Open →
      (runCalls cbp qs w).2.1.failureThreshold ≤ (runCalls cbp qs w).2.1.failureCount := by
  induction qs with
  | nil => intro cbp w h; exact h
  | cons q qs ih =>
    intro cbp w h
    simp only [runCalls]
    exact ih _ _ (open_reached_Execute cbp q.action (advance q.pause w) h)

theorem reachableInv_new (n rt t : Int) (hn : 1 ≤ n) :
    ReachableInv (NewCircuitBreakerPolicy n rt) t := by
  refine ⟨fun _ => ?_, fun h => ?_, fun h => ?_⟩
  · show (0 : Int) < n
    omega
  · simp [NewCircuitBreakerPolicy] at h
  · simp [NewCircuitBreakerPolicy] at h

theorem reachableInv_advance (cbp : CircuitBreakerPolicy) (t p : Int) (hp : 0 ≤ p)
    (h : ReachableInv cbp t) : ReachableInv cbp (t + p) := by
  refine ⟨h.1, h.2.1, fun hs => ⟨(h.2.2 hs).1, ?_⟩⟩
  have := (h.2.2 hs).2
  unfold Since at this ⊢
  omega

theorem ReachableInv.probeInv {cbp : CircuitBreakerPolicy} {t : Int} (h : ReachableInv cbp t) :
    ProbeInv cbp t :=
  ⟨h.2.1, fun hs => (h.2.2 hs).2⟩

/-- One call keeps the invariant of reachable breakers, when the threshold is at least 1
and the clock does not go back while the action runs. -/
theorem reachableInv_Execute {σ : Type} (cbp : CircuitBreakerPolicy) (a : Action σ)
    (w : World σ) (h : ReachableInv cbp w.clock) (hthr : 1 ≤ cbp.failureThreshold)
    (hmono : w.clock ≤ (a w.env w.clock).clock) :
    ReachableInv (cbp.Execute a w).2.1 (cbp.Execute a w).2.2.clock := by
  have hclock : (invoke a w).2.clock = (a w.env w.clock).clock := rfl
  rcases switchState_of_probeInv cbp w.clock h.probeInv with
    ⟨hsw, _⟩ | ⟨hsw, hno⟩ | ⟨hsw, _, hlate, hreach⟩
  · rw [Execute_of_switch_none cbp a w hsw]
    exact h
  · have hcount : cbp.failureCount < cbp.failureThreshold := by
      cases hs : cbp.state with
      | Closed => exact h.1 hs
      | Open => exact absurd hs hno
      | HalfOpen =>
        rw [(h.2.2 hs).1]
        omega
    rw [Execute_of_switch_some cbp _ a w hsw]
    cases he : (invoke a w).1 with
    | none =>
      rw [settle_ok]
      refine ⟨fun _ => ?_, fun hs => ?_, fun hs => ?_⟩
      · show (0 : Int) < cbp.failureThreshold
        omega
      · simp at hs
      · simp at hs
    | some e =>
      rw [settle_fail _ _ _ (by simp)]
      by_cases hc : cbp.failureThreshold ≤ cbp.failureCount + 1
      · refine ⟨fun hs => ?_, fun _ => hc, fun hs => ?_⟩
        · simp [hc] at hs
        · simp [hc] at hs
      · refine ⟨fun _ => ?_, fun hs => ?_, fun hs => ?_⟩
        · show cbp.failureCount + 1 < cbp.failureThreshold
          omega
        · simp [hc] at hs
        · simp [hc] at hs
  · rw [Execute_of_switch_some cbp _ a w hsw]
    cases he : (invoke a w).1 with
    | none =>
      rw [settle_ok]
      refine ⟨fun hs => ?_, fun hs => ?_, fun _ => ⟨rfl, ?_⟩⟩
      · simp at hs
      · simp at hs
      · simp only [hclock]
        unfold Since at hlate ⊢
        omega
    | some e =>
      rw [settle_fail _ _ _ (by simp)]
      have hc : cbp.failureThreshold ≤ cbp.failureCount + 1 := by omega
      refine ⟨fun hs => ?_, fun _ => hc, fun hs => ?_⟩
      · simp [hc] at hs
      · simp [hc] at hs

theorem reachableInv_runCalls {σ : Type} (qs : List (Request σ)) :
    ∀ (cbp : CircuitBreakerPolicy) (w : World σ), ReachableInv cbp w.clock →
      1 ≤ cbp.failureThreshold → ClockNeverGoesBack qs →
      ReachableInv (runCalls cbp qs w).2.1 (runCalls cbp qs w).2.2.clock := by
  induction qs with
  | nil => intro cbp w h _ _; exact h
  | cons q qs ih =>
    intro cbp w h hthr hmono
    have hq := hmono q (by simp)
    have hmono2 : ClockNeverGoesBack qs := fun x hx => hmono x (List.mem_cons_of_mem _ hx)
    have h1 : ReachableInv cbp (advance q.pause w).clock :=
      reachableInv_advance cbp _ _ hq.1 h
    have h2 := reachableInv_Execute cbp q.action (advance q.pause w) h1 hthr (hq.2 _ _)
    have hthr2 : 1 ≤ (cbp.Execute q.action (advance q.pause w)).2.1.failureThreshold := by
      rw [(Execute_config cbp q.action (advance q.pause w)).1]
      exact hthr
    simp only [runCalls]
    exact ih _ _ h2 hthr2 hmono2

/-- Under the invariant, a call that starts HalfOpen runs its action in state Closed. -/
theorem before_halfOpen_of_probeInv {σ : Type} (qs : List (Request σ)) :
    ∀ (cbp : CircuitBreakerPolicy) (w : World σ), ProbeInv cbp w.clock →
      ClockNeverGoesBack qs →
      ∀ r ∈ callLog cbp qs w, r.before = State.HalfOpen → r.during = some State.Closed := by
  induction qs with
  | nil =>
    intro cbp w _ _ r hr
    simp [callLog] at hr
  | cons q qs ih =>
    intro cbp w hinv hmono r hr hb
    have hq := hmono q (by simp)
    have hmono2 : ClockNeverGoesBack qs := fun x hx => hmono x (List.mem_cons_of_mem _ hx)
    have hinv1 : ProbeInv cbp (advance q.pause w).clock :=
      probeInv_advance cbp _ _ hq.1 hinv
    have hinv2 := probeInv_Execute cbp q.action (advance q.pause w) hinv1 (hq.2 _ _)
    simp only [callLog, List.mem_cons] at hr
    rcases hr with hr | hr
    · subst hr
      simp only [] at hb ⊢
      rw [switchState_halfOpen cbp _ hb]
      simp [hinv1.2 hb]
    · exact ih _ _ hinv2 hmono2 r hr hb

/-- The failureCount after a call, counted in unbounded integers: unchanged when the call
is rejected, 0 when the action runs and succeeds, the previous value plus 1 when the action
runs and fails. -/
theorem Execute_failureCount_rule {σ : Type} (cbp : CircuitBreakerPolicy) (a : Action σ)
    (w : World σ) :
    (cbp.switchState w.clock = none →
      (cbp.Execute a w).2.1.failureCount = cbp.failureCount) ∧
    (cbp.switchState w.clock ≠ none → (a w.env w.clock).err = none →
      (cbp.Execute a w).2.1.failureCount = 0) ∧
    (cbp.switchState w.clock ≠ none → (a w.env w.clock).err ≠ none →
      (cbp.Execute a w).2.1.failureCount = cbp.failureCount + 1) ∧
    (0 ≤ cbp.failureCount → cbp.failureCount < (cbp.Execute a w).2.1.failureCount →
      cbp.switchState w.clock ≠ none ∧ (a w.env w.clock).err ≠ none) := by
  have hinv : (invoke a w).1 = (a w.env w.clock).err := rfl
  rcases Execute_cases cbp a w with ⟨_, hsw, hex⟩ | ⟨_, c, hsw, hfc, hex⟩
  · rw [hex]
    refine ⟨fun _ => rfl, fun h => absurd hsw h, fun h => absurd hsw h, ?_⟩
    intro _ hlt
    exact absurd hlt (lt_irrefl _)
  · rw [hex, hinv]
    refine ⟨fun h => ?_, fun _ hok => ?_, fun _ hfail => ?_, fun h0 hlt => ?_⟩
    · rw [hsw] at h
      exact absurd h (by simp)
    · rw [hok, settle_ok]
    · rw [settle_fail _ _ _ hfail]
      simp only []
      rw [hfc]
    · refine ⟨by rw [hsw]; simp, ?_⟩
      intro hok
      rw [hok, settle_ok] at hlt
      simp only [] at hlt
      omega

theorem wrapInt64_of_range (x : Int) (hlo : -9223372036854775808 ≤ x)
    (hhi : x ≤ 9223372036854775807) : wrapInt64 x = x := by
  unfold wrapInt64
  omega

/-- Below the largest int the count of 64 bits and the unbounded count settle alike. -/
theorem settle64_eq_settle (c : CircuitBreakerPolicy) (err : error) (now : Int)
    (hlo : -9223372036854775809 ≤ c.failureCount)
    (hhi : c.failureCount < 9223372036854775807) :
    c.settle64 err now = c.settle err now := by
  have hw : wrapInt64 (c.failureCount + 1) = c.failureCount + 1 :=
    wrapInt64_of_range _ (by omega) (by omega)
  unfold CircuitBreakerPolicy.settle64 CircuitBreakerPolicy.settle
  simp only [hw]

theorem Execute64_eq_Execute {σ : Type} (cbp : CircuitBreakerPolicy) (a : Action σ)
    (w : World σ) (hlo : -9223372036854775809 ≤ cbp.failureCount)
    (hhi : cbp.failureCount < 9223372036854775807) :
    cbp.Execute64 a w = cbp.Execute a w := by
  cases hsw : cbp.switchState w.clock with
  | none => simp [CircuitBreakerPolicy.Execute64, CircuitBreakerPolicy.Execute, hsw]
  | some c =>
    obtain ⟨_, _, hfc, _, _⟩ := switchState_fields cbp c w.clock hsw
    have hs := settle64_eq_settle c (invoke a w).1 (invoke a w).2.clock
      (by rw [hfc]; exact hlo) (by rw [hfc]; exact hhi)
    simp [CircuitBreakerPolicy.Execute64, CircuitBreakerPolicy.Execute, hsw, hs]

/-! ## The claims -/

/-- C1: from a breaker made by NewCircuitBreakerPolicy n rt with n at least 1, n calls
whose actions fail each invoke their action and return its error (the results, the world
and the trace are those of calling the actions directly) and leave the state Open; a next
call made while the time since the last failure is at most rt returns ErrCircuitOpen and
leaves the world, trace included, untouched: its action is not invoked. -/
theorem C1_threshold_failures_open {σ : Type} (n rt : Int) (hn : 1 ≤ n)
    (qs : List (Request σ)) (w : World σ) (hlen : (qs.length : Int) = n)
    (hfail : ∀ e ∈ (direct qs w).1, e ≠ none) (a : Action σ) (p : Int) :
    (runCalls (NewCircuitBreakerPolicy n rt) qs w).1 = (direct qs w).1 ∧
    (runCalls (NewCircuitBreakerPolicy n rt) qs w).2.2 = (direct qs w).2 ∧
    (runCalls (NewCircuitBreakerPolicy n rt) qs w).2.2.trace =
      w.trace ++ (direct qs w).1.map Event.action ∧
    (runCalls (NewCircuitBreakerPolicy n rt) qs w).2.1.state = State.Open ∧
    (runCalls (NewCircuitBreakerPolicy n rt) qs w).2.1.lastAttempt =
      (runCalls (NewCircuitBreakerPolicy n rt) qs w).2.2.clock ∧
    (Since (advance p (runCalls (NewCircuitBreakerPolicy n rt) qs w).2.2).clock
        (runCalls (NewCircuitBreakerPolicy n rt) qs w).2.1.lastAttempt ≤ rt →
      (runCalls (NewCircuitBreakerPolicy n rt) qs w).2.1.Execute a
          (advance p (runCalls (NewCircuitBreakerPolicy n rt) qs w).2.2) =
        (some ErrCircuitOpen, (runCalls (NewCircuitBreakerPolicy n rt) qs w).2.1,
          advance p (runCalls (NewCircuitBreakerPolicy n rt) qs w).2.2)) := by
  have hne : qs ≠ [] := by
    intro h
    subst h
    simp at hlen
    omega
  obtain ⟨h1, h2, _, h4, _, h6, h7⟩ :=
    runCalls_closed_failures qs (NewCircuitBreakerPolicy n rt) w rfl hfail
      (by simp [NewCircuitBreakerPolicy, hlen])
  have hopen : (runCalls (NewCircuitBreakerPolicy n rt) qs w).2.1.state = State.Open := by
    rw [h7]
    have : 0 < qs.length := List.length_pos.mpr hne
    simp [NewCircuitBreakerPolicy, hlen, this]
  refine ⟨h1, h2, ?_, hopen, ?_, ?_⟩
  · rw [h2, direct_trace]
  · rw [h6 hne, h2]
  · intro hel
    apply Execute_of_switch_none
    apply switchState_open_early _ _ hopen
    rw [h4]
    exact hel

/-- C1 at the input of the test: threshold 3, three failing calls, a fourth call five
nanoseconds later with a timeout of sixty. -/
theorem C1_threshold_failures_open_witness :
    (1 : Int) ≤ 3 ∧
    (runCalls (NewCircuitBreakerPolicy 3 60) threeFailures w0).2.1.state = State.Open ∧
    (runCalls (NewCircuitBreakerPolicy 3 60) threeFailures w0).2.2.trace =
      [Event.action (some (GoError.New "failed")), Event.action (some (GoError.New "failed")),
       Event.action (some (GoError.New "failed"))] ∧
    ((runCalls (NewCircuitBreakerPolicy 3 60) threeFailures w0).2.1.Execute succeeding
        (advance 5 (runCalls (NewCircuitBreakerPolicy 3 60) threeFailures w0).2.2)).1 =
      some ErrCircuitOpen :=
  have h := C1_threshold_failures_open 3 60 (by decide) threeFailures w0 (by decide)
    (by decide) succeeding 5
  ⟨by decide, h.2.2.2.1, h.2.2.1.trans (by decide),
    congrArg Prod.fst (h.2.2.2.2.2 (by decide))⟩

/-- C2: from a breaker made by NewCircuitBreakerPolicy n rt with n at least 1, on every
sequence of calls whose results contain no n failures in a row, every call invokes its
action and returns exactly its result (results, world and trace are those of calling the
actions directly, one action event per call), no call returns ErrCircuitOpen unless its own
action returned that value, and the state is Closed after every call of the sequence. -/
theorem C2_below_threshold_allows {σ : Type} (n rt : Int) (hn : 1 ≤ n)
    (qs : List (Request σ)) (w : World σ) (hrun : NoFailureRun n (direct qs w).1) :
    (runCalls (NewCircuitBreakerPolicy n rt) qs w).1 = (direct qs w).1 ∧
    (runCalls (NewCircuitBreakerPolicy n rt) qs w).2.2 = (direct qs w).2 ∧
    (runCalls (NewCircuitBreakerPolicy n rt) qs w).2.2.trace =
      w.trace ++ (runCalls (NewCircuitBreakerPolicy n rt) qs w).1.map Event.action ∧
    ((runCalls (NewCircuitBreakerPolicy n rt) qs w).1.map Event.action).length = qs.length ∧
    ((∀ e ∈ (direct qs w).1, e ≠ some ErrCircuitOpen) →
      ∀ e ∈ (runCalls (NewCircuitBreakerPolicy n rt) qs w).1, e ≠ some ErrCircuitOpen) ∧
    (∀ k : Nat, (runCalls (NewCircuitBreakerPolicy n rt) (qs.take k) w).2.1.state =
      State.Closed) := by
  have key : ∀ k : Nat,
      (runCalls (NewCircuitBreakerPolicy n rt) (qs.take k) w).1 = (direct (qs.take k) w).1 ∧
      (runCalls (NewCircuitBreakerPolicy n rt) (qs.take k) w).2.2 = (direct (qs.take k) w).2 ∧
      (runCalls (NewCircuitBreakerPolicy n rt) (qs.take k) w).2.1.state = State.Closed := by
    intro k
    have hk : NoFailureRun n (direct (qs.take k) w).1 := by
      rw [direct_take]; exact hrun.take k
    apply runCalls_closed_noRun (qs.take k) (NewCircuitBreakerPolicy n rt) w rfl
    · show 0 < n
      omega
    · show (0 : Int) < n
      omega
    · exact hk
    · intro run post heq hlen
      exact hk [] run post (by simpa using heq) (by simpa [NewCircuitBreakerPolicy] using hlen)
  have hfull := key qs.length
  rw [List.take_length] at hfull
  obtain ⟨h1, h2, _⟩ := hfull
  refine ⟨h1, h2, ?_, ?_, ?_, fun k => (key k).2.2⟩
  · rw [h2, h1, direct_trace]
  · rw [h1, List.length_map, direct_length]
  · intro h e he
    rw [h1] at he
    exact h e he

/-- C2 at a sequence where a success interrupts the failures: threshold 3, two failures,
a success, two failures. -/
theorem C2_below_threshold_allows_witness :
    (1 : Int) ≤ 3 ∧
    NoFailureRun 3 (direct interruptedFailures w0).1 ∧
    (runCalls (NewCircuitBreakerPolicy 3 60) interruptedFailures w0).1 =
      [some (GoError.New "failed"), some (GoError.New "failed"), none,
       some (GoError.New "failed"), some (GoError.New "failed")] ∧
    (runCalls (NewCircuitBreakerPolicy 3 60) interruptedFailures w0).2.1.state =
      State.Closed := by
  have hd : (direct interruptedFailures w0).1 =
      [some (GoError.New "failed"), some (GoError.New "failed"), none,
       some (GoError.New "failed"), some (GoError.New "failed")] := by decide
  have hrun : NoFailureRun 3 (direct interruptedFailures w0).1 := by
    rw [hd]
    intro pre run post heq hlen
    have h3 : run.length = 3 := by exact_mod_cast hlen
    match run, h3 with
    | [a, b, c], _ =>
      rcases pre with _ | ⟨p1, _ | ⟨p2, _ | ⟨p3, pre⟩⟩⟩
      · simp only [List.nil_append, List.cons_append, List.cons.injEq] at heq
        exact ⟨c, by simp, heq.2.2.1.symm⟩
      · simp only [List.nil_append, List.cons_append, List.cons.injEq] at heq
        exact ⟨b, by simp, heq.2.2.1.symm⟩
      · simp only [List.nil_append, List.cons_append, List.cons.injEq] at heq
        exact ⟨a, by simp, heq.2.2.1.symm⟩
      · have := congrArg List.length heq
        simp at this
        omega
  have h := C2_below_threshold_allows 3 60 (by decide) interruptedFailures w0 hrun
  exact ⟨by decide, hrun, h.1.trans hd, by simpa using h.2.2.2.2.2 5⟩

/-- C3: a call on an Open breaker made when the time since lastAttempt exceeds the
recovery timeout runs its action in state HalfOpen and invokes it exactly once (the world
after the call is that of one invocation: one action event is added to the trace); when
that action succeeds, Execute returns nil, failureCount is 0 and the state is HalfOpen. -/
theorem C3_probe_after_timeout {σ : Type} (cbp : CircuitBreakerPolicy) (a : Action σ)
    (w : World σ) (hopen : cbp.state = State.Open)
    (hlate : Since w.clock cbp.lastAttempt > cbp.recoveryTimeout) :
    (cbp.switchState w.clock).map (fun c => c.state) = some State.HalfOpen ∧
    (cbp.Execute a w).2.2 = (invoke a w).2 ∧
    (cbp.Execute a w).2.2.trace = w.trace ++ [Event.action (a w.env w.clock).err] ∧
    ((a w.env w.clock).err = none →
      (cbp.Execute a w).1 = none ∧
      (cbp.Execute a w).2.1.failureCount = 0 ∧
      (cbp.Execute a w).2.1.state = State.HalfOpen) := by
  have hsw := switchState_open_late cbp w.clock hopen hlate
  have hex := Execute_of_switch_some cbp _ a w hsw
  refine ⟨by rw [hsw]; rfl, by rw [hex], by rw [hex]; rfl, ?_⟩
  intro hok
  have hinv : (invoke a w).1 = none := hok
  rw [hex, hinv, settle_ok]
  exact ⟨rfl, rfl, rfl⟩

/-- C3 at the input of the test: the breaker opened at instant 3, timeout 60, a succeeding
call at instant 100. -/
theorem C3_probe_after_timeout_witness :
    openedBreaker.state = State.Open ∧
    Since (worldAt 100).clock openedBreaker.lastAttempt > openedBreaker.recoveryTimeout ∧
    (openedBreaker.Execute succeeding (worldAt 100)).1 = none ∧
    (openedBreaker.Execute succeeding (worldAt 100)).2.1.failureCount = 0 ∧
    (openedBreaker.Execute succeeding (worldAt 100)).2.1.state = State.HalfOpen ∧
    (openedBreaker.Execute succeeding (worldAt 100)).2.2.trace = [Event.action none] :=
  have h := C3_probe_after_timeout openedBreaker succeeding (worldAt 100) (by decide)
    (by decide)
  ⟨by decide, by decide, (h.2.2.2 rfl).1, (h.2.2.2 rfl).2.1, (h.2.2.2 rfl).2.2, h.2.2.1⟩

/-- C4: after a successful probe (a call on an Open breaker made after the recovery
timeout whose action succeeds), every following sequence of calls, from any world, gets
the same results and leaves the same world (caller state, clock and trace of invocations)
as on a breaker newly made with the same failureThreshold and recoveryTimeout. -/
theorem C4_after_probe_behaves_as_new {σ : Type} (cbp : CircuitBreakerPolicy)
    (a : Action σ) (w : World σ) (hopen : cbp.state = State.Open)
    (hlate : Since w.clock cbp.lastAttempt > cbp.recoveryTimeout)
    (hok : (a w.env w.clock).err = none) (qs : List (Request σ)) (w2 : World σ) :
    (runCalls (cbp.Execute a w).2.1 qs w2).1 =
      (runCalls (NewCircuitBreakerPolicy cbp.failureThreshold cbp.recoveryTimeout) qs w2).1 ∧
    (runCalls (cbp.Execute a w).2.1 qs w2).2.2 =
      (runCalls (NewCircuitBreakerPolicy cbp.failureThreshold cbp.recoveryTimeout) qs w2).2.2 := by
  apply runCalls_alike
  have hex := Execute_of_switch_some cbp _ a w (switchState_open_late cbp w.clock hopen hlate)
  have hinv : (invoke a w).1 = none := hok
  rw [hex, hinv, settle_ok]
  exact Or.inr ⟨rfl, rfl, rfl, by simp, by simp [NewCircuitBreakerPolicy]⟩

/-- C4 at a concrete run: the breaker that opened at instant 3 is probed with success at
instant 100 and then sees three failures and one more call, as a new breaker would. -/
theorem C4_after_probe_behaves_as_new_witness :
    openedBreaker.state = State.Open ∧
    Since (worldAt 100).clock openedBreaker.lastAttempt > openedBreaker.recoveryTimeout ∧
    (succeeding (worldAt 100).env (worldAt 100).clock).err = none ∧
    (runCalls (openedBreaker.Execute succeeding (worldAt 100)).2.1
        (threeFailures ++ [{ pause := 0, action := succeeding }]) (worldAt 101)).1 =
      [some (GoError.New "failed"), some (GoError.New "failed"), some (GoError.New "failed"),
       some ErrCircuitOpen] :=
  have h := C4_after_probe_behaves_as_new openedBreaker succeeding (worldAt 100)
    (by decide) (by decide) rfl (threeFailures ++ [{ pause := 0, action := succeeding }])
    (worldAt 101)
  ⟨by decide, by decide, rfl, h.1.trans (by decide)⟩

/-- C5: for every breaker, action and world, exactly one of two things happens. Either the
breaker is Open and the time since lastAttempt is at most the recovery timeout, and then
the result is ErrCircuitOpen and the world is untouched (no invocation); or that condition
fails, and then the action is invoked exactly once (the world is that of one invocation,
one action event added) and Execute returns exactly the value the action returned. -/
theorem C5_only_manufactured_error {σ : Type} (cbp : CircuitBreakerPolicy) (a : Action σ)
    (w : World σ) :
    ((cbp.state = State.Open ∧ Since w.clock cbp.lastAttempt ≤ cbp.recoveryTimeout) ∧
      (cbp.Execute a w).1 = some ErrCircuitOpen ∧
      (cbp.Execute a w).2.2 = w) ∨
    (¬ (cbp.state = State.Open ∧ Since w.clock cbp.lastAttempt ≤ cbp.recoveryTimeout) ∧
      (cbp.Execute a w).1 = (a w.env w.clock).err ∧
      (cbp.Execute a w).2.2 = (invoke a w).2 ∧
      (cbp.Execute a w).2.2.trace = w.trace ++ [Event.action (a w.env w.clock).err]) := by
  rcases Execute_cases cbp a w with ⟨hrej, _, hex⟩ | ⟨hrun, c, _, _, hex⟩
  · left
    rw [hex]
    exact ⟨hrej, rfl, rfl⟩
  · right
    rw [hex]
    exact ⟨hrun, rfl, rfl, rfl⟩

/-- C6, the code at an input where the claim fails: on a breaker whose failureCount is the
largest int of 64 bits, a call whose action runs and fails leaves the smallest int, not the
previous value plus 1, and the breaker stays Closed; on the breaker that call leaves, whose
failureCount is negative, a call whose action runs and succeeds leaves 0, so the
failureCount increases on a call whose action succeeded. -/
theorem C6_failureCount_wraps_at_max :
    saturatedBreaker.switchState (worldAt 5).clock ≠ none ∧
    (failing (worldAt 5).env (worldAt 5).clock).err ≠ none ∧
    (saturatedBreaker.Execute64 failing (worldAt 5)).2.1.failureCount =
      -9223372036854775808 ∧
    (saturatedBreaker.Execute64 failing (worldAt 5)).2.1.failureCount ≠
      saturatedBreaker.failureCount + 1 ∧
    (saturatedBreaker.Execute64 failing (worldAt 5)).2.1.state = State.Closed ∧
    (succeeding (worldAt 7).env (worldAt 7).clock).err = none ∧
    (saturatedBreaker.Execute64 failing (worldAt 5)).2.1.failureCount <
      (((saturatedBreaker.Execute64 failing (worldAt 5)).2.1).Execute64 succeeding
        (worldAt 7)).2.1.failureCount := by
  decide

/-- C6 as amended: for every breaker whose failureCount is an int of 64 bits below the
largest one, and every action and world: when the call is rejected (no action runs) the
failureCount is unchanged; when the action runs and succeeds it is 0; when the action runs
and fails it is the previous value plus 1. Hence, on a count that is not negative, it
grows only on a call whose action ran and failed. On these breakers the count of 64 bits
and the unbounded count give the same call. -/
theorem C6_failureCount_rule_below_max {σ : Type} (cbp : CircuitBreakerPolicy)
    (a : Action σ) (w : World σ) (hlo : -9223372036854775808 ≤ cbp.failureCount)
    (hhi : cbp.failureCount < 9223372036854775807) :
    (cbp.switchState w.clock = none →
      (cbp.Execute64 a w).2.1.failureCount = cbp.failureCount) ∧
    (cbp.switchState w.clock ≠ none → (a w.env w.clock).err = none →
      (cbp.Execute64 a w).2.1.failureCount = 0) ∧
    (cbp.switchState w.clock ≠ none → (a w.env w.clock).err ≠ none →
      (cbp.Execute64 a w).2.1.failureCount = cbp.failureCount + 1) ∧
    (0 ≤ cbp.failureCount → cbp.failureCount < (cbp.Execute64 a w).2.1.failureCount →
      cbp.switchState w.clock ≠ none ∧ (a w.env w.clock).err ≠ none) ∧
    cbp.Execute64 a w = cbp.Execute a w := by
  have heq := Execute64_eq_Execute cbp a w (by omega) hhi
  rw [heq]
  obtain ⟨h1, h2, h3, h4⟩ := Execute_failureCount_rule cbp a w
  exact ⟨h1, h2, h3, h4, rfl⟩

/-- C6 as amended, at concrete calls: a failing call on a closed breaker with count 1 gives
2, a succeeding probe on the opened breaker gives 0, and a rejected call leaves 3. -/
theorem C6_failureCount_rule_below_max_witness :
    (-9223372036854775808 : Int) ≤ 1 ∧ (1 : Int) < 9223372036854775807 ∧
    (({ openedBreaker with state := State.Closed, failureCount := 1 } :
        CircuitBreakerPolicy).Execute64 failing (worldAt 5)).2.1.failureCount = 1 + 1 ∧
    (openedBreaker.Execute64 succeeding (worldAt 100)).2.1.failureCount = 0 ∧
    (openedBreaker.Execute64 failing (worldAt 10)).2.1.failureCount = 3 :=
  ⟨by decide, by decide,
   (C6_failureCount_rule_below_max
      { openedBreaker with state := State.Closed, failureCount := 1 }
      failing (worldAt 5) (by decide) (by decide)).2.2.1 (by decide) (by decide),
   (C6_failureCount_rule_below_max openedBreaker succeeding (worldAt 100) (by decide)
      (by decide)).2.1 (by decide) rfl,
   (C6_failureCount_rule_below_max openedBreaker failing (worldAt 10) (by decide)
      (by decide)).1 (by decide)⟩

/-- C7: a call on an Open breaker made while the time since lastAttempt is at most the
recovery timeout returns ErrCircuitOpen and leaves the breaker exactly as it was (state
Open, failureCount, lastAttempt, failureThreshold, recoveryTimeout) and the world
untouched. -/
theorem C7_rejected_call_changes_nothing {σ : Type} (cbp : CircuitBreakerPolicy)
    (a : Action σ) (w : World σ) (hopen : cbp.state = State.Open)
    (hearly : Since w.clock cbp.lastAttempt ≤ cbp.recoveryTimeout) :
    cbp.Execute a w = (some ErrCircuitOpen, cbp, w) ∧
    (cbp.Execute a w).2.1.state = State.Open ∧
    (cbp.Execute a w).2.1.failureCount = cbp.failureCount ∧
    (cbp.Execute a w).2.1.lastAttempt = cbp.lastAttempt ∧
    (cbp.Execute a w).2.1.failureThreshold = cbp.failureThreshold ∧
    (cbp.Execute a w).2.1.recoveryTimeout = cbp.recoveryTimeout := by
  have hex := Execute_of_switch_none cbp a w (switchState_open_early cbp w.clock hopen hearly)
  rw [hex]
  exact ⟨rfl, hopen, rfl, rfl, rfl, rfl⟩

/-- C7 at a concrete call: the breaker that opened at instant 3 with timeout 60, called at
instant 10. -/
theorem C7_rejected_call_changes_nothing_witness :
    openedBreaker.state = State.Open ∧
    Since (worldAt 10).clock openedBreaker.lastAttempt ≤ openedBreaker.recoveryTimeout ∧
    (openedBreaker.Execute failing (worldAt 10)).2.1 = openedBreaker ∧
    (openedBreaker.Execute failing (worldAt 10)).2.2.trace = [] :=
  have h := C7_rejected_call_changes_nothing openedBreaker failing (worldAt 10) (by decide)
    (by decide)
  ⟨by decide, by decide, congrArg (fun r => r.2.1) h.1, congrArg (fun r => r.2.2.trace) h.1⟩

/-- C8: a call on a HalfOpen breaker, whatever the elapsed time, failureCount and
threshold, is never rejected: its action is invoked exactly once (the world is that of one
invocation) and its result is returned; the state in which the action runs is Closed when
the time since lastAttempt exceeds the recovery timeout and HalfOpen otherwise. -/
theorem C8_halfOpen_always_runs {σ : Type} (cbp : CircuitBreakerPolicy) (a : Action σ)
    (w : World σ) (hhalf : cbp.state = State.HalfOpen) :
    (cbp.Execute a w).1 = (a w.env w.clock).err ∧
    (cbp.Execute a w).2.2 = (invoke a w).2 ∧
    (cbp.Execute a w).2.2.trace = w.trace ++ [Event.action (a w.env w.clock).err] ∧
    (cbp.switchState w.clock).map (fun c => c.state) =
      some (if Since w.clock cbp.lastAttempt > cbp.recoveryTimeout then State.Closed
        else State.HalfOpen) := by
  have hsw := switchState_halfOpen cbp w.clock hhalf
  have hex := Execute_of_switch_some cbp _ a w hsw
  refine ⟨by rw [hex]; rfl, by rw [hex], by rw [hex]; rfl, ?_⟩
  rw [hsw]
  by_cases ht : Since w.clock cbp.lastAttempt > cbp.recoveryTimeout <;> simp [ht, hhalf]

/-- C8 at concrete calls: a HalfOpen breaker whose lastAttempt is instant 3, timeout 60,
called with a failing action at instant 10 (runs in HalfOpen) and at instant 100 (runs in
Closed). -/
theorem C8_halfOpen_always_runs_witness :
    probedBreaker.state = State.HalfOpen ∧
    (probedBreaker.Execute failing (worldAt 10)).1 = some (GoError.New "failed") ∧
    (probedBreaker.switchState (worldAt 10).clock).map (fun c => c.state) =
      some State.HalfOpen ∧
    (probedBreaker.switchState (worldAt 100).clock).map (fun c => c.state) =
      some State.Closed :=
  ⟨by decide,
   (C8_halfOpen_always_runs probedBreaker failing (worldAt 10) (by decide)).1,
   (C8_halfOpen_always_runs probedBreaker failing (worldAt 10) (by decide)).2.2.2.trans
     (by decide),
   (C8_halfOpen_always_runs probedBreaker failing (worldAt 100) (by decide)).2.2.2.trans
     (by decide)⟩

/-- C9: on a breaker made by NewCircuitBreakerPolicy and driven only by Execute, with a
clock that never goes backwards, from every call at which the breaker enters HalfOpen
(it starts Open and runs its action in HalfOpen) up to the moment the state next becomes
Closed or Open, exactly one call runs its action in state HalfOpen; and no other call of
the run runs its action in HalfOpen. -/
theorem C9_halfOpen_single_probe {σ : Type} (n rt : Int) (qs : List (Request σ))
    (w : World σ) (hmono : ClockNeverGoesBack qs) :
    (∀ (i : Nat) (r : CallRecord),
      (callLog (NewCircuitBreakerPolicy n rt) qs w)[i]? = some r →
      r.before = State.Open → r.during = some State.HalfOpen →
      probesInEpisode ((callLog (NewCircuitBreakerPolicy n rt) qs w).drop i) = 1) ∧
    (∀ r ∈ callLog (NewCircuitBreakerPolicy n rt) qs w,
      r.during = some State.HalfOpen → r.before = State.Open) :=
  ⟨probesInEpisode_of_probeInv qs _ w (probeInv_new n rt w.clock) hmono,
   during_halfOpen_of_probeInv qs _ w (probeInv_new n rt w.clock) hmono⟩

/-- C9 at a concrete run: threshold 3, timeout 60, three failures, then a successful probe
100 ns later (the fourth call) and two more successes, which run in state Closed. -/
theorem C9_halfOpen_single_probe_witness :
    ClockNeverGoesBack probingRun ∧
    callLog (NewCircuitBreakerPolicy 3 60) probingRun w0 =
      [{ before := State.Closed, during := some State.Closed, after := State.Closed },
       { before := State.Closed, during := some State.Closed, after := State.Closed },
       { before := State.Closed, during := some State.Closed, after := State.Open },
       { before := State.Open, during := some State.HalfOpen, after := State.HalfOpen },
       { before := State.HalfOpen, during := some State.Closed, after := State.Closed },
       { before := State.Closed, during := some State.Closed, after := State.Closed }] ∧
    probesInEpisode ((callLog (NewCircuitBreakerPolicy 3 60) probingRun w0).drop 3) = 1 := by
  have hmono : ClockNeverGoesBack probingRun := by
    intro q hq
    simp only [probingRun, threeFailures, List.cons_append, List.nil_append, List.mem_cons,
      List.mem_singleton, List.not_mem_nil, or_false] at hq
    rcases hq with h | h | h | h | h | h <;> subst h <;>
      exact ⟨by decide, fun _ t => by simp [failing, succeeding]⟩
  exact ⟨hmono, by decide,
    (C9_halfOpen_single_probe 3 60 probingRun w0 hmono).1 3
      { before := State.Open, during := some State.HalfOpen, after := State.HalfOpen }
      (by decide) rfl rfl⟩

/-- C10: for a RetryPolicy with MaxRetries m at least 1 and an action that fails on its
first k - 1 invocations and succeeds on invocation k, with k between 1 and m, Execute
returns nil, the trace gains exactly k invocations of the action and exactly k - 1 sleeps,
every one of them of duration Delay, and the last event is the successful invocation: no
sleep follows it. -/
theorem C10_retry_stops_at_first_success {σ : Type} (r : RetryPolicy) (action : Action σ)
    (w : World σ) (k : Nat) (hk : 1 ≤ k) (hkm : (k : Int) ≤ r.MaxRetries)
    (hfail : ∀ i, i + 1 < k → (invoke action (r.attemptWorld action w i)).1 ≠ none)
    (hok : (invoke action (r.attemptWorld action w (k - 1))).1 = none) :
    (r.Execute action w).1 = none ∧
    invocations (r.Execute action w).2.trace = invocations w.trace + k ∧
    sleeps (r.Execute action w).2.trace = sleeps w.trace + (k - 1) ∧
    sleepsFor r.Delay (r.Execute action w).2.trace = sleepsFor r.Delay w.trace + (k - 1) ∧
    (r.Execute action w).2.trace.getLast? = some (Event.action none) := by
  obtain ⟨j, rfl⟩ : ∃ j, k = j + 1 := ⟨k - 1, by omega⟩
  simp only [Nat.add_sub_cancel] at hok ⊢
  obtain ⟨h1, h2, h3, h4, h5, _⟩ := RetryPolicy.loop_first_success r action j
    r.MaxRetries.toNat none w (by omega) (fun i hi => hfail i (by omega)) hok
  exact ⟨h1, h2, h3, h4, h5⟩

/-- C10 at the input of the test: MaxRetries 3, Delay 10 ms, an action that succeeds on its
third invocation: nil, three invocations, two sleeps of 10 ms, at least 20 ms elapsed. -/
theorem C10_retry_stops_at_first_success_witness :
    (1 ≤ 3) ∧ ((3 : Nat) : Int) ≤ (NewRetryPolicy 3 10000000).MaxRetries ∧
    ((NewRetryPolicy 3 10000000).Execute succeedsOnThird retryWorld).1 = none ∧
    invocations ((NewRetryPolicy 3 10000000).Execute succeedsOnThird retryWorld).2.trace = 3 ∧
    sleeps ((NewRetryPolicy 3 10000000).Execute succeedsOnThird retryWorld).2.trace = 2 ∧
    ((NewRetryPolicy 3 10000000).Execute succeedsOnThird retryWorld).2.env = 3 ∧
    20000000 ≤ ((NewRetryPolicy 3 10000000).Execute succeedsOnThird retryWorld).2.clock :=
  have h := C10_retry_stops_at_first_success (NewRetryPolicy 3 10000000) succeedsOnThird
    retryWorld 3 (by decide) (by decide)
    (by
      intro i hi
      have : i = 0 ∨ i = 1 := by omega
      rcases this with rfl | rfl <;> decide)
    (by decide)
  ⟨by decide, by decide, h.1, h.2.1, h.2.2.1, by decide, by decide⟩

/-- C11: for a RetryPolicy with MaxRetries m at least 1 and an action that fails on each
of its first m invocations, Execute returns exactly the error of the m-th invocation, the
trace gains exactly m invocations of the action and exactly m sleeps, every one of them of
duration Delay, and the last event is a sleep: one follows the final attempt too. -/
theorem C11_retry_exhausted {σ : Type} (r : RetryPolicy) (action : Action σ) (w : World σ)
    (m : Nat) (hm : 1 ≤ m) (hmr : r.MaxRetries = (m : Int))
    (hfail : ∀ i, i < m → (invoke action (r.attemptWorld action w i)).1 ≠ none) :
    (r.Execute action w).1 = (invoke action (r.attemptWorld action w (m - 1))).1 ∧
    (r.Execute action w).1 ≠ none ∧
    invocations (r.Execute action w).2.trace = invocations w.trace + m ∧
    sleeps (r.Execute action w).2.trace = sleeps w.trace + m ∧
    sleepsFor r.Delay (r.Execute action w).2.trace = sleepsFor r.Delay w.trace + m ∧
    (r.Execute action w).2.trace.getLast? = some (Event.sleep r.Delay) := by
  have hn : r.MaxRetries.toNat = m := by rw [hmr]; simp
  obtain ⟨h1, h2⟩ := RetryPolicy.loop_all_fail r action m none w hfail
  obtain ⟨c1, c2, c3, c4⟩ := RetryPolicy.attemptWorld_counts r action m w
  have hm0 : ¬ m = 0 := by omega
  unfold RetryPolicy.Execute
  rw [hn, h2, h1]
  simp only [hm0, if_false]
  exact ⟨trivial, hfail (m - 1) (by omega), c1, c2, c3, c4 (by omega)⟩

/-- C11 at the input of the test: MaxRetries 2, Delay 10 ms, an action that always fails:
the error of the second invocation is returned, after two invocations and two sleeps. -/
theorem C11_retry_exhausted_witness :
    (1 ≤ 2) ∧ (NewRetryPolicy 2 10000000).MaxRetries = ((2 : Nat) : Int) ∧
    ((NewRetryPolicy 2 10000000).Execute failsNumbered retryWorld).1 =
      some (GoError.New "later failure") ∧
    ((NewRetryPolicy 2 10000000).Execute failsNumbered retryWorld).2.trace =
      [Event.action (some (GoError.New "first failure")), Event.sleep 10000000,
       Event.action (some (GoError.New "later failure")), Event.sleep 10000000] ∧
    invocations ((NewRetryPolicy 2 10000000).Execute failsNumbered retryWorld).2.trace = 2 ∧
    sleeps ((NewRetryPolicy 2 10000000).Execute failsNumbered retryWorld).2.trace = 2 :=
  have h := C11_retry_exhausted (NewRetryPolicy 2 10000000) failsNumbered retryWorld 2
    (by decide) (by decide)
    (by
      intro i hi
      have : i = 0 ∨ i = 1 := by omega
      rcases this with rfl | rfl <;> decide)
  ⟨by decide, by decide, h.1.trans (by decide), by decide, h.2.2.1, h.2.2.2.1⟩

/-- C12: FallbackPolicy.Execute invokes the primary action exactly once. When the primary
fails, whatever its error, the fallback action is invoked exactly once, in the world the
primary left, and exactly its result is returned; when the primary succeeds, nil is
returned and the fallback action is not invoked. -/
theorem C12_fallback_execute {σ : Type} (fp : FallbackPolicy σ) (action : Action σ)
    (w : World σ) :
    invocations (fp.Execute action w).2.trace = invocations w.trace + 1 ∧
    ((invoke action w).1 ≠ none →
      fp.Execute action w = invokeFallback fp.fallbackAction (invoke action w).2 ∧
      (fp.Execute action w).1 =
        (fp.fallbackAction (invoke action w).2.env (invoke action w).2.clock).err ∧
      (fp.Execute action w).2.trace =
        w.trace ++ [Event.action (invoke action w).1, Event.fallbackAction (fp.Execute action w).1] ∧
      fallbacks (fp.Execute action w).2.trace = fallbacks w.trace + 1) ∧
    ((invoke action w).1 = none →
      fp.Execute action w = (none, (invoke action w).2) ∧
      (fp.Execute action w).2.trace = w.trace ++ [Event.action none] ∧
      fallbacks (fp.Execute action w).2.trace = fallbacks w.trace) := by
  by_cases h : (invoke action w).1 = none
  · have hex : fp.Execute action w = (none, (invoke action w).2) := by
      simp [FallbackPolicy.Execute, h]
    rw [hex]
    refine ⟨?_, fun hn => absurd h hn, fun _ => ⟨rfl, ?_, ?_⟩⟩
    · rw [invoke_trace, invocations_append]; simp [invocations]
    · rw [invoke_trace, h]
    · rw [invoke_trace]; simp [fallbacks, List.countP_append]
  · have hex : fp.Execute action w = invokeFallback fp.fallbackAction (invoke action w).2 := by
      simp [FallbackPolicy.Execute, h]
    rw [hex]
    refine ⟨?_, fun _ => ⟨rfl, rfl, ?_, ?_⟩, fun hn => absurd hn h⟩
    · simp [invokeFallback, invoke, invocations, List.countP_append]
    · simp [invokeFallback, invoke]
    · simp [invokeFallback, invoke, fallbacks, List.countP_append]

/-- C12 at the input of the test: a primary that fails and a fallback that succeeds. -/
theorem C12_fallback_execute_witness :
    (invoke failing w0).1 ≠ none ∧
    ((NewFallbackPolicy succeeding).Execute failing w0).1 = none ∧
    ((NewFallbackPolicy succeeding).Execute failing w0).2.trace =
      [Event.action (some (GoError.New "failed")), Event.fallbackAction none] :=
  have h := (C12_fallback_execute (NewFallbackPolicy succeeding) failing w0).2.1 (by decide)
  ⟨by decide, h.2.1, h.2.2.1.trans (by decide)⟩

/-- C13, the code at an input where the claim fails: the primary action fails, the fallback
action runs and returns nil, and Execute returns nil although the primary did not
succeed. -/
theorem C13_fallback_returns_nil_after_failure :
    (invoke failing w0).1 ≠ none ∧
    ((NewFallbackPolicy succeeding).Execute failing w0).1 = none ∧
    ((NewFallbackPolicy succeeding).Execute failing w0).2.trace =
      [Event.action (some (GoError.New "failed")), Event.fallbackAction none] := by
  decide

/-- C14: for a Resilience with a FallbackPolicy only and a primary action that fails each
time it is invoked, Execute invokes the primary exactly twice (once directly, once inside
FallbackPolicy.Execute), then the fallback action exactly once, and returns exactly the
result of the fallback action. -/
theorem C14_fallback_only {σ : Type} (fp : FallbackPolicy σ) (action : Action σ)
    (w : World σ) (h1 : (invoke action w).1 ≠ none)
    (h2 : (invoke action (invoke action w).2).1 ≠ none) :
    ((NewResilience.WithFallback fp).Execute action w).1 =
      (invokeFallback fp.fallbackAction (invoke action (invoke action w).2).2).1 ∧
    ((NewResilience.WithFallback fp).Execute action w).2.2.trace =
      w.trace ++ [Event.action (invoke action w).1,
        Event.action (invoke action (invoke action w).2).1,
        Event.fallbackAction ((NewResilience.WithFallback fp).Execute action w).1] ∧
    invocations ((NewResilience.WithFallback fp).Execute action w).2.2.trace =
      invocations w.trace + 2 ∧
    fallbacks ((NewResilience.WithFallback fp).Execute action w).2.2.trace =
      fallbacks w.trace + 1 := by
  have hfs : (NewResilience.WithFallback fp).firstStage action w = invoke action w := rfl
  have hbs : (NewResilience.WithFallback fp).breakerStage action (invoke action w) =
      ((invoke action w).1, none, (invoke action w).2) := rfl
  have hex := Resilience.Execute_with_fallback (NewResilience.WithFallback fp) action w fp rfl
    (by rw [hfs, hbs]; exact h1)
  rw [hfs, hbs] at hex
  have hfe : fp.Execute action (invoke action w).2 =
      invokeFallback fp.fallbackAction (invoke action (invoke action w).2).2 := by
    simp [FallbackPolicy.Execute, h2]
  rw [hex, hfe]
  refine ⟨rfl, ?_, ?_, ?_⟩
  · simp [invokeFallback, invoke]
  · simp [invokeFallback, invoke, invocations, List.countP_append]
  · simp [invokeFallback, invoke, fallbacks, List.countP_append]

/-- C14 at a concrete input: a primary that always fails and a fallback that succeeds. -/
theorem C14_fallback_only_witness :
    (invoke failing w0).1 ≠ none ∧ (invoke failing (invoke failing w0).2).1 ≠ none ∧
    ((NewResilience.WithFallback (NewFallbackPolicy succeeding)).Execute failing w0).1 = none ∧
    ((NewResilience.WithFallback (NewFallbackPolicy succeeding)).Execute failing w0).2.2.trace =
      [Event.action (some (GoError.New "failed")), Event.action (some (GoError.New "failed")),
       Event.fallbackAction none] :=
  have h := C14_fallback_only (NewFallbackPolicy succeeding) failing w0 (by decide) (by decide)
  ⟨by decide, by decide, h.1.trans (by decide), h.2.1.trans (by decide)⟩

/-- C15: one call of Resilience.Execute with a RetryPolicy of MaxRetries m at least 1, any
breaker and any fallback, invokes the action at most m + 2 times; it invokes it exactly
m + 2 times when the action always fails, the breaker is configured and does not reject the
call, and a fallback is configured. Without a RetryPolicy the bound is 3. -/
theorem C15_invocation_bound {σ : Type} (r : Resilience σ) (action : Action σ) (w : World σ) :
    (∀ (rp : RetryPolicy) (m : Nat), r.retryPolicy = some rp → 1 ≤ m →
      rp.MaxRetries = (m : Int) →
      invocations (r.Execute action w).2.2.trace ≤ invocations w.trace + (m + 2) ∧
      ((∀ (env : σ) (t : Int), (action env t).err ≠ none) →
        (∃ cb, r.circuitBreakerPolicy = some cb ∧
          cb.switchState (r.firstStage action w).2.clock ≠ none) →
        (∃ fp, r.fallbackPolicy = some fp) →
        invocations (r.Execute action w).2.2.trace = invocations w.trace + (m + 2))) ∧
    (r.retryPolicy = none →
      invocations (r.Execute action w).2.2.trace ≤ invocations w.trace + 3) := by
  obtain ⟨t1, ht1, _, hi1, hnone, _⟩ := Resilience.firstStage_summary r action w
  have hb := Resilience.breakerStage_invocations r action (r.firstStage action w)
  have he := Resilience.Execute_invocations r action w
  have hfs : invocations (r.firstStage action w).2.trace = invocations w.trace + invocations t1 := by
    rw [ht1, invocations_append]
  constructor
  · intro rp m hr hm hmr
    have hle : invocations t1 ≤ m := by
      have := hi1 rp hr
      rw [hmr] at this
      simpa using this
    refine ⟨by omega, ?_⟩
    intro hfail ⟨cb, hcb, hsw⟩ ⟨fp, hfp⟩
    have hstage : r.firstStage action w = rp.Execute action w := by
      simp [Resilience.firstStage, hr]
    have hn : rp.MaxRetries.toNat = m := by rw [hmr]; simp
    obtain ⟨l1, l2⟩ := RetryPolicy.loop_all_fail rp action m none w
      (fun i _ => hfail _ _)
    obtain ⟨c1, _⟩ := RetryPolicy.attemptWorld_counts rp action m w
    have hcount : invocations (r.firstStage action w).2.trace = invocations w.trace + m := by
      rw [hstage]
      unfold RetryPolicy.Execute
      rw [hn, l2, c1]
    have hres : (r.firstStage action w).1 ≠ none := by
      rw [hstage]
      unfold RetryPolicy.Execute
      rw [hn, l1]
      have hm0 : ¬ m = 0 := by omega
      simp only [hm0, if_false]
      exact hfail _ _
    obtain ⟨b1, b2⟩ := hb.2 cb hcb hres hsw
    have hres2 : (r.breakerStage action (r.firstStage action w)).1 ≠ none := by
      rw [b2]
      exact hfail _ _
    have := he.2 fp hfp hres2
    omega
  · intro hr
    have := hnone hr
    omega

/-- C15 at the example program: MaxRetries 3, a new breaker of threshold 2, a fallback that
returns nil and an action that always fails: five invocations, and nil is returned. -/
theorem C15_invocation_bound_witness :
    exampleResilience.retryPolicy = some (NewRetryPolicy 3 2000000000) ∧
    (1 ≤ 3) ∧ (NewRetryPolicy 3 2000000000).MaxRetries = ((3 : Nat) : Int) ∧
    invocations (exampleResilience.Execute failing w0).2.2.trace = 5 ∧
    (exampleResilience.Execute failing w0).1 = none ∧
    fallbacks (exampleResilience.Execute failing w0).2.2.trace = 1 :=
  have h := ((C15_invocation_bound exampleResilience failing w0).1
    (NewRetryPolicy 3 2000000000) 3 rfl (by decide) (by decide)).2
    (fun _ _ => by simp [failing])
    ⟨NewCircuitBreakerPolicy 2 5000000000, rfl, by decide⟩
    ⟨NewFallbackPolicy succeeding, rfl⟩
  ⟨rfl, by decide, by decide, h, by decide, by decide⟩

/-- C16: when the first stage of Resilience.Execute succeeds (the retry policy, or the one
direct call, returns nil), Execute returns nil, the Resilience and with it the breaker are
exactly as before (state, failureCount and lastAttempt unchanged), and the world is the one
the first stage left: no breaker call and no fallback follow. With no policy configured,
Execute invokes the action exactly once and returns its result. -/
theorem C16_success_skips_later_stages {σ : Type} (r : Resilience σ) (action : Action σ)
    (w : World σ) :
    ((r.firstStage action w).1 = none →
      r.Execute action w = (none, r, (r.firstStage action w).2) ∧
      (r.Execute action w).2.1.circuitBreakerPolicy = r.circuitBreakerPolicy ∧
      fallbacks (r.Execute action w).2.2.trace = fallbacks w.trace) ∧
    (NewResilience : Resilience σ).Execute action w =
      ((invoke action w).1, NewResilience, (invoke action w).2) ∧
    ((NewResilience : Resilience σ).Execute action w).2.2.trace =
      w.trace ++ [Event.action (invoke action w).1] := by
  refine ⟨fun h => ?_, rfl, rfl⟩
  have hbs := Resilience.breakerStage_of_success r action (r.firstStage action w) h
  have hex := Resilience.Execute_without_fallback r action w (Or.inl (by rw [hbs]))
  rw [hbs] at hex
  simp only [Resilience.with_same_breaker] at hex
  obtain ⟨t, ht, hf, _⟩ := Resilience.firstStage_summary r action w
  rw [hex]
  refine ⟨rfl, rfl, ?_⟩
  simp only [ht, fallbacks_append, hf, Nat.add_zero]

/-- C16 at a concrete call: a breaker that has counted one failure and a fallback are
configured, the action succeeds: the breaker still counts one failure and only the action
was invoked. -/
theorem C16_success_skips_later_stages_witness :
    (guardedResilience.firstStage succeeding w0).1 = none ∧
    (guardedResilience.Execute succeeding w0).1 = none ∧
    (guardedResilience.Execute succeeding w0).2.1.circuitBreakerPolicy =
      some { failureThreshold := 3, recoveryTimeout := 60, state := State.Closed,
             failureCount := 1, lastAttempt := 3 } ∧
    (guardedResilience.Execute succeeding w0).2.2.trace = [Event.action none] :=
  have h := (C16_success_skips_later_stages guardedResilience succeeding w0).1 (by decide)
  ⟨by decide, congrArg Prod.fst h.1, h.2.1, (congrArg (fun x => x.2.2.trace) h.1).trans (by decide)⟩

/-- C17, the code at an input where the claim fails: with only a breaker configured, an
action that fails is invoked once by the first stage; the breaker, Open since instant 3
with a timeout of 60, rejects the call at instant 11, and Execute returns ErrCircuitOpen,
which is the result of no invocation of the action and of no fallback. -/
theorem C17_sentinel_is_no_invocation_result :
    (openedResilience.Execute failing (worldAt 10)).1 = some ErrCircuitOpen ∧
    (openedResilience.Execute failing (worldAt 10)).2.2.trace =
      [Event.action (some (GoError.New "failed"))] ∧
    ¬ ResultComesFromCall (openedResilience.Execute failing (worldAt 10)).1
        (worldAt 10).trace (openedResilience.Execute failing (worldAt 10)).2.2.trace := by
  refine ⟨by decide, by decide, ?_⟩
  unfold ResultComesFromCall
  decide

/-- C17 as amended: for a Resilience whose retry policy, when there is one, has MaxRetries
at least 1, the value returned by Execute is the result of one of the invocations of the
action made during the call, or the result of the fallback action, or else it is
ErrCircuitOpen: no fallback is configured, the first stage failed and the breaker rejected
the call. -/
theorem C17_result_origin {σ : Type} (r : Resilience σ) (action : Action σ) (w : World σ)
    (hm : ∀ rp, r.retryPolicy = some rp → 1 ≤ rp.MaxRetries) :
    ResultComesFromCall (r.Execute action w).1 w.trace (r.Execute action w).2.2.trace ∨
    ((r.Execute action w).1 = some ErrCircuitOpen ∧ r.fallbackPolicy = none ∧
      ∃ cb, r.circuitBreakerPolicy = some cb ∧ (r.firstStage action w).1 ≠ none ∧
        cb.switchState (r.firstStage action w).2.clock = none) := by
  obtain ⟨t, ht, horigin⟩ := Resilience.breakerStage_origin r action w hm
  cases hf : r.fallbackPolicy with
  | none =>
    rw [Resilience.Execute_without_fallback r action w (Or.inr hf)]
    rcases horigin with hmem | ⟨hs, hrej⟩
    · left
      left
      simp only [ht, newEvents_append]
      exact hmem
    · right
      exact ⟨hs, rfl, hrej⟩
  | some fp =>
    left
    by_cases hres : (r.breakerStage action (r.firstStage action w)).1 = none
    · rw [Resilience.Execute_without_fallback r action w (Or.inl hres)]
      rcases horigin with hmem | ⟨hs, _⟩
      · left
        simp only [ht, newEvents_append]
        exact hmem
      · rw [hres] at hs
        simp at hs
    · rw [Resilience.Execute_with_fallback r action w fp hf hres]
      obtain ⟨t3, ht3, _, hmem⟩ := FallbackPolicy.Execute_summary fp action
        (r.breakerStage action (r.firstStage action w)).2.2
      unfold ResultComesFromCall
      simp only [ht3, ht, List.append_assoc, newEvents_append]
      rcases hmem with hmem | hmem
      · exact Or.inl (List.mem_append_right _ hmem)
      · exact Or.inr (List.mem_append_right _ hmem)

/-- C17 as amended, at the example program: MaxRetries 3, a new breaker of threshold 2 and
a fallback that returns nil: the nil returned is the result of the fallback action. -/
theorem C17_result_origin_witness :
    (∀ rp, exampleResilience.retryPolicy = some rp → 1 ≤ rp.MaxRetries) ∧
    (exampleResilience.Execute failing w0).1 = none ∧
    ResultComesFromCall (exampleResilience.Execute failing w0).1 w0.trace
      (exampleResilience.Execute failing w0).2.2.trace := by
  have hm : ∀ rp, exampleResilience.retryPolicy = some rp → 1 ≤ rp.MaxRetries := by
    intro rp h
    have : rp = NewRetryPolicy 3 2000000000 := by
      simp only [exampleResilience, Resilience.WithFallback, Resilience.WithCircuitBreaker,
        Resilience.WithRetry, NewResilience, Option.some.injEq] at h
      exact h.symm
    rw [this]
    decide
  refine ⟨hm, by decide, ?_⟩
  rcases C17_result_origin exampleResilience failing w0 hm with h | ⟨h, _⟩
  · exact h
  · exact absurd h (by decide)

/-- C24: on a breaker reached from construction that is Open, a call made when the time
since lastAttempt exceeds the recovery timeout and whose action fails invokes the action
once, returns its error, leaves the state Open and sets lastAttempt to the instant read
after that failure; so every call made while the time since that instant is at most the
recovery timeout is rejected with ErrCircuitOpen. This holds for every threshold. -/
theorem C24_failed_probe_reopens {σ : Type} (n rt : Int) (qs : List (Request σ))
    (w : World σ) (cb : CircuitBreakerPolicy)
    (hcb : (runCalls (NewCircuitBreakerPolicy n rt) qs w).2.1 = cb)
    (hopen : cb.state = State.Open) (a : Action σ) (w1 : World σ)
    (hlate : Since w1.clock cb.lastAttempt > rt)
    (hfail : (a w1.env w1.clock).err ≠ none) :
    (cb.Execute a w1).1 = (a w1.env w1.clock).err ∧
    (cb.Execute a w1).2.2 = (invoke a w1).2 ∧
    (cb.Execute a w1).2.1.state = State.Open ∧
    (cb.Execute a w1).2.1.lastAttempt = (a w1.env w1.clock).clock ∧
    (cb.Execute a w1).2.1.failureCount = cb.failureCount + 1 ∧
    (∀ (b : Action σ) (w2 : World σ),
      Since w2.clock (cb.Execute a w1).2.1.lastAttempt ≤ rt →
      (cb.Execute a w1).2.1.Execute b w2 = (some ErrCircuitOpen, (cb.Execute a w1).2.1, w2)) := by
  obtain ⟨hthr, hrt⟩ := runCalls_config qs (NewCircuitBreakerPolicy n rt) w
  rw [hcb] at hthr hrt
  have hrt2 : cb.recoveryTimeout = rt := hrt
  have hreach : cb.failureThreshold ≤ cb.failureCount := by
    have := open_reached_runCalls qs (NewCircuitBreakerPolicy n rt) w
      (by intro h; simp [NewCircuitBreakerPolicy] at h)
    rw [hcb] at this
    exact this hopen
  have hsw := switchState_open_late cb w1.clock hopen (by rw [hrt2]; exact hlate)
  have hex := Execute_of_switch_some cb _ a w1 hsw
  have hne : (invoke a w1).1 ≠ none := hfail
  rw [settle_fail _ _ _ hne] at hex
  have hc : cb.failureThreshold ≤ cb.failureCount + 1 := by omega
  simp only [ge_iff_le, hc, if_true] at hex
  rw [hex]
  refine ⟨rfl, rfl, rfl, rfl, rfl, ?_⟩
  intro b w2 hearly
  apply Execute_of_switch_none
  apply switchState_open_early _ _ rfl
  simp only [] at hearly ⊢
  rw [hrt2]
  exact hearly

/-- C24 at a concrete run: a breaker of threshold 3 and timeout 60 opened by three
failures at instant 3; a failing call at instant 100 leaves it Open with lastAttempt 101,
and a call at instant 150 is rejected. -/
theorem C24_failed_probe_reopens_witness :
    (runCalls (NewCircuitBreakerPolicy 3 60) threeFailures w0).2.1 = openedBreaker ∧
    openedBreaker.state = State.Open ∧
    Since (worldAt 100).clock openedBreaker.lastAttempt > 60 ∧
    (failing (worldAt 100).env (worldAt 100).clock).err ≠ none ∧
    (openedBreaker.Execute failing (worldAt 100)).2.1 =
      { failureThreshold := 3, recoveryTimeout := 60, state := State.Open, failureCount := 4,
        lastAttempt := 101 } ∧
    ((openedBreaker.Execute failing (worldAt 100)).2.1.Execute succeeding (worldAt 150)).1 =
      some ErrCircuitOpen :=
  have h := C24_failed_probe_reopens 3 60 threeFailures w0 openedBreaker (by decide)
    (by decide) failing (worldAt 100) (by decide) (by decide)
  ⟨by decide, by decide, by decide, by decide, by decide,
   congrArg Prod.fst (h.2.2.2.2.2 succeeding (worldAt 150) (by decide))⟩

/-- C25: on a breaker made by NewCircuitBreakerPolicy with a threshold n at least 1 and
driven only by Execute under a clock that never goes backwards, after every call (after
every number k of calls of the sequence): a Closed breaker has failureCount below n, an Open
breaker has failureCount at least n, and a HalfOpen breaker has failureCount 0 and is,
then and at every later instant, more than the recovery timeout past lastAttempt. Hence
every call that starts HalfOpen runs its action in state Closed: the branch that keeps the
breaker HalfOpen is never taken. -/
theorem C25_reachable_invariant {σ : Type} (n rt : Int) (hn : 1 ≤ n) (qs : List (Request σ))
    (w : World σ) (hmono : ClockNeverGoesBack qs) :
    (∀ k : Nat,
      ((runCalls (NewCircuitBreakerPolicy n rt) (qs.take k) w).2.1.state = State.Closed →
        (runCalls (NewCircuitBreakerPolicy n rt) (qs.take k) w).2.1.failureCount < n) ∧
      ((runCalls (NewCircuitBreakerPolicy n rt) (qs.take k) w).2.1.state = State.Open →
        n ≤ (runCalls (NewCircuitBreakerPolicy n rt) (qs.take k) w).2.1.failureCount) ∧
      ((runCalls (NewCircuitBreakerPolicy n rt) (qs.take k) w).2.1.state = State.HalfOpen →
        (runCalls (NewCircuitBreakerPolicy n rt) (qs.take k) w).2.1.failureCount = 0 ∧
        ∀ t : Int, (runCalls (NewCircuitBreakerPolicy n rt) (qs.take k) w).2.2.clock ≤ t →
          Since t (runCalls (NewCircuitBreakerPolicy n rt) (qs.take k) w).2.1.lastAttempt > rt)) ∧
    (∀ r ∈ callLog (NewCircuitBreakerPolicy n rt) qs w,
      r.before = State.HalfOpen → r.during = some State.Closed) := by
  constructor
  · intro k
    have hmk : ClockNeverGoesBack (qs.take k) := fun q hq => hmono q (List.mem_of_mem_take hq)
    have hinv := reachableInv_runCalls (qs.take k) (NewCircuitBreakerPolicy n rt) w
      (reachableInv_new n rt w.clock hn) hn hmk
    obtain ⟨hthr, hrt⟩ := runCalls_config (qs.take k) (NewCircuitBreakerPolicy n rt) w
    have hthr2 : (runCalls (NewCircuitBreakerPolicy n rt) (qs.take k) w).2.1.failureThreshold = n :=
      hthr
    have hrt2 : (runCalls (NewCircuitBreakerPolicy n rt) (qs.take k) w).2.1.recoveryTimeout = rt :=
      hrt
    refine ⟨fun hs => ?_, fun hs => ?_, fun hs => ⟨(hinv.2.2 hs).1, fun t ht => ?_⟩⟩
    · have := hinv.1 hs
      rw [hthr2] at this
      exact this
    · have := hinv.2.1 hs
      rw [hthr2] at this
      exact this
    · have := (hinv.2.2 hs).2
      rw [hrt2] at this
      unfold Since at this ⊢
      omega
  · exact before_halfOpen_of_probeInv qs _ w (probeInv_new n rt w.clock) hmono

/-- C25 at a concrete run: threshold 3, timeout 60, three failures, a successful probe 100
ns later, two more successes: Open with count 3 after three calls, HalfOpen with count 0
after four, Closed with count 0 after five. -/
theorem C25_reachable_invariant_witness :
    (1 : Int) ≤ 3 ∧ ClockNeverGoesBack probingRun ∧
    (runCalls (NewCircuitBreakerPolicy 3 60) (probingRun.take 3) w0).2.1.state = State.Open ∧
    (3 : Int) ≤ (runCalls (NewCircuitBreakerPolicy 3 60) (probingRun.take 3) w0).2.1.failureCount ∧
    (runCalls (NewCircuitBreakerPolicy 3 60) (probingRun.take 4) w0).2.1.state =
      State.HalfOpen ∧
    (runCalls (NewCircuitBreakerPolicy 3 60) (probingRun.take 4) w0).2.1.failureCount = 0 ∧
    (runCalls (NewCircuitBreakerPolicy 3 60) (probingRun.take 5) w0).2.1.state =
      State.Closed ∧
    (runCalls (NewCircuitBreakerPolicy 3 60) (probingRun.take 5) w0).2.1.failureCount < 3 := by
  have hmono : ClockNeverGoesBack probingRun := by
    intro q hq
    simp only [probingRun, threeFailures, List.cons_append, List.nil_append, List.mem_cons,
      List.mem_singleton, List.not_mem_nil, or_false] at hq
    rcases hq with h | h | h | h | h | h <;> subst h <;>
      exact ⟨by decide, fun _ t => by simp [failing, succeeding]⟩
  have h := C25_reachable_invariant 3 60 (by decide) probingRun w0 hmono
  have h3 : (runCalls (NewCircuitBreakerPolicy 3 60) (probingRun.take 3) w0).2.1.state =
      State.Open := by decide
  have h4 : (runCalls (NewCircuitBreakerPolicy 3 60) (probingRun.take 4) w0).2.1.state =
      State.HalfOpen := by decide
  have h5 : (runCalls (NewCircuitBreakerPolicy 3 60) (probingRun.take 5) w0).2.1.state =
      State.Closed := by decide
  exact ⟨by decide, hmono, h3, (h.1 3).2.1 h3, h4, ((h.1 4).2.2 h4).1, h5, (h.1 5).1 h5⟩

/-- C26: for a RetryPolicy with MaxRetries at most 0, Execute returns nil and leaves the
world untouched: the action is not invoked and there is no sleep. A Resilience with such a
retry policy therefore returns nil for every action and leaves itself and the world
untouched: neither the action, nor the breaker, nor the fallback is called. -/
theorem C26_no_retries_returns_nil {σ : Type} (rp : RetryPolicy) (hle : rp.MaxRetries ≤ 0)
    (action : Action σ) (w : World σ) :
    rp.Execute action w = (none, w) ∧
    (∀ r : Resilience σ, r.retryPolicy = some rp → r.Execute action w = (none, r, w)) := by
  have hn : rp.MaxRetries.toNat = 0 := Int.toNat_of_nonpos hle
  have hex : rp.Execute action w = (none, w) := by
    unfold RetryPolicy.Execute
    rw [hn]
    rfl
  refine ⟨hex, ?_⟩
  intro r hr
  have hfs : r.firstStage action w = (none, w) := by
    simp [Resilience.firstStage, hr, hex]
  have hbs := Resilience.breakerStage_of_success r action (r.firstStage action w)
    (by rw [hfs])
  have h := Resilience.Execute_without_fallback r action w (Or.inl (by rw [hbs]))
  rw [hbs] at h
  simp only [Resilience.with_same_breaker] at h
  rw [h, hfs]

/-- C26 at a concrete call: the Resilience of the example program with MaxRetries 0 and an
action that always fails: nil is returned and the trace stays empty. -/
theorem C26_no_retries_returns_nil_witness :
    (NewRetryPolicy 0 2000000000).MaxRetries ≤ 0 ∧
    ((NewRetryPolicy 0 2000000000).Execute failing w0).1 = none ∧
    ((exampleResilience.WithRetry (NewRetryPolicy 0 2000000000)).Execute failing w0).1 = none ∧
    ((exampleResilience.WithRetry (NewRetryPolicy 0 2000000000)).Execute failing w0).2.2.trace
      = [] :=
  have h := C26_no_retries_returns_nil (NewRetryPolicy 0 2000000000) (by decide) failing w0
  ⟨by decide, congrArg Prod.fst h.1,
   congrArg Prod.fst (h.2 (exampleResilience.WithRetry (NewRetryPolicy 0 2000000000)) rfl),
   congrArg (fun x => x.2.2.trace)
     (h.2 (exampleResilience.WithRetry (NewRetryPolicy 0 2000000000)) rfl)⟩

end Resilience

namespace Validation

open Resilience (GoError error)

/-! ## Facts about the loop of Validate -/

theorem Validator.loop_none_iff {T : Type} (rules : List (T → error)) (entity : T) :
    (Validator.loop rules entity).1 = none ↔ ∀ rule ∈ rules, rule entity = none := by
  induction rules with
  | nil => simp [Validator.loop]
  | cons rule rest ih =>
    cases h : rule entity with
    | none => simp [Validator.loop, h, ih]
    | some err => simp [Validator.loop, h]

theorem Validator.loop_all_pass {T : Type} (rules : List (T → error)) (entity : T)
    (h : ∀ rule ∈ rules, rule entity = none) :
    (Validator.loop rules entity).2 = rules.map (fun f => f entity) := by
  induction rules with
  | nil => simp [Validator.loop]
  | cons rule rest ih =>
    have h0 : rule entity = none := h rule (by simp)
    have hrest := ih (fun f hf => h f (List.mem_cons_of_mem _ hf))
    simp [Validator.loop, h0, hrest]

theorem Validator.loop_first_failure {T : Type} (entity : T) :
    ∀ (rules : List (T → error)) (i : Nat) (rule : T → error), rules[i]? = some rule →
      (∀ (j : Nat) (rj : T → error), j < i → rules[j]? = some rj → rj entity = none) →
      rule entity ≠ none →
      Validator.loop rules entity =
        (rule entity, (rules.take (i + 1)).map (fun f => f entity)) := by
  intro rules
  induction rules with
  | nil =>
    intro i rule hi
    simp at hi
  | cons r rest ih =>
    intro i rule hi hbefore hfail
    cases i with
    | zero =>
      simp only [List.getElem?_cons_zero, Option.some.injEq] at hi
      subst hi
      cases h : r entity with
      | none => exact absurd h hfail
      | some err => simp [Validator.loop, h]
    | succ i =>
      simp only [List.getElem?_cons_succ] at hi
      have h0 : r entity = none := hbefore 0 r (by omega) (by simp)
      have hrest := ih i rule hi
        (fun j rj hj hrj => hbefore (j + 1) rj (by omega) (by simpa using hrj)) hfail
      simp [Validator.loop, h0, hrest]

/-- On a field of a linearly ordered type (the integer and string types) the rule built by
IsInRange returns nil exactly when min is at most the value and the value is at most max,
both bounds included, and otherwise the error "field is out of range"; when max is below
min it rejects every value. -/
theorem IsInRange_rule_of_linearOrder {T N : Type} [LinearOrder N] (getField : T → N) (min max : N)
    (entity : T) :
    (IsInRange getField min max entity = none ↔
      min ≤ getField entity ∧ getField entity ≤ max) ∧
    (¬ (min ≤ getField entity ∧ getField entity ≤ max) →
      IsInRange getField min max entity = some (GoError.New "field is out of range")) ∧
    (IsInRange getField min min entity = none ↔ getField entity = min) ∧
    (max < min → IsInRange getField min max entity ≠ none) := by
  have key : ∀ mx : N, IsInRange getField min mx entity = none ↔
      min ≤ getField entity ∧ getField entity ≤ mx := by
    intro mx
    by_cases h : getField entity < min ∨ getField entity > mx
    · simp only [IsInRange, h, if_true]
      constructor
      · intro hn; simp at hn
      · intro hr
        rcases h with h | h
        · exact absurd hr.1 (not_le.mpr h)
        · exact absurd hr.2 (not_le.mpr h)
    · simp only [IsInRange, h, if_false, true_iff]
      exact ⟨not_lt.mp (fun hlt => h (Or.inl hlt)), not_lt.mp (fun hgt => h (Or.inr hgt))⟩
  refine ⟨key max, ?_, ?_, ?_⟩
  · intro hout
    have h : getField entity < min ∨ getField entity > max := by
      by_contra hn
      exact hout ⟨not_lt.mp (fun hlt => hn (Or.inl hlt)), not_lt.mp (fun hgt => hn (Or.inr hgt))⟩
    simp only [IsInRange, h, if_true]
  · rw [key min]
    exact ⟨fun h => le_antisymm h.2 h.1, fun h => ⟨le_of_eq h.symm, le_of_eq h⟩⟩
  · intro hlt hnone
    obtain ⟨h1, h2⟩ := (key max).mp hnone
    exact absurd (lt_of_lt_of_le hlt h1) (not_lt.mpr h2)

/-- The inputs of TestIsInRange: the range from 18 to 60 accepts the age 30 and
rejects the ages 10 and 70; the bounds 18 and 60 themselves are accepted. -/
theorem IsInRange_rule_at_ages :
    IsInRange (fun u : TestUser => u.Age) 18 60
        { Name := "", Age := 30, Roles := none, IsActive := false } = none ∧
    IsInRange (fun u : TestUser => u.Age) 18 60
        { Name := "", Age := 10, Roles := none, IsActive := false } =
      some (GoError.New "field is out of range") ∧
    IsInRange (fun u : TestUser => u.Age) 18 60
        { Name := "", Age := 70, Roles := none, IsActive := false } =
      some (GoError.New "field is out of range") ∧
    IsInRange (fun u : TestUser => u.Age) 18 60
        { Name := "", Age := 18, Roles := none, IsActive := false } = none ∧
    IsInRange (fun u : TestUser => u.Age) 18 60
        { Name := "", Age := 60, Roles := none, IsActive := false } = none :=
  ⟨(IsInRange_rule_of_linearOrder (fun u : TestUser => u.Age) 18 60
      { Name := "", Age := 30, Roles := none, IsActive := false }).1.mpr (by decide),
   (IsInRange_rule_of_linearOrder (fun u : TestUser => u.Age) 18 60
      { Name := "", Age := 10, Roles := none, IsActive := false }).2.1 (by decide),
   (IsInRange_rule_of_linearOrder (fun u : TestUser => u.Age) 18 60
      { Name := "", Age := 70, Roles := none, IsActive := false }).2.1 (by decide),
   (IsInRange_rule_of_linearOrder (fun u : TestUser => u.Age) 18 60
      { Name := "", Age := 18, Roles := none, IsActive := false }).1.mpr (by decide),
   (IsInRange_rule_of_linearOrder (fun u : TestUser => u.Age) 18 60
      { Name := "", Age := 60, Roles := none, IsActive := false }).1.mpr (by decide)⟩

/-! ## The claims -/

/-- C18: Validate applies the rules in the order AddRule appended them. It returns nil if
and only if every rule returns nil for the entity; when some rule fails it returns exactly
the error of the first failing rule, and the rules called are those up to and including
that one, none after it; when all pass every rule has been called. A validator with no
rules accepts every entity. -/
theorem C18_validate_first_failure {T : Type} (v : Validator T) (entity : T) :
    (v.Validate entity = none ↔ ∀ rule ∈ v.rules, rule entity = none) ∧
    (∀ (i : Nat) (rule : T → error), v.rules[i]? = some rule →
      (∀ (j : Nat) (rj : T → error), j < i → v.rules[j]? = some rj → rj entity = none) →
      rule entity ≠ none →
      v.Validate entity = rule entity ∧
      v.evaluated entity = (v.rules.take (i + 1)).map (fun f => f entity)) ∧
    (v.Validate entity = none → v.evaluated entity = v.rules.map (fun f => f entity)) ∧
    (NewValidator : Validator T).Validate entity = none ∧
    (∀ rule : T → error, (v.AddRule rule).rules = v.rules ++ [rule]) := by
  refine ⟨Validator.loop_none_iff v.rules entity, ?_, ?_, rfl, fun _ => rfl⟩
  · intro i rule hi hbefore hfail
    have h := Validator.loop_first_failure entity v.rules i rule hi hbefore hfail
    exact ⟨congrArg Prod.fst h, congrArg Prod.snd h⟩
  · intro h
    exact Validator.loop_all_pass v.rules entity ((Validator.loop_none_iff v.rules entity).mp h)

/-- C18 at an input of TestCombinedRules: the name Alexander passes NotEmpty and fails
MaxLength 5; the error of MaxLength is returned and the range rule is not called. -/
theorem C18_validate_first_failure_witness :
    combinedValidator.Validate
        { Name := "Alexander", Age := 70, Roles := none, IsActive := false } =
      some (GoError.New "field exceeds maximum length") ∧
    combinedValidator.evaluated
        { Name := "Alexander", Age := 70, Roles := none, IsActive := false } =
      [none, some (GoError.New "field exceeds maximum length")] ∧
    combinedValidator.Validate
        { Name := "Alice", Age := 30, Roles := none, IsActive := false } = none :=
  have h := (C18_validate_first_failure combinedValidator
      { Name := "Alexander", Age := 70, Roles := none, IsActive := false }).2.1 1
    (MaxLength (fun u => u.Name) 5) rfl
    (by
      intro j rj hj hrj
      have hj0 : j = 0 := by omega
      subst hj0
      simp only [combinedValidator, Validator.AddRule, NewValidator, List.nil_append,
        List.cons_append, List.getElem?_cons_zero, Option.some.injEq] at hrj
      subst hrj
      decide)
    (by decide)
  ⟨h.1.trans (by decide), h.2.trans (by decide),
   ((C18_validate_first_failure combinedValidator
      { Name := "Alice", Age := 30, Roles := none, IsActive := false }).1).mpr
    (by
      intro rule hrule
      simp only [combinedValidator, Validator.AddRule, NewValidator, List.nil_append,
        List.cons_append, List.mem_cons, List.mem_singleton, List.not_mem_nil, or_false] at hrule
      rcases hrule with h | h | h <;> subst h <;> decide)⟩

/-- C19: the rule built by NotEmpty returns an error exactly when isEmpty holds of the field
value, and that error is the one with the text "field cannot be empty"; for a string field
it rejects the empty string and accepts every other string. -/
theorem C19_notEmpty_rule {T : Type} (getField : T → GoValue) (name : T → String)
    (entity : T) :
    (NotEmpty getField entity ≠ none ↔ isEmpty (getField entity) = true) ∧
    (isEmpty (getField entity) = true →
      NotEmpty getField entity = some (GoError.New "field cannot be empty")) ∧
    (isEmpty (getField entity) = false → NotEmpty getField entity = none) ∧
    (NotEmpty (fun e => GoValue.string (name e)) entity ≠ none ↔ name entity = "") ∧
    (NotEmpty (fun e => GoValue.string (name e)) entity = none ↔ name entity ≠ "") := by
  refine ⟨?_, ?_, ?_, ?_, ?_⟩
  · cases h : isEmpty (getField entity) <;> simp [NotEmpty, h]
  · intro h; simp [NotEmpty, h]
  · intro h; simp [NotEmpty, h]
  · by_cases h : name entity = "" <;> simp [NotEmpty, isEmpty, isZero, h]
  · by_cases h : name entity = "" <;> simp [NotEmpty, isEmpty, isZero, h]

/-- C19 at the inputs of TestNotEmpty_String: the name Alice is accepted, the empty name is
rejected. -/
theorem C19_notEmpty_rule_witness :
    NotEmpty nameField { Name := "Alice", Age := 0, Roles := none, IsActive := false } = none ∧
    NotEmpty nameField { Name := "", Age := 0, Roles := none, IsActive := false } =
      some (GoError.New "field cannot be empty") :=
  ⟨(C19_notEmpty_rule nameField (fun u => u.Name)
      { Name := "Alice", Age := 0, Roles := none, IsActive := false }).2.2.1 (by decide),
   (C19_notEmpty_rule nameField (fun u => u.Name)
      { Name := "", Age := 0, Roles := none, IsActive := false }).2.1 (by decide)⟩

/-- C20, the code at the inputs of TestNotEmpty_Array: for the user whose Roles are Admin
and User the rule built by NotEmpty returns nil, and for the user whose Roles are an empty
slice it returns the error "field cannot be empty"; in general the rule on a slice-valued
field returns an error exactly when the slice has no element. -/
theorem C20_notEmpty_slice_rejects_empty :
    rolesValidator.Validate userWithRoles = none ∧
    rolesValidator.Validate userWithoutRoles = some (GoError.New "field cannot be empty") ∧
    (∀ (T : Type) (roles : T → List GoValue) (entity : T),
      NotEmpty (fun e => GoValue.slice (roles e)) entity ≠ none ↔ roles entity = []) := by
  refine ⟨by decide, by decide, ?_⟩
  intro T roles entity
  cases h : roles entity <;> simp [NotEmpty, isEmpty, h]

/-- C21, the code at an input where the claim fails: on a field of type float64 the rule
built by IsInRange for the range from 0 to 1 returns nil for the value NaN, although NaN is
not between the bounds; with the bounds swapped, so that max is below min, the rule still
returns nil for NaN and so does not reject every value. -/
theorem C21_isInRange_accepts_NaN :
    IsInRange (fun x : Float64 => x) (Float64.finite 0) (Float64.finite 1) Float64.NaN = none ∧
    ¬ (Float64.finite 0 ≤ Float64.NaN ∧ Float64.NaN ≤ Float64.finite 1) ∧
    Float64.finite 0 < Float64.finite 1 ∧
    IsInRange (fun x : Float64 => x) (Float64.finite 1) (Float64.finite 0) Float64.NaN = none := by
  decide

/-- C22: the rule built by MaxLength returns an error exactly when the length of the field
exceeds maxLength, and the rule built by MinLength exactly when it is below minLength; a
field of exactly that length is accepted by both. The length is the number of bytes of the
string. -/
theorem C22_length_rules {T : Type} (getField : T → String) (n : Int) (entity : T) :
    (MaxLength getField n entity ≠ none ↔ len (getField entity) > n) ∧
    (MaxLength getField n entity = none ↔ len (getField entity) ≤ n) ∧
    (MinLength getField n entity ≠ none ↔ len (getField entity) < n) ∧
    (MinLength getField n entity = none ↔ n ≤ len (getField entity)) ∧
    (len (getField entity) = n →
      MaxLength getField n entity = none ∧ MinLength getField n entity = none) ∧
    len (getField entity) = ((getField entity).utf8ByteSize : Int) := by
  have hmax : MaxLength getField n entity = none ↔ len (getField entity) ≤ n := by
    by_cases h : len (getField entity) > n
    · simp only [MaxLength, h, if_true]
      constructor
      · intro hn; simp at hn
      · intro hle; omega
    · simp only [MaxLength, h, if_false, true_iff]
      omega
  have hmin : MinLength getField n entity = none ↔ n ≤ len (getField entity) := by
    by_cases h : len (getField entity) < n
    · simp only [MinLength, h, if_true]
      constructor
      · intro hn; simp at hn
      · intro hle; omega
    · simp only [MinLength, h, if_false, true_iff]
      omega
  refine ⟨?_, hmax, ?_, hmin, ?_, rfl⟩
  · rw [Ne, hmax]; omega
  · rw [Ne, hmin]; omega
  · intro heq
    exact ⟨hmax.mpr (le_of_eq heq), hmin.mpr (le_of_eq heq.symm)⟩

/-- C22 at the inputs of TestMaxLength and TestMinLength, and at a name of five characters
that takes six bytes, which MaxLength 5 rejects. -/
theorem C22_length_rules_witness :
    MaxLength (fun u : TestUser => u.Name) 5
        { Name := "Alice", Age := 0, Roles := none, IsActive := false } = none ∧
    MaxLength (fun u : TestUser => u.Name) 5
        { Name := "Alexander", Age := 0, Roles := none, IsActive := false } ≠ none ∧
    MinLength (fun u : TestUser => u.Name) 3
        { Name := "Ali", Age := 0, Roles := none, IsActive := false } = none ∧
    MinLength (fun u : TestUser => u.Name) 3
        { Name := "Al", Age := 0, Roles := none, IsActive := false } ≠ none ∧
    "Zoé R".length = 5 ∧ len "Zoé R" = 6 ∧
    MaxLength (fun u : TestUser => u.Name) 5
        { Name := "Zoé R", Age := 0, Roles := none, IsActive := false } ≠ none :=
  ⟨(C22_length_rules (fun u : TestUser => u.Name) 5
      { Name := "Alice", Age := 0, Roles := none, IsActive := false }).2.2.2.2.1
      (by decide) |>.1,
   (C22_length_rules (fun u : TestUser => u.Name) 5
      { Name := "Alexander", Age := 0, Roles := none, IsActive := false }).1.mpr (by decide),
   (C22_length_rules (fun u : TestUser => u.Name) 3
      { Name := "Ali", Age := 0, Roles := none, IsActive := false }).2.2.2.2.1
      (by decide) |>.2,
   (C22_length_rules (fun u : TestUser => u.Name) 3
      { Name := "Al", Age := 0, Roles := none, IsActive := false }).2.2.1.mpr (by decide),
   by decide, by decide,
   (C22_length_rules (fun u : TestUser => u.Name) 5
      { Name := "Zoé R", Age := 0, Roles := none, IsActive := false }).1.mpr (by decide)⟩

/-- C27: isEmpty is true of nil and of a nil pointer; of an array, channel, map or slice it
is true exactly when the length is 0 (a nil channel, map or slice has length 0); of a
pointer that is not nil it is isEmpty of the value pointed to; of every other value (a
bool, an int, a string, a struct, a func) it is true exactly when the value is deeply equal
to the zero value of its type, which for a bool, an int and a string means false, 0 and
the empty string. -/
theorem C27_isEmpty_cases :
    isEmpty GoValue.nilInterface = true ∧
    isEmpty GoValue.nilPtr = true ∧
    (∀ elems : List GoValue, isEmpty (GoValue.array elems) = true ↔ elems.length = 0) ∧
    isEmpty GoValue.nilChan = true ∧
    (∀ queued : Nat, isEmpty (GoValue.chan queued) = true ↔ queued = 0) ∧
    isEmpty GoValue.nilMap = true ∧
    (∀ entries : List (GoValue × GoValue),
      isEmpty (GoValue.map entries) = true ↔ entries.length = 0) ∧
    isEmpty GoValue.nilSlice = true ∧
    (∀ elems : List GoValue, isEmpty (GoValue.slice elems) = true ↔ elems.length = 0) ∧
    (∀ target : GoValue, isEmpty (GoValue.ptr target) = isEmpty target) ∧
    (∀ b : Bool, isEmpty (GoValue.bool b) = isZero (GoValue.bool b) ∧
      (isEmpty (GoValue.bool b) = true ↔ b = false)) ∧
    (∀ n : Int, isEmpty (GoValue.int n) = isZero (GoValue.int n) ∧
      (isEmpty (GoValue.int n) = true ↔ n = 0)) ∧
    (∀ s : String, isEmpty (GoValue.string s) = isZero (GoValue.string s) ∧
      (isEmpty (GoValue.string s) = true ↔ s = "")) ∧
    (∀ fields : List GoValue,
      isEmpty (GoValue.struct fields) = isZero (GoValue.struct fields) ∧
      (isEmpty (GoValue.struct fields) = true ↔ ∀ f ∈ fields, isZero f = true)) ∧
    isEmpty GoValue.nilFunc = isZero GoValue.nilFunc ∧
    isEmpty GoValue.func = isZero GoValue.func := by
  have hall : ∀ fields : List GoValue, allZero fields = true ↔ ∀ f ∈ fields, isZero f = true := by
    intro fields
    induction fields with
    | nil => simp [allZero]
    | cons v vs ih => simp [allZero, ih]
  refine ⟨rfl, rfl, ?_, rfl, ?_, rfl, ?_, rfl, ?_, ?_, ?_, ?_, ?_, ?_, rfl, rfl⟩
  · intro elems; simp [isEmpty]
  · intro queued; simp [isEmpty]
  · intro entries; simp [isEmpty]
  · intro elems; simp [isEmpty]
  · intro target; simp [isEmpty]
  · intro b; exact ⟨rfl, by cases b <;> simp [isEmpty, isZero]⟩
  · intro n; exact ⟨rfl, by simp [isEmpty, isZero]⟩
  · intro s; exact ⟨rfl, by simp [isEmpty, isZero]⟩
  · intro fields
    refine ⟨rfl, ?_⟩
    simp only [isEmpty, isZero]
    exact hall fields

/-- C27 at the cases of TestIsEmpty, in the order of the test, and at pointers to 0 and to
the empty string. -/
theorem C27_isEmpty_cases_witness :
    isEmpty (GoValue.string "") = true ∧
    isEmpty (GoValue.slice []) = true ∧
    isEmpty (GoValue.map []) = true ∧
    isEmpty (GoValue.slice []) = true ∧
    isEmpty (GoValue.string "Foo") = false ∧
    isEmpty (GoValue.slice [GoValue.int 1, GoValue.int 2, GoValue.int 3]) = false ∧
    isEmpty (GoValue.map [(GoValue.string "foo", GoValue.string "bar")]) = false ∧
    isEmpty GoValue.nilPtr = true ∧
    isEmpty GoValue.nilInterface = true ∧
    isEmpty GoValue.nilInterface = true ∧
    isEmpty (GoValue.ptr (GoValue.int 5)) = false ∧
    isEmpty (GoValue.ptr (GoValue.int 0)) = true ∧
    isEmpty (GoValue.ptr (GoValue.string "")) = true :=
  ⟨(C27_isEmpty_cases.2.2.2.2.2.2.2.2.2.2.2.2.1 "").2.mpr rfl,
   (C27_isEmpty_cases.2.2.2.2.2.2.2.2.1 []).mpr rfl,
   (C27_isEmpty_cases.2.2.2.2.2.2.1 []).mpr rfl,
   (C27_isEmpty_cases.2.2.2.2.2.2.2.2.1 []).mpr rfl,
   by decide, by decide, by decide,
   C27_isEmpty_cases.2.1, C27_isEmpty_cases.1, C27_isEmpty_cases.1,
   (C27_isEmpty_cases.2.2.2.2.2.2.2.2.2.1 (GoValue.int 5)).trans (by decide),
   (C27_isEmpty_cases.2.2.2.2.2.2.2.2.2.1 (GoValue.int 0)).trans (by decide),
   (C27_isEmpty_cases.2.2.2.2.2.2.2.2.2.1 (GoValue.string "")).trans (by decide)⟩

end Validation

namespace Ratelimit

open Resilience (GoError error)

/-! ## Facts about the conversion to float64 -/

theorem log2_half (n : Nat) (h : 2 ≤ n) : Nat.log2 n = Nat.log2 (n / 2) + 1 := by
  rw [Nat.log2]
  simp [h]

theorem spacing_small (fuel n : Nat) (h : n < 2 ^ 53) : spacing fuel n = 1 := by
  cases fuel with
  | zero => rfl
  | succ k => simp only [spacing, h, if_true]

theorem log2_small (n : Nat) (h : n < 2 ^ 53) : Nat.log2 n - 52 = 0 := by
  by_cases h0 : n = 0
  · subst h0
    rw [Nat.log2]
    simp
  · have := (Nat.log2_lt h0).mpr h
    omega

/-- With enough fuel the spacing is the power of two that leaves 53 significant binary
digits. -/
theorem spacing_eq (fuel : Nat) : ∀ n : Nat, n < 2 ^ (53 + fuel) →
    spacing fuel n = 2 ^ (Nat.log2 n - 52) := by
  induction fuel with
  | zero =>
    intro n h
    rw [spacing_small 0 n h, log2_small n h]
    rfl
  | succ k ih =>
    intro n h
    by_cases hs : n < 2 ^ 53
    · rw [spacing_small _ n hs, log2_small n hs]
      rfl
    · have hge : 2 ^ 53 ≤ n := not_lt.mp hs
      have h2 : 2 ≤ n := le_trans (by decide) hge
      have hhalf : n / 2 < 2 ^ (53 + k) := by
        have : 2 ^ (53 + (k + 1)) = 2 * 2 ^ (53 + k) := by
          rw [← Nat.add_assoc, Nat.pow_succ, Nat.mul_comm]
        omega
      have hhalf0 : n / 2 ≠ 0 := by omega
      have hl : 52 ≤ Nat.log2 (n / 2) := (Nat.le_log2 hhalf0).mpr (by omega)
      simp only [spacing, hs, if_false]
      rw [ih (n / 2) hhalf, log2_half n h2]
      have : Nat.log2 (n / 2) + 1 - 52 = (Nat.log2 (n / 2) - 52) + 1 := by omega
      rw [this, Nat.pow_succ, Nat.mul_comm]

/-- The conversion is exact below `2 ^ 53`, and above it rounds to the multiple of
`2 ^ (log2 n - 52)` nearest to `n`, ties to even. -/
theorem float64Nat_eq (n : Nat) :
    float64Nat n = if n < 2 ^ 53 then n else roundHalfEven (2 ^ (Nat.log2 n - 52)) n := by
  unfold float64Nat
  by_cases hs : n < 2 ^ 53
  · simp only [hs, if_true, spacing_small n n hs]
    unfold roundHalfEven
    simp [Nat.mod_one]
  · simp only [hs, if_false]
    rw [spacing_eq n n]
    have : n < 2 ^ n := Nat.lt_two_pow n
    have h2 : 2 ^ n ≤ 2 ^ (53 + n) := Nat.pow_le_pow_right (by decide) (by omega)
    omega

theorem roundHalfEven_bounds (P n : Nat) :
    n / P * P ≤ roundHalfEven P n ∧ roundHalfEven P n ≤ (n / P + 1) * P := by
  have h : n / P * P ≤ (n / P + 1) * P := Nat.mul_le_mul_right P (Nat.le_succ _)
  unfold roundHalfEven
  split_ifs <;> exact ⟨by first | exact le_refl _ | exact h, by first | exact le_refl _ | exact h⟩

theorem roundHalfEven_of_dvd (P n : Nat) (hP : 0 < P) (h : P ∣ n) : roundHalfEven P n = n := by
  have hmod : n % P = 0 := Nat.mod_eq_zero_of_dvd h
  unfold roundHalfEven
  simp only [hmod, Nat.mul_zero, hP, if_true]
  exact Nat.div_mul_cancel h

theorem roundHalfEven_mono (P a b : Nat) (hP : 0 < P) (hab : a ≤ b) :
    roundHalfEven P a ≤ roundHalfEven P b := by
  have hq : a / P ≤ b / P := Nat.div_le_div_right hab
  rcases Nat.eq_or_lt_of_le hq with heq | hlt
  · have ha := Nat.div_add_mod a P
    have hb := Nat.div_add_mod b P
    have hr : a % P ≤ b % P := by
      rw [heq] at ha
      omega
    have hs : (b / P + 1) * P = b / P * P + P := by rw [Nat.add_mul, Nat.one_mul]
    unfold roundHalfEven
    rw [heq]
    split_ifs <;> omega
  · calc roundHalfEven P a ≤ (a / P + 1) * P := (roundHalfEven_bounds P a).2
      _ ≤ b / P * P := Nat.mul_le_mul_right P hlt
      _ ≤ roundHalfEven P b := (roundHalfEven_bounds P b).1

/-- The conversion keeps the order of the natural numbers. -/
theorem float64Nat_mono (a b : Nat) (hab : a ≤ b) : float64Nat a ≤ float64Nat b := by
  rw [float64Nat_eq a, float64Nat_eq b]
  by_cases hb : b < 2 ^ 53
  · have ha : a < 2 ^ 53 := lt_of_le_of_lt hab hb
    simp only [ha, hb, if_true]
    exact hab
  · have hb0 : b ≠ 0 := by
      intro h
      rw [h] at hb
      exact hb (by decide)
    have hlb : 53 ≤ Nat.log2 b := (Nat.le_log2 hb0).mpr (not_lt.mp hb)
    have hMb : 2 ^ Nat.log2 b ≤ b := Nat.log2_self_le hb0
    have hdvdb : 2 ^ (Nat.log2 b - 52) ∣ 2 ^ Nat.log2 b := Nat.pow_dvd_pow 2 (Nat.sub_le _ _)
    have hposb : 0 < 2 ^ (Nat.log2 b - 52) := pow_pos (by decide) _
    have hMle : 2 ^ Nat.log2 b ≤ roundHalfEven (2 ^ (Nat.log2 b - 52)) b := by
      have := roundHalfEven_mono _ _ _ hposb hMb
      rwa [roundHalfEven_of_dvd _ _ hposb hdvdb] at this
    simp only [hb, if_false]
    by_cases ha : a < 2 ^ 53
    · simp only [ha, if_true]
      have : 2 ^ 53 ≤ 2 ^ Nat.log2 b := Nat.pow_le_pow_right (by decide) hlb
      omega
    · have ha0 : a ≠ 0 := by
        intro h
        rw [h] at ha
        exact ha (by decide)
      simp only [ha, if_false]
      have hle : Nat.log2 a ≤ Nat.log2 b := by
        by_contra hn
        have hlt : Nat.log2 b < Nat.log2 a := not_le.mp hn
        have h1 : b < 2 ^ Nat.log2 a := (Nat.log2_lt hb0).mp hlt
        have h2 : 2 ^ Nat.log2 a ≤ a := Nat.log2_self_le ha0
        omega
      rcases Nat.eq_or_lt_of_le hle with heq | hlt
      · rw [heq]
        exact roundHalfEven_mono _ _ _ hposb hab
      · have hposa : 0 < 2 ^ (Nat.log2 a - 52) := pow_pos (by decide) _
        have haM : a ≤ 2 ^ Nat.log2 b := by
          have h1 : a < 2 ^ (Nat.log2 a + 1) := Nat.lt_log2_self
          have h2 : 2 ^ (Nat.log2 a + 1) ≤ 2 ^ Nat.log2 b := Nat.pow_le_pow_right (by decide) hlt
          omega
        have hdvda : 2 ^ (Nat.log2 a - 52) ∣ 2 ^ Nat.log2 b :=
          Nat.pow_dvd_pow 2 (by omega)
        have := roundHalfEven_mono _ _ _ hposa haM
        rw [roundHalfEven_of_dvd _ _ hposa hdvda] at this
        exact le_trans this hMle

theorem float64_mono_of_nonneg (a b : Int) (ha : 0 ≤ a) (hab : a ≤ b) :
    0 ≤ float64 a ∧ float64 a ≤ float64 b := by
  obtain ⟨x, rfl⟩ := Int.eq_ofNat_of_zero_le ha
  obtain ⟨y, rfl⟩ := Int.eq_ofNat_of_zero_le (le_trans ha hab)
  have hxy : x ≤ y := by exact_mod_cast hab
  show (0 : Int) ≤ (float64Nat x : Int) ∧ (float64Nat x : Int) ≤ (float64Nat y : Int)
  exact ⟨Int.ofNat_nonneg _, by exact_mod_cast float64Nat_mono x y hxy⟩

theorem float64_zero : float64 0 = 0 := by decide

/-- The conversion keeps the order of the integers. -/
theorem float64_mono (a b : Int) (hab : a ≤ b) : float64 a ≤ float64 b := by
  cases a with
  | ofNat x =>
    cases b with
    | ofNat y =>
      have hxy : x ≤ y := by
        simp only [Int.ofNat_eq_coe] at hab
        exact_mod_cast hab
      show (float64Nat x : Int) ≤ (float64Nat y : Int)
      exact_mod_cast float64Nat_mono x y hxy
    | negSucc y =>
      simp only [Int.ofNat_eq_coe, Int.negSucc_eq] at hab
      omega
  | negSucc x =>
    cases b with
    | ofNat y =>
      show -(float64Nat (x + 1) : Int) ≤ (float64Nat y : Int)
      omega
    | negSucc y =>
      have hyx : y ≤ x := by
        simp only [Int.negSucc_eq] at hab
        omega
      show -(float64Nat (x + 1) : Int) ≤ -(float64Nat (y + 1) : Int)
      have := float64Nat_mono (y + 1) (x + 1) (by omega)
      omega

theorem float64_nonneg (a : Int) (ha : 0 ≤ a) : 0 ≤ float64 a :=
  (float64_mono_of_nonneg a a ha (le_refl a)).1

/-! ## Facts about one call of Allow -/

theorem Redis.live_subset (db : Redis) (key : String) (now : Int) (m : Z)
    (h : m ∈ db.live key now) : m ∈ db.members key := by
  unfold Redis.live at h
  cases hd : db.deadline key with
  | none => simpa [hd] using h
  | some d =>
    by_cases hle : d ≤ now
    · simp [hd, hle] at h
    · simpa [hd, hle] using h

theorem Redis.live_of_empty (db : Redis) (key : String) (now : Int)
    (h : db.members key = []) : db.live key now = [] := by
  unfold Redis.live
  cases hd : db.deadline key with
  | none => simp [h]
  | some d => by_cases hle : d ≤ now <;> simp [hle, h]

/-- The entries at the key after a call of Allow that Redis served. -/
theorem RateLimit.Allow_members (rl : RateLimit) (identifier : String) (now : Int)
    (db : Redis) :
    (rl.Allow identifier now none db).2.members (rl.getKey identifier) =
      (if ((db.live (rl.getKey identifier) now).filter
            (fun e => !(decide (float64 0 ≤ e.Score) &&
              decide (e.Score ≤ float64 (now - rl.per))))).any
            (fun e => decide (e.Member = now))
        then ((db.live (rl.getKey identifier) now).filter
            (fun e => !(decide (float64 0 ≤ e.Score) &&
              decide (e.Score ≤ float64 (now - rl.per))))).map
            (fun e => if e.Member = now then entryAt now else e)
        else (db.live (rl.getKey identifier) now).filter
            (fun e => !(decide (float64 0 ≤ e.Score) &&
              decide (e.Score ≤ float64 (now - rl.per)))) ++ [entryAt now]) := by
  simp only [RateLimit.Allow, Expire, ZAdd, ZRemRangeByScore, Redis.setMembers, entryAt,
    if_true]

theorem RateLimit.Allow_result (rl : RateLimit) (identifier : String) (now : Int)
    (db : Redis) :
    (rl.Allow identifier now none db).1 =
      (decide ((((rl.Allow identifier now none db).2.members (rl.getKey identifier)).length : Int)
        ≤ rl.rate), none) := by
  simp only [RateLimit.Allow, Expire, ZAdd, ZRemRangeByScore, Redis.setMembers, ZCard,
    if_true]

theorem RateLimit.Allow_deadline (rl : RateLimit) (identifier : String) (now : Int)
    (db : Redis) :
    (rl.Allow identifier now none db).2.deadline (rl.getKey identifier) = some (now + rl.per) := by
  simp only [RateLimit.Allow, Expire, if_true]

/-- A call made while every entry seen has a score above the upper bound of the range
dropped, at an instant that is not yet a member, only adds its entry. -/
theorem RateLimit.Allow_members_in_window (rl : RateLimit) (identifier : String) (now : Int)
    (db : Redis)
    (hyoung : ∀ e ∈ db.live (rl.getKey identifier) now, float64 (now - rl.per) < e.Score)
    (hnew : ∀ e ∈ db.live (rl.getKey identifier) now, e.Member ≠ now) :
    (rl.Allow identifier now none db).2.members (rl.getKey identifier) =
      db.live (rl.getKey identifier) now ++ [entryAt now] := by
  have hfilter : (db.live (rl.getKey identifier) now).filter
      (fun e => !(decide (float64 0 ≤ e.Score) &&
        decide (e.Score ≤ float64 (now - rl.per)))) =
      db.live (rl.getKey identifier) now := by
    apply List.filter_eq_self.mpr
    intro e he
    have := hyoung e he
    have hgt : ¬ e.Score ≤ float64 (now - rl.per) := not_le.mpr this
    simp [hgt]
  have hany : (db.live (rl.getKey identifier) now).any (fun e => decide (e.Member = now)) =
      false := by
    rw [List.any_eq_false]
    intro e he
    simpa using hnew e he
  rw [RateLimit.Allow_members, hfilter, hany]
  simp

/-- A call made when every entry seen has a score from 0 to the upper bound of the range
dropped leaves its own entry as the only one. -/
theorem RateLimit.Allow_members_after_window (rl : RateLimit) (identifier : String)
    (now : Int) (db : Redis)
    (hold : ∀ e ∈ db.live (rl.getKey identifier) now,
      0 ≤ e.Score ∧ e.Score ≤ float64 (now - rl.per)) :
    (rl.Allow identifier now none db).2.members (rl.getKey identifier) = [entryAt now] := by
  have hfilter : (db.live (rl.getKey identifier) now).filter
      (fun e => !(decide (float64 0 ≤ e.Score) &&
        decide (e.Score ≤ float64 (now - rl.per)))) = [] := by
    apply List.filter_eq_nil_iff.mpr
    intro e he
    have := hold e he
    simp [float64_zero, this.1, this.2]
  rw [RateLimit.Allow_members, hfilter]
  simp

theorem RateLimit.Allow_mem_iff (rl : RateLimit) (identifier : String) (now : Int)
    (db : Redis) (e : Z) :
    e ∈ (rl.Allow identifier now none db).2.members (rl.getKey identifier) ↔
      e = entryAt now ∨ (e ∈ db.live (rl.getKey identifier) now ∧
        ¬ (0 ≤ e.Score ∧ e.Score ≤ float64 (now - rl.per)) ∧ e.Member ≠ now) := by
  have hf : ∀ x : Z, x ∈ (db.live (rl.getKey identifier) now).filter
        (fun e => !(decide (float64 0 ≤ e.Score) &&
          decide (e.Score ≤ float64 (now - rl.per)))) ↔
      x ∈ db.live (rl.getKey identifier) now ∧
        ¬ (0 ≤ x.Score ∧ x.Score ≤ float64 (now - rl.per)) := by
    intro x
    rw [List.mem_filter, float64_zero]
    constructor
    · rintro ⟨h1, h2⟩
      refine ⟨h1, ?_⟩
      rintro ⟨ha, hb⟩
      simp [ha, hb] at h2
    · rintro ⟨h1, h2⟩
      refine ⟨h1, ?_⟩
      have : ¬ (0 ≤ x.Score) ∨ ¬ (x.Score ≤ float64 (now - rl.per)) := by
        by_contra hc
        push_neg at hc
        exact h2 hc
      rcases this with h | h <;> simp [h]
  rw [RateLimit.Allow_members]
  by_cases hany : ((db.live (rl.getKey identifier) now).filter
      (fun e => !(decide (float64 0 ≤ e.Score) &&
        decide (e.Score ≤ float64 (now - rl.per))))).any (fun e => decide (e.Member = now)) = true
  · rw [if_pos hany]
    obtain ⟨e0, he0, hm0⟩ := List.any_eq_true.mp hany
    have hm0 : e0.Member = now := by simpa using hm0
    rw [List.mem_map]
    constructor
    · rintro ⟨x, hx, hxe⟩
      by_cases hxm : x.Member = now
      · rw [if_pos hxm] at hxe
        exact Or.inl hxe.symm
      · rw [if_neg hxm] at hxe
        subst hxe
        exact Or.inr ⟨((hf x).mp hx).1, ((hf x).mp hx).2, hxm⟩
    · rintro (rfl | ⟨h1, h2, h3⟩)
      · exact ⟨e0, he0, by rw [if_pos hm0]⟩
      · exact ⟨e, (hf e).mpr ⟨h1, h2⟩, by rw [if_neg h3]⟩
  · rw [if_neg hany]
    have hnone : ∀ x ∈ (db.live (rl.getKey identifier) now).filter
        (fun e => !(decide (float64 0 ≤ e.Score) &&
          decide (e.Score ≤ float64 (now - rl.per)))), x.Member ≠ now := by
      intro x hx hxm
      exact hany (List.any_eq_true.mpr ⟨x, hx, by simpa using hxm⟩)
    simp only [List.mem_append, List.mem_singleton]
    constructor
    · rintro (hm | rfl)
      · exact Or.inr ⟨((hf e).mp hm).1, ((hf e).mp hm).2, hnone e hm⟩
      · exact Or.inl rfl
    · rintro (rfl | ⟨h1, h2, _⟩)
      · exact Or.inr rfl
      · exact Or.inl ((hf e).mpr ⟨h1, h2⟩)

/-- A run of calls that all fall in one window of scores, at instants not used before:
nothing is dropped, so the call that finds `k` entries is allowed exactly when `k + 1` is
within the rate. -/
theorem RateLimit.allowAll_in_window (rl : RateLimit) (identifier : String) :
    ∀ (rest : List Int) (db : Redis) (done : List Int),
      db.members (rl.getKey identifier) = done.map entryAt →
      (∀ b ∈ rest, db.live (rl.getKey identifier) b = done.map entryAt) →
      (done ++ rest).Nodup →
      (∀ a ∈ done ++ rest, ∀ b ∈ done ++ rest, float64 (b - rl.per) < float64 a) →
      (rl.allowAll identifier rest db).1 =
        (List.range rest.length).map
          (fun i => decide (((done.length + i + 1 : Nat) : Int) ≤ rl.rate)) ∧
      (rl.allowAll identifier rest db).2.members (rl.getKey identifier) =
        (done ++ rest).map entryAt := by
  intro rest
  induction rest with
  | nil =>
    intro db done hm _ _ _
    simp [RateLimit.allowAll, hm]
  | cons now rest ih =>
    intro db done hm hlive hnd hwin
    have hl : db.live (rl.getKey identifier) now = done.map entryAt := hlive now (by simp)
    have hyoung : ∀ e ∈ db.live (rl.getKey identifier) now,
        float64 (now - rl.per) < e.Score := by
      intro e hmem
      rw [hl] at hmem
      obtain ⟨a, ha, rfl⟩ := List.mem_map.mp hmem
      exact hwin a (by simp [ha]) now (by simp)
    have hnew : ∀ e ∈ db.live (rl.getKey identifier) now, e.Member ≠ now := by
      intro e hmem
      rw [hl] at hmem
      obtain ⟨a, ha, rfl⟩ := List.mem_map.mp hmem
      intro heq
      have hin : now ∈ done := by
        have : a = now := heq
        rw [← this]
        exact ha
      have := List.nodup_append.mp hnd
      exact this.2.2 hin (by simp)
    have hmem := RateLimit.Allow_members_in_window rl identifier now db hyoung hnew
    rw [hl] at hmem
    have hmem2 : (rl.Allow identifier now none db).2.members (rl.getKey identifier) =
        (done ++ [now]).map entryAt := by
      rw [hmem]
      simp
    have hres := RateLimit.Allow_result rl identifier now db
    rw [hmem2] at hres
    have hlive2 : ∀ b ∈ rest,
        (rl.Allow identifier now none db).2.live (rl.getKey identifier) b =
          (done ++ [now]).map entryAt := by
      intro b hb
      have hlt : float64 (b - rl.per) < float64 now := hwin now (by simp) b (by simp [hb])
      have hnle : ¬ now + rl.per ≤ b := by
        intro hle
        have := float64_mono now (b - rl.per) (by omega)
        omega
      unfold Redis.live
      rw [RateLimit.Allow_deadline]
      simp only [hnle, if_false]
      exact hmem2
    obtain ⟨i1, i2⟩ := ih (rl.Allow identifier now none db).2 (done ++ [now]) hmem2 hlive2
      (by simpa [List.append_assoc] using hnd)
      (by simpa [List.append_assoc] using hwin)
    simp only [RateLimit.allowAll, List.length_cons]
    refine ⟨?_, by rw [i2]; simp⟩
    rw [i1, hres, List.range_succ_eq_map]
    simp only [List.map_cons, List.map_map, List.length_append, List.length_singleton,
      List.length_map, Nat.add_zero]
    congr 1
    apply List.map_congr_left
    intro i _
    simp only [Function.comp]
    congr 2
    omega

/-! ## The claims -/

/-- C23, the code at an input where the claim fails: a limiter of rate 1 per second, a key
with no entry, and two calls at distinct instants less than a second apart, so both within
one window. The second call returns true, not false: the score of the first entry is its
instant rounded to a float64, which is not above the instant of the second call minus one
second, and the second call drops it. -/
theorem C23_window_edge_entry_is_dropped :
    (1 : Int) ≤ edgeLimiter.rate ∧ edgeLimiter.rate = 1 ∧
    Redis.empty.members (edgeLimiter.getKey "user:123") = [] ∧
    edgeCalls.Nodup ∧
    (∀ a ∈ edgeCalls, ∀ b ∈ edgeCalls, b - edgeLimiter.per < a) ∧
    (edgeLimiter.allowAll "user:123" edgeCalls Redis.empty).1 = [true, true] ∧
    (edgeLimiter.allowAll "user:123" edgeCalls Redis.empty).1[1]? ≠ some false := by
  decide

/-- C23 as amended: for a limiter of rate r at least 1, from a key with no entry, calls at
pairwise distinct instants that all fall in one window as the scores show it (the instant
of each, rounded to a float64, is above the rounded value of the instant of every one of
them minus per) are allowed exactly as long as fewer than r calls came before: the first r
return true, the next returns false. A call made more than per after every one of them
returns true again. In general, a call that Redis serves returns true exactly when the set
left at the key has at most r entries, and that set holds the entry of the call, whose
score is its instant rounded to a float64, and the entries seen of other members whose
score does not lie between 0 and the rounded value of now - per. -/
theorem C23_sliding_window_of_scores (rl : RateLimit) (identifier : String) (db : Redis)
    (r : Nat) (hr : 1 ≤ r) (hrate : rl.rate = (r : Int))
    (hempty : db.members (rl.getKey identifier) = []) (ts : List Int) (hdist : ts.Nodup)
    (hwin : ∀ a ∈ ts, ∀ b ∈ ts, float64 (b - rl.per) < float64 a) :
    (rl.allowAll identifier ts db).1 = (List.range ts.length).map (fun i => decide (i < r)) ∧
    (∀ i : Nat, i < ts.length → i < r → (rl.allowAll identifier ts db).1[i]? = some true) ∧
    (r < ts.length → (rl.allowAll identifier ts db).1[r]? = some false) ∧
    (∀ T : Int, (∀ a ∈ ts, 0 ≤ a ∧ a + rl.per < T) →
      (rl.Allow identifier T none (rl.allowAll identifier ts db).2).1 = (true, none)) ∧
    (∀ (now : Int) (db2 : Redis),
      ((rl.Allow identifier now none db2).1.1 = true ↔
        (((rl.Allow identifier now none db2).2.members (rl.getKey identifier)).length : Int)
          ≤ rl.rate) ∧
      (rl.Allow identifier now none db2).1.2 = none ∧
      (∀ e : Z, e ∈ (rl.Allow identifier now none db2).2.members (rl.getKey identifier) ↔
        e = { Score := float64 now, Member := now } ∨
          (e ∈ db2.live (rl.getKey identifier) now ∧
            ¬ (0 ≤ e.Score ∧ e.Score ≤ float64 (now - rl.per)) ∧ e.Member ≠ now))) := by
  obtain ⟨h1, h2⟩ := RateLimit.allowAll_in_window rl identifier ts db [] (by simpa using hempty)
    (fun b _ => by simpa using Redis.live_of_empty db _ b hempty) (by simpa using hdist)
    (by simpa using hwin)
  have hres : (rl.allowAll identifier ts db).1 =
      (List.range ts.length).map (fun i => decide (i < r)) := by
    rw [h1]
    apply List.map_congr_left
    intro i _
    rw [hrate]
    simp only [List.length_nil, Nat.zero_add, Nat.cast_le, decide_eq_decide]
    omega
  refine ⟨hres, ?_, ?_, ?_, ?_⟩
  · intro i hi hir
    rw [hres]
    simp [hi, hir]
  · intro hlen
    rw [hres]
    simp [hlen]
  · intro T hT
    have hold : ∀ e ∈ (rl.allowAll identifier ts db).2.live (rl.getKey identifier) T,
        0 ≤ e.Score ∧ e.Score ≤ float64 (T - rl.per) := by
      intro e he
      have hmem := Redis.live_subset _ _ _ _ he
      rw [h2] at hmem
      obtain ⟨a, ha, rfl⟩ := List.mem_map.mp hmem
      have := hT a (by simpa using ha)
      exact ⟨float64_nonneg a this.1, float64_mono a (T - rl.per) (by omega)⟩
    have hm := RateLimit.Allow_members_after_window rl identifier T _ hold
    rw [RateLimit.Allow_result, hm, hrate]
    simp only [List.length_singleton, Nat.cast_one, Prod.mk.injEq, decide_eq_true_eq, and_true]
    exact_mod_cast hr
  · intro now db2
    refine ⟨?_, ?_, RateLimit.Allow_mem_iff rl identifier now db2⟩
    · rw [RateLimit.Allow_result]
      simp
    · rw [RateLimit.Allow_result]

/-- C23 as amended, at the input of the test: 5 calls per minute, six calls one
millisecond apart on a new key, then a call a minute and a second later. -/
theorem C23_sliding_window_of_scores_witness :
    (1 ≤ 5) ∧ testLimiter.rate = ((5 : Nat) : Int) ∧
    Redis.empty.members (testLimiter.getKey "user:123") = [] ∧
    sixCalls.Nodup ∧
    (∀ a ∈ sixCalls, ∀ b ∈ sixCalls, float64 (b - testLimiter.per) < float64 a) ∧
    (testLimiter.allowAll "user:123" sixCalls Redis.empty).1 =
      [true, true, true, true, true, false] ∧
    (testLimiter.Allow "user:123" 1700000061005000000 none
      (testLimiter.allowAll "user:123" sixCalls Redis.empty).2).1 = (true, none) :=
  have h := C23_sliding_window_of_scores testLimiter "user:123" Redis.empty 5 (by decide)
    (by decide) (by decide) sixCalls (by decide) (by decide)
  ⟨by decide, by decide, by decide, by decide, by decide, h.1.trans (by decide),
   h.2.2.2.1 1700000061005000000 (by decide)⟩

end Ratelimit
